import Mathlib

/-! go-sesa: the vector-clock index facade and the admission checkers.

A shallow embedding of `vecmt/index.go` (the `Index` facade over the
vector-clock engine) and of the two `Checker.Enqueue` admission gates in
`eventcheck/evallcheck` and `eventcheck/bvallcheck`, followed by the
properties established about them.

Go pointers to mutable objects become explicit state that is passed in and
returned.  Go `error` values become `Option ε` (`none` is `nil`).
-/

set_option autoImplicit false

/-! ## Identifiers -/

namespace idx

/-- Identity of a validator (`idx.ValidatorID`). -/
abbrev ValidatorID := Nat

/-- Position of a validator inside the validator set (`idx.Validator`). -/
abbrev Validator := Nat

/-- Per-creator sequence number of an event (`idx.Event`). -/
abbrev Event := Nat

end idx

namespace hash

/-- Identifier of an event (`hash.Event`, a content hash). -/
abbrev Event := Nat

end hash

namespace native

/-- Creation time of an event (`native.Timestamp`). -/
abbrev Timestamp := Nat

end native

/-! ## Admission checkers (`eventcheck/evallcheck`, `eventcheck/bvallcheck`) -/

namespace evallcheck

/-- The type `LightCheck func(evs native.LlrSignedEpochVote) error`. -/
abbrev LightCheck (α ε : Type) := α → Option ε

/-- The interface `HeavyCheck`: its method `Enqueue(evs, checked) error` is
handed the input and the callback, acts on the world `σ` (which includes
whatever the callback does when it is invoked) and returns an error. -/
structure HeavyCheck (σ α ε : Type) where
  Enqueue : α → (Option ε → σ → σ) → σ → Option ε × σ

/-- The struct `Checker`. -/
structure Checker (σ α ε : Type) where
  HeavyCheck : HeavyCheck σ α ε
  LightCheck : LightCheck α ε

/-- The method `Checker.Enqueue` of `evallcheck.go`: run the light check
right away; on an error hand it to `checked` and return; otherwise enqueue
the heavy check with the same callback and discard the error it returns. -/
def Checker.Enqueue {σ α ε : Type} (c : Checker σ α ε) (evs : α)
    (checked : Option ε → σ → σ) (w : σ) : σ :=
  match c.LightCheck evs with
  | some err => checked (some err) w
  | none => (c.HeavyCheck.Enqueue evs checked w).2

end evallcheck

namespace bvallcheck

/-- The type `LightCheck func(bvs native.LlrSignedBlockVotes) error`. -/
abbrev LightCheck (α ε : Type) := α → Option ε

/-- The interface `HeavyCheck` of the block-vote checker. -/
structure HeavyCheck (σ α ε : Type) where
  Enqueue : α → (Option ε → σ → σ) → σ → Option ε × σ

/-- The struct `Checker`. -/
structure Checker (σ α ε : Type) where
  HeavyCheck : HeavyCheck σ α ε
  LightCheck : LightCheck α ε

/-- The method `Checker.Enqueue` of `all_check.go`. -/
def Checker.Enqueue {σ α ε : Type} (c : Checker σ α ε) (bvs : α)
    (checked : Option ε → σ → σ) (w : σ) : σ :=
  match c.LightCheck bvs with
  | some err => checked (some err) w
  | none => (c.HeavyCheck.Enqueue bvs checked w).2

end bvallcheck

namespace eventcheck

/-- What an observer of one `Enqueue` call can see: an invocation of the
`checked` callback with its argument, or a call of `HeavyCheck.Enqueue`. -/
inductive Action (α ε : Type) where
  | checked (err : Option ε)
  | heavyEnqueue (input : α)
  deriving DecidableEq, Repr

/-- The recording callback: it appends its own invocation to the log. -/
def record {α ε : Type} (err : Option ε) (log : List (Action α ε)) : List (Action α ε) :=
  log ++ [Action.checked err]

/-- Number of callback invocations in a log. -/
def invocations {α ε : Type} : List (Action α ε) → Nat
  | [] => 0
  | Action.checked _ :: rest => invocations rest + 1
  | Action.heavyEnqueue _ :: rest => invocations rest

/-- Number of `HeavyCheck.Enqueue` calls in a log. -/
def heavyCalls {α ε : Type} : List (Action α ε) → Nat
  | [] => 0
  | Action.checked _ :: rest => heavyCalls rest
  | Action.heavyEnqueue _ :: rest => heavyCalls rest + 1

/-- A heavy checker that logs the call it receives and then behaves like
`inner`. -/
def logged {α ε : Type}
    (inner : α → (Option ε → List (Action α ε) → List (Action α ε)) →
      List (Action α ε) → Option ε × List (Action α ε))
    (x : α) (cb : Option ε → List (Action α ε) → List (Action α ε))
    (log : List (Action α ε)) : Option ε × List (Action α ε) :=
  inner x cb (log ++ [Action.heavyEnqueue x])

end eventcheck

/-! ## External collaborators of the index -/

namespace pos

/-- Voting weight of a validator (`pos.Weight`). -/
abbrev Weight := Nat

/-- Modelled from the spec: the validator set `pos.Validators` of the
go-vassalo library, which is not part of the sources: an "ordered list of
`(ValidatorID, Weight)`; total weight and quorum are derived". -/
structure Validators where
  entries : List (idx.ValidatorID × Weight)
  deriving DecidableEq, Repr

/-- Number of validators. -/
def Validators.Len (v : Validators) : Nat := v.entries.length

/-- Sum of all weights. -/
def Validators.TotalWeight (v : Validators) : Weight := (v.entries.map Prod.snd).sum

/-- Modelled from the spec: the quorum, the "smallest weight sum exceeding
2/3 of total". -/
def Validators.Quorum (v : Validators) : Weight := v.TotalWeight * 2 / 3 + 1

/-- Pairs every identity of `ids` with its position, counting from `i`. -/
def idxsFrom : Nat → List idx.ValidatorID → List (idx.ValidatorID × idx.Validator)
  | _, [] => []
  | i, id :: rest => (id, i) :: idxsFrom (i + 1) rest

/-- The method `Idxs`: the map from validator identity to its position in
the ordered list. -/
def Validators.Idxs (v : Validators) : List (idx.ValidatorID × idx.Validator) :=
  idxsFrom 0 (v.entries.map Prod.fst)

/-- Weight of the validator at position `i` (0 when out of range). -/
def Validators.GetWeightByIdx (v : Validators) (i : idx.Validator) : Weight :=
  ((v.entries.map Prod.snd).get? i).getD 0

end pos

namespace dag

/-- Modelled from the spec: the interface `dag.Event` of the go-vassalo
library: "identifier (content hash), creator validator identity,
per-creator monotonic sequence number, creation timestamp, ordered list of
parent event identifiers". -/
structure Event where
  ID : hash.Event
  Creator : idx.ValidatorID
  Seq : idx.Event
  CreationTime : native.Timestamp
  Parents : List hash.Event
  deriving DecidableEq, Repr

end dag

namespace sesadb

/-- Modelled from the spec: the backing store `sesadb.Store` of the
go-vassalo library, a key-value store with "`Get(key) -> bytes|NotFound`,
`Put(key, bytes)`": a list of key/value byte strings, newest first. -/
structure Store where
  entries : List (List Nat × List Nat)
  deriving DecidableEq, Repr

end sesadb

namespace vecflushable

/-- Modelled from the spec: the staging wrapper `vecflushable.VecFlushable`
of the go-vassalo library, "a write-buffering/staging layer that can
accumulate uncommitted writes and discard them atomically" on top of a
backing store. -/
structure VecFlushable where
  underlying : sesadb.Store
  modified : List (List Nat × List Nat)
  sizeLimit : Int
  deriving DecidableEq, Repr

/-- The function `vecflushable.Wrap(db, sizeLimit)`: a wrapper around `db`
with nothing buffered. -/
def Wrap (db : sesadb.Store) (sizeLimit : Int) : VecFlushable :=
  { underlying := db, modified := [], sizeLimit := sizeLimit }

end vecflushable

namespace table

/-- Modelled from the spec: a table of the go-vassalo `sesadb/table`
package: the view of a store under a key tag ("keys are
`(tableTag, EventID)` pairs"). -/
structure Table where
  tag : List Char
  db : vecflushable.VecFlushable
  deriving DecidableEq, Repr

end table

namespace wlru

/-- Modelled from the spec: the weighted LRU cache `wlru.Cache` of the
go-vassalo library, "a bounded-size, eviction-based cache ... keyed by event
identifier, sized by a weight function": the cached entries, most recently
used first, each with its weight, and the two bounds. -/
structure Cache (κ ν : Type) where
  entries : List (κ × ν × Nat)
  maxWeight : Nat
  maxSize : Int

/-- The constructor `wlru.New(maxWeight, maxSize)`. -/
def New {κ ν : Type} (maxWeight : Nat) (maxSize : Int) : Cache κ ν :=
  { entries := [], maxWeight := maxWeight, maxSize := maxSize }

/-- The method `Purge`: drops every entry. -/
def Cache.Purge {κ ν : Type} (c : Cache κ ν) : Cache κ ν :=
  { c with entries := [] }

/-- The method `Get`: the value cached under `key`, if any. -/
def Cache.Get {κ ν : Type} [DecidableEq κ] (c : Cache κ ν) (key : κ) : Option ν :=
  (c.entries.lookup key).map Prod.fst

/-- The method `Len`: number of cached entries. -/
def Cache.Len {κ ν : Type} (c : Cache κ ν) : Nat := c.entries.length

end wlru

/-! ## The index facade (`vecmt/index.go`) -/

namespace vecmt

/-- The struct `IndexCacheConfig`. -/
structure IndexCacheConfig where
  HighestBeforeTimeSize : Nat
  DBCache : Int
  deriving DecidableEq, Repr

/-- The struct `IndexConfig`; `φ` is the configuration type of the base
index (`vecfc.IndexConfig`). -/
structure IndexConfig (φ : Type) where
  Fc : φ
  Caches : IndexCacheConfig

/-- The anonymous struct `table` of `Index`. -/
structure Tables where
  HighestBeforeTime : Option table.Table
  deriving DecidableEq, Repr

/-- The anonymous struct `cache` of `Index`: the cache of per-event
highest-before time vectors. -/
structure Caches where
  HighestBeforeTime : wlru.Cache hash.Event (List native.Timestamp)

/-- The struct `Index`.  `β` is the state of the base index: the embedded
`*vecfc.Index` and the field `Base` point to the same object, so one field
stands for both.  The fields set by `Reset` are `none` (Go `nil`) before
the first `Reset`.  The error sink `crit` and the closure table
`baseCallbacks` hold no state and are left to the operations that use
them. -/
structure Index (β φ : Type) where
  Base : β
  validators : Option pos.Validators
  validatorIdxs : List (idx.ValidatorID × idx.Validator)
  getEvent : Option (hash.Event → Option dag.Event)
  vecDb : Option vecflushable.VecFlushable
  table : Tables
  cache : Caches
  cfg : IndexConfig φ

/-- The method `initCaches`. -/
def Index.initCaches {β φ : Type} (vi : Index β φ) : Index β φ :=
  let size := vi.cfg.Caches.HighestBeforeTimeSize
  { vi with cache := { HighestBeforeTime := wlru.New size (Int.ofNat size) } }

/-- The constructor `NewIndexWithBase`. -/
def NewIndexWithBase {β φ : Type} (config : IndexConfig φ) (base : β) : Index β φ :=
  Index.initCaches
    { Base := base, validators := none, validatorIdxs := [], getEvent := none, vecDb := none,
      table := { HighestBeforeTime := none },
      cache := { HighestBeforeTime := wlru.New 0 0 }, cfg := config }

/-- The method `onDropNotFlushed`: purge the highest-before time cache. -/
def Index.onDropNotFlushed {β φ : Type} (vi : Index β φ) : Index β φ :=
  { vi with cache := { HighestBeforeTime := vi.cache.HighestBeforeTime.Purge } }

/-- The call `table.MigrateTables(&vi.table, vi.vecDb)` (go-vassalo): every
field of the table struct that carries a `table:"..."` tag becomes the table
with that tag over the store. -/
def MigrateTables (_t : Tables) (db : Option vecflushable.VecFlushable) : Tables :=
  { HighestBeforeTime := db.map (fun d => { tag := ['T'], db := d }) }

/-- The method `Index.Reset`.  `baseReset` is the method `Reset` of the base
index (`vecfc.Index`, go-vassalo), acting on the state of the base. -/
def Index.Reset {β φ : Type}
    (baseReset : β → pos.Validators → vecflushable.VecFlushable →
      (hash.Event → Option dag.Event) → β)
    (vi : Index β φ) (validators : pos.Validators) (db : sesadb.Store)
    (getEvent : hash.Event → Option dag.Event) : Index β φ :=
  let fdb := vecflushable.Wrap db vi.cfg.Caches.DBCache
  let vi := { vi with vecDb := some fdb }
  let vi := { vi with Base := baseReset vi.Base validators fdb getEvent }
  let vi := { vi with getEvent := some getEvent }
  let vi := { vi with validators := some validators }
  let vi := { vi with validatorIdxs := validators.Idxs }
  let vi := vi.onDropNotFlushed
  { vi with table := MigrateTables vi.table vi.vecDb }

end vecmt

/-! ## The vector-clock engine behind the facade

The methods `Add`, `ForklessCause` and `MedianTime` that `Index` offers are
not defined in `vecmt/index.go`: `Add` and `ForklessCause` are promoted from
the embedded base index (`vecfc.Index` over `vecengine.Engine`, go-vassalo)
and `MedianTime` and the vector types live in other files of package `vecmt`.
None of that code is in the source tree, so it is modelled here from the
specification (sections 3 and 4.1). -/

namespace vecengine

/-- Modelled from the spec: one slot of a Highest-Before vector, missing from
the sources: "`seq`: highest sequence number from that validator observed in
the event's transitive past, or 0 if none" and "`forkDetected`: boolean";
`Time` is the creation time of the event that achieves `Seq`, the scalar the
index keeps in its `HighestBeforeTime` table and cache. -/
structure HighestBeforeSlot where
  Seq : idx.Event
  ForkDetected : Bool
  Time : native.Timestamp
  deriving DecidableEq, Repr

/-- Modelled from the spec: the Highest-Before vector, "one slot per
validator". -/
abbrev HighestBefore := List HighestBeforeSlot

/-- Modelled from the spec: the Lowest-After vector, "one slot per
validator, recording the lowest sequence number from that validator's branch
that causally follows the event"; `none` while no such event is known. -/
abbrev LowestAfter := List (Option idx.Event)

/-- Modelled from the spec: the rule that decides, while a parent's slot is
merged into the slot computed so far, whether the two "disagree in a way that
indicates two different branches from the same validator".  The spec leaves
the exact rule open (section 9), so the engine takes it as a parameter: it is
given the validator's position, the slot merged so far and the parent's
slot. -/
abbrev ForkRule := idx.Validator → HighestBeforeSlot → HighestBeforeSlot → Bool

/-- Modelled from the spec: the rule named in section 3, "sequence ties
treated as fork evidence" (between two slots that both observe something). -/
def tieRule : ForkRule :=
  fun _ acc p => acc.Seq != 0 && acc.Seq == p.Seq

/-- Modelled from the spec: step 1 of `Add`, "allocate a new Highest-Before
vector with one slot per validator". -/
def NewHighestBefore (size : idx.Validator) : HighestBefore :=
  List.replicate size { Seq := 0, ForkDetected := false, Time := 0 }

/-- Modelled from the spec: the empty Lowest-After vector. -/
def NewLowestAfter (size : idx.Validator) : LowestAfter :=
  List.replicate size none

/-- Modelled from the spec: the merge of one slot, "the component-wise
maximum (by sequence, with fork flags OR-combined ...)", with the fork rule
applied to the pair; the time follows the larger sequence number. -/
def mergeSlot (rule : ForkRule) (i : idx.Validator) (acc p : HighestBeforeSlot) :
    HighestBeforeSlot :=
  { Seq := max acc.Seq p.Seq
    ForkDetected := acc.ForkDetected || p.ForkDetected || rule i acc p
    Time := if acc.Seq < p.Seq then p.Time else acc.Time }

/-- Modelled from the spec: step 2 of `Add` for one parent, "for each
validator slot, take the component-wise maximum sequence"; `i` is the
position of the first slot. -/
def collectFrom (rule : ForkRule) : idx.Validator → HighestBefore → HighestBefore → HighestBefore
  | _, [], _ => []
  | _, a :: acc, [] => a :: acc
  | i, a :: acc, p :: ps => mergeSlot rule i a p :: collectFrom rule (i + 1) acc ps

/-- Modelled from the spec: step 3 of `Add`, "overwrite the creator's own
slot with the event's own sequence number". -/
def setOwn (me : idx.Validator) (e : dag.Event) : HighestBefore → HighestBefore
  | [] => []
  | a :: rest =>
    match me with
    | 0 => { a with Seq := e.Seq, Time := e.CreationTime } :: rest
    | k + 1 => a :: setOwn k e rest

/-- Modelled from the spec: steps 1 to 3 of `Add`: the Highest-Before vector
of event `e` from the vectors of its parents. -/
def computeHighestBefore (rule : ForkRule) (size me : idx.Validator) (e : dag.Event)
    (parents : List HighestBefore) : HighestBefore :=
  setOwn me e (parents.foldl (collectFrom rule 0) (NewHighestBefore size))

/-- Sequence number recorded at position `v` of a Highest-Before vector
(0 when the vector has no such slot). -/
def seqAt (hb : HighestBefore) (v : idx.Validator) : idx.Event :=
  match hb.get? v with
  | some s => s.Seq
  | none => 0

/-- Modelled from the spec: the update of one Lowest-After slot "to
min(existing, Y.seq)". -/
def visitSlot (seq : idx.Event) : Option idx.Event → Option idx.Event
  | none => some seq
  | some s => some (min s seq)

/-- Modelled from the spec: the update of a Lowest-After vector at position
`me`. -/
def visit (me : idx.Validator) (seq : idx.Event) : LowestAfter → LowestAfter
  | [] => []
  | a :: rest =>
    match me with
    | 0 => visitSlot seq a :: rest
    | k + 1 => a :: visit k seq rest

/-- Errors of `Add`. -/
inductive AddError where
  | noValidators
  | unknownCreator (creator : idx.ValidatorID)
  | parentNotFound (parent : hash.Event)
  deriving DecidableEq, Repr

/-- Errors of the queries. -/
inductive LookupError where
  | notReset
  | eventNotFound (id : hash.Event)
  deriving DecidableEq, Repr

/-- Modelled from the spec: the resolution of the parents' vectors that
`Add` receives; "a child event references a parent whose vector is missing"
is an error. -/
def parentVectors (tbl : List (hash.Event × HighestBefore)) :
    List hash.Event → Except AddError (List HighestBefore)
  | [] => .ok []
  | p :: ps =>
    match tbl.lookup p with
    | none => .error (AddError.parentNotFound p)
    | some v =>
      match parentVectors tbl ps with
      | .error err => .error err
      | .ok vs => .ok (v :: vs)

/-- Modelled from the spec: step 4 of `Add` for the Lowest-After table: "the
engine updates only the direct parents' Lowest-After slot for the new event's
creator". -/
def visitParents (me : idx.Validator) (seq : idx.Event) (parents : List hash.Event) :
    List (hash.Event × LowestAfter) → List (hash.Event × LowestAfter)
  | [] => []
  | (id, la) :: rest =>
    (id, if id ∈ parents then visit me seq la else la) :: visitParents me seq parents rest

end vecengine

namespace vecfc

open vecengine

/-- Modelled from the spec: the state of the base index `vecfc.Index` of the
go-vassalo library: the validator set, the event lookup and the store it is
bound to, and the two vector tables "keyed by event identifier" (newest
entry first). -/
structure Index where
  validators : Option pos.Validators
  validatorIdxs : List (idx.ValidatorID × idx.Validator)
  getEvent : Option (hash.Event → Option dag.Event)
  vecDb : Option vecflushable.VecFlushable
  HighestBefore : List (hash.Event × vecengine.HighestBefore)
  LowestAfter : List (hash.Event × vecengine.LowestAfter)

/-- Modelled from the spec: the base index before its first `Reset`
("Uninitialized"). -/
def NewIndex : Index :=
  { validators := none, validatorIdxs := [], getEvent := none, vecDb := none,
    HighestBefore := [], LowestAfter := [] }

/-- Modelled from the spec: `Reset` of the base index: it "rebinds the engine
to a new validator set, a new backing store namespace, and a new event-lookup
function"; the vectors of the previous epoch "become unreachable when
the namespace changes". -/
def Index.Reset (_vi : Index) (validators : pos.Validators) (db : vecflushable.VecFlushable)
    (getEvent : hash.Event → Option dag.Event) : Index :=
  { validators := some validators, validatorIdxs := validators.Idxs,
    getEvent := some getEvent, vecDb := some db, HighestBefore := [], LowestAfter := [] }

/-- Modelled from the spec: the Highest-Before vector that `Add` computes for
`e` in the current state, or the error `Add` ends with: "a fatal
configuration error if the validator set is empty or the event's creator is
unknown", and the consistency error of a missing parent vector. -/
def Index.highestBeforeFor (rule : ForkRule) (vi : Index) (e : dag.Event) :
    Except AddError vecengine.HighestBefore :=
  match vi.validators with
  | none => .error AddError.noValidators
  | some validators =>
    if validators.Len = 0 then .error AddError.noValidators
    else
      match vi.validatorIdxs.lookup e.Creator with
      | none => .error (AddError.unknownCreator e.Creator)
      | some me =>
        match parentVectors vi.HighestBefore e.Parents with
        | .error err => .error err
        | .ok pvs => .ok (computeHighestBefore rule validators.Len me e pvs)

/-- Position of the creator of `e` (0 when unknown). -/
def Index.creatorIdx (vi : Index) (e : dag.Event) : idx.Validator :=
  (vi.validatorIdxs.lookup e.Creator).getD 0

/-- Number of validator slots. -/
def Index.size (vi : Index) : idx.Validator :=
  match vi.validators with
  | none => 0
  | some validators => validators.Len

/-- Modelled from the spec: the method `Add` of the engine (go-vassalo
`vecengine`, absent from the source tree), section 4.1: compute the
Highest-Before vector (steps 1 to 3), persist it together with a new
Lowest-After vector under the event identifier, and update the Lowest-After
slot of the direct parents for the creator of the event (step 4). -/
def Index.Add (rule : ForkRule) (vi : Index) (e : dag.Event) : Except AddError Index :=
  match vi.highestBeforeFor rule e with
  | .error err => .error err
  | .ok hb =>
    .ok { vi with
      HighestBefore := (e.ID, hb) :: vi.HighestBefore
      LowestAfter := (e.ID, NewLowestAfter vi.size) ::
        visitParents (vi.creatorIdx e) e.Seq e.Parents vi.LowestAfter }

/-- Modelled from the spec: the weight that `ForklessCause` sums: the
validators with "no fork flag set in x's Highest-Before" whose sequence "in
x's Highest-Before is ≥ the sequence recorded for v in y's Lowest-After". -/
def linkWeight : List pos.Weight → vecengine.HighestBefore → vecengine.LowestAfter → pos.Weight
  | w :: ws, h :: hs, l :: ls =>
    (match l with
      | some s => if !h.ForkDetected && decide (s ≤ h.Seq) then w else 0
      | none => 0) + linkWeight ws hs ls
  | _, _, _ => 0

/-- Modelled from the spec: the method `ForklessCause(x, y)` of the base
index (go-vassalo `vecfc`, absent from the source tree), section 4.1: "either
identifier unknown is a fatal lookup error", "x == y returns true trivially",
and otherwise the summed weight must exceed the quorum threshold. -/
def Index.ForklessCause (vi : Index) (x y : hash.Event) : Except LookupError Bool :=
  match vi.validators with
  | none => .error LookupError.notReset
  | some validators =>
    match vi.HighestBefore.lookup x with
    | none => .error (LookupError.eventNotFound x)
    | some hbx =>
      match vi.LowestAfter.lookup y with
      | none => .error (LookupError.eventNotFound y)
      | some lay =>
        if x = y then .ok true
        else .ok (decide (validators.Quorum ≤
          linkWeight (validators.entries.map Prod.snd) hbx lay))

end vecfc

namespace vecmt

open vecengine

/-- The method `Add` of `Index`, promoted from the embedded base index: it
acts on the base. -/
def Index.Add {φ : Type} (rule : ForkRule) (vi : Index vecfc.Index φ) (e : dag.Event) :
    Except AddError (Index vecfc.Index φ) :=
  match vi.Base.Add rule e with
  | .error err => .error err
  | .ok base => .ok { vi with Base := base }

/-- Admission of a list of events, one `Add` after the other, stopping at the
first error. -/
def Index.AddAll {φ : Type} (rule : ForkRule) (vi : Index vecfc.Index φ) :
    List dag.Event → Except AddError (Index vecfc.Index φ)
  | [] => .ok vi
  | e :: es =>
    match vi.Add rule e with
    | .error err => .error err
    | .ok vi' => Index.AddAll rule vi' es

/-- The method `GetHighestBefore`: the stored Highest-Before vector. -/
def Index.GetHighestBefore {φ : Type} (vi : Index vecfc.Index φ) (id : hash.Event) :
    Option vecengine.HighestBefore :=
  vi.Base.HighestBefore.lookup id

/-- The method `GetLowestAfter`: the stored Lowest-After vector. -/
def Index.GetLowestAfter {φ : Type} (vi : Index vecfc.Index φ) (id : hash.Event) :
    Option vecengine.LowestAfter :=
  vi.Base.LowestAfter.lookup id

/-- The method `ForklessCause`, promoted from the base index. -/
def Index.ForklessCause {φ : Type} (vi : Index vecfc.Index φ) (x y : hash.Event) :
    Except LookupError Bool :=
  vi.Base.ForklessCause x y

/-- Modelled from the spec: the list `MedianTime` gathers, "for every
validator slot in the event's Highest-Before, the creation time of the
specific ancestor event achieving that slot's sequence (or `defaultTime` if
the slot is empty/forked), weighted by validator weight". -/
def highests (defaultTime : native.Timestamp) :
    List pos.Weight → vecengine.HighestBefore → List (native.Timestamp × pos.Weight)
  | w :: ws, h :: hs =>
    (if h.Seq = 0 ∨ h.ForkDetected = true then defaultTime else h.Time, w) ::
      highests defaultTime ws hs
  | _, _ => []

/-- Modelled from the spec: "walk accumulating weight until it first
reaches/exceeds half of total validator weight; return that timestamp". -/
def walkMedian (total : pos.Weight) (fallback : native.Timestamp) :
    pos.Weight → List (native.Timestamp × pos.Weight) → native.Timestamp
  | _, [] => fallback
  | acc, (t, w) :: rest =>
    if total ≤ 2 * (acc + w) then t else walkMedian total fallback (acc + w) rest

/-- Modelled from the spec: the method `MedianTime(id, defaultTime)` of
`Index` (file `vecmt/median_time.go`, absent from the source tree), section
4.1: gather, "sort by time", walk. -/
def Index.MedianTime {φ : Type} (vi : Index vecfc.Index φ) (id : hash.Event)
    (defaultTime : native.Timestamp) : Except LookupError native.Timestamp :=
  match vi.validators with
  | none => .error LookupError.notReset
  | some validators =>
    match vi.GetHighestBefore id with
    | none => .error (LookupError.eventNotFound id)
    | some hb =>
      .ok (walkMedian validators.TotalWeight defaultTime 0
        ((highests defaultTime (validators.entries.map Prod.snd) hb).insertionSort
          (fun a b => a.1 ≤ b.1)))

/-- Events are in topological order when every parent of an event is among
`seen` or comes earlier in the list. -/
def TopologicalOrder : List hash.Event → List dag.Event → Prop
  | _, [] => True
  | seen, e :: es => (∀ p ∈ e.Parents, p ∈ seen) ∧ TopologicalOrder (e.ID :: seen) es

instance TopologicalOrder.decidable :
    ∀ (seen : List hash.Event) (es : List dag.Event), Decidable (TopologicalOrder seen es)
  | _, [] => isTrue trivial
  | seen, e :: es =>
    have := TopologicalOrder.decidable (e.ID :: seen) es
    inferInstanceAs (Decidable ((∀ p ∈ e.Parents, p ∈ seen) ∧ TopologicalOrder (e.ID :: seen) es))

end vecmt

/-! ## The quorum sum in the words of the specification, and sample inputs -/

namespace vecmt

open vecengine

/-- Validator `v` links `x` to `y`: it has "no fork flag set in x's
Highest-Before" and its sequence in x's Highest-Before is at least the one
recorded in y's Lowest-After. -/
def links (hbx : vecengine.HighestBefore) (lay : vecengine.LowestAfter) (v : idx.Validator) :
    Bool :=
  match hbx.get? v, lay.get? v with
  | some h, some (some s) => !h.ForkDetected && decide (s ≤ h.Seq)
  | _, _ => false

/-- The "weighted sum of non-forked qualifying validators" of the quorum
property, written as a sum over the validator positions. -/
def quorumSum (validators : pos.Validators) (hbx : vecengine.HighestBefore)
    (lay : vecengine.LowestAfter) : pos.Weight :=
  (Finset.range validators.Len).sum
    (fun v => if links hbx lay v then validators.GetWeightByIdx v else 0)

/-- The function `LiteConfig`; `fc` is the configuration of the base index
(`vecfc.LiteConfig()`). -/
def LiteConfig {φ : Type} (fc : φ) : IndexConfig φ :=
  { Fc := fc, Caches := { HighestBeforeTimeSize := 4 * 1024, DBCache := 0 } }

/-- The constructor `NewIndex` over the modelled base index. -/
def NewIndex {φ : Type} (config : IndexConfig φ) : Index vecfc.Index φ :=
  NewIndexWithBase config vecfc.NewIndex

/-- An event with the given identifier, creator, sequence number and parents;
as in `BenchmarkIndex_Add`, its creation time is its sequence number. -/
def testEvent (id : hash.Event) (creator : idx.ValidatorID) (seq : idx.Event)
    (parents : List hash.Event) : dag.Event :=
  { ID := id, Creator := creator, Seq := seq, CreationTime := seq, Parents := parents }

/-- The validators of `BenchmarkIndex_Add`: the five nodes a to e of
`testASCIIScheme`, each with weight 1. -/
def testValidators : pos.Validators :=
  { entries := [(1, 1), (2, 1), (3, 1), (4, 1), (5, 1)] }

/-- The events of `testASCIIScheme`, row by row: a1 b1 c1 d1 e1, d2, b2 e2,
d3, a2, b3, d4, c2 e3 (identifiers 1 to 14). -/
def testEvents : List dag.Event :=
  [ testEvent 1 1 1 [], testEvent 2 2 1 [], testEvent 3 3 1 [], testEvent 4 4 1 [],
    testEvent 5 5 1 [],
    testEvent 6 4 2 [4, 2],
    testEvent 7 2 2 [2, 6], testEvent 8 5 2 [5],
    testEvent 9 4 3 [6, 7],
    testEvent 10 1 2 [1, 7],
    testEvent 11 2 3 [7, 3],
    testEvent 12 4 4 [9, 11],
    testEvent 13 3 2 [3, 11], testEvent 14 5 3 [8] ]

/-- The same events with the sibling branches of every row admitted in the
opposite order: e1 d1 c1 b1 a1, d2, e2 b2, d3, a2, b3, d4, e3 c2. -/
def testEventsReordered : List dag.Event :=
  [ testEvent 5 5 1 [], testEvent 4 4 1 [], testEvent 3 3 1 [], testEvent 2 2 1 [],
    testEvent 1 1 1 [],
    testEvent 6 4 2 [4, 2],
    testEvent 8 5 2 [5], testEvent 7 2 2 [2, 6],
    testEvent 9 4 3 [6, 7],
    testEvent 10 1 2 [1, 7],
    testEvent 11 2 3 [7, 3],
    testEvent 12 4 4 [9, 11],
    testEvent 14 5 3 [8], testEvent 13 3 2 [3, 11] ]

/-- Four validators of weight 1 each (quorum 3). -/
def fourValidators : pos.Validators :=
  { entries := [(1, 1), (2, 1), (3, 1), (4, 1)] }

/-- Event 1 of validator 1 is a parent of events 5, 6 and 7 of validators 2,
3 and 4; event 8 of validator 4 has these three as parents. -/
def threeLinks : List dag.Event :=
  [ testEvent 1 1 1 [], testEvent 2 2 1 [], testEvent 3 3 1 [], testEvent 4 4 1 [],
    testEvent 5 2 2 [2, 1], testEvent 6 3 2 [3, 1], testEvent 7 4 2 [4, 1],
    testEvent 8 4 3 [7, 5, 6] ]

/-- The same events, but event 8 no longer has event 6 of validator 3 as a
parent. -/
def twoLinks : List dag.Event :=
  [ testEvent 1 1 1 [], testEvent 2 2 1 [], testEvent 3 3 1 [], testEvent 4 4 1 [],
    testEvent 5 2 2 [2, 1], testEvent 6 3 2 [3, 1], testEvent 7 4 2 [4, 1],
    testEvent 8 4 3 [7, 5] ]

/-- Validator 1 creates events 1 and 2, validator 2 observes them with event
3, and validator 1 then creates event 4 with sequence number 1 on top of
event 3. -/
def lateFork : List dag.Event :=
  [ testEvent 1 1 1 [], testEvent 2 1 2 [1], testEvent 3 2 1 [2], testEvent 4 1 1 [3] ]

/-- The index of `BenchmarkIndex_Add` after `Reset` with the given validators
and an empty store, with the events admitted in the given order. -/
def replay (rule : ForkRule) (validators : pos.Validators) (events : List dag.Event) :
    Except AddError (Index vecfc.Index Unit) :=
  Index.AddAll rule
    (Index.Reset vecfc.Index.Reset (NewIndex (LiteConfig ())) validators { entries := [] }
      (fun id => events.find? (fun e => e.ID == id)))
    events

/-- The index that holds event 1 of validator 1 and its child, event 2 of
validator 2, under four validators of weight 1. -/
def pairIndex : Index vecfc.Index Unit :=
  { NewIndex (LiteConfig ()) with
    Base := { vecfc.NewIndex with
      validators := some fourValidators
      validatorIdxs := fourValidators.Idxs
      HighestBefore :=
        [ (2, [⟨1, false, 1⟩, ⟨1, false, 1⟩, ⟨0, false, 0⟩, ⟨0, false, 0⟩]),
          (1, [⟨1, false, 1⟩, ⟨0, false, 0⟩, ⟨0, false, 0⟩, ⟨0, false, 0⟩]) ]
      LowestAfter := [(2, [none, none, none, none]), (1, [none, some 1, none, none])] } }

/-- The answer of a query on the index a run of `Add`s ends with (`none` when
the run or the query fails). -/
def after {τ : Type} (run : Except AddError (Index vecfc.Index Unit))
    (query : Index vecfc.Index Unit → Except LookupError τ) : Option τ :=
  match run with
  | .error _ => none
  | .ok vi =>
    match query vi with
    | .error _ => none
    | .ok t => some t

/-- The sequence number at position `v` of the stored Highest-Before vector
of `id`. -/
def Index.seqOf (vi : Index vecfc.Index Unit) (id : hash.Event) (v : idx.Validator) :
    Except LookupError idx.Event :=
  match vi.GetHighestBefore id with
  | none => .error (LookupError.eventNotFound id)
  | some hb => .ok (seqAt hb v)

/-- The quorum sum of the stored vectors of `x` and `y`. -/
def Index.quorumSumOf (vi : Index vecfc.Index Unit) (x y : hash.Event) :
    Except LookupError pos.Weight :=
  match vi.Base.validators, vi.GetHighestBefore x, vi.GetLowestAfter y with
  | some validators, some hbx, some lay => .ok (quorumSum validators hbx lay)
  | _, _, _ => .error LookupError.notReset

end vecmt

/-! ## The console launcher (`cmd/sesa/launcher/consolecmd.go`)

A Go string is modelled as the list of its characters.  The two prefixes
that `dialRPC` tests are ASCII, so the byte slice `endpoint[4:]` that follows
a successful test removes exactly the four characters of the prefix. -/

namespace launcher

/-- The function `dialRPC`.  `DefaultIPCEndpoint` is `node.DefaultIPCEndpoint`,
`Dial` is `rpc.Dial` and `clientIdentifier` is the constant of that name of
package `launcher`; none of the three is defined in this file. -/
def dialRPC {ρ : Type} (DefaultIPCEndpoint : List Char → List Char) (Dial : List Char → ρ)
    (clientIdentifier : List Char) (endpoint : List Char) : ρ :=
  let endpoint :=
    if endpoint = [] then DefaultIPCEndpoint clientIdentifier
    else if List.isPrefixOf ['r', 'p', 'c', ':'] endpoint
        || List.isPrefixOf ['i', 'p', 'c', ':'] endpoint then
      endpoint.drop 4
    else endpoint
  Dial endpoint

end launcher

/-! ## Database cache configuration (`integration/db.go`) -/

namespace integration

/-- The conversion `int(x)` of a `uint64` value on a 64-bit platform. -/
def toInt (x : Nat) : Int :=
  if x % 2 ^ 64 < 2 ^ 63 then Int.ofNat (x % 2 ^ 64) else Int.ofNat (x % 2 ^ 64) - 2 ^ 64

/-- The struct `DBCacheConfig` (both fields are `uint64`). -/
structure DBCacheConfig where
  Cache : Nat
  Fdlimit : Nat
  deriving DecidableEq, Repr

/-- The struct `DBsCacheConfig`.  The Go map `Table` is the list of its
entries in the order in which `range` visits them; indexing the map finds the
first entry with the key. -/
structure DBsCacheConfig where
  Table : List (List Char × DBCacheConfig)
  deriving DecidableEq, Repr

/-- A compiled filter: the function `fmtfilter.CompileFilter` returns; it
maps a request to a string or fails with an error of type `ε`. -/
abbrev Filter (ε : Type) := List Char → Except ε (List Char)

/-- The first loop of `DbCacheFdlimit`: the compiled filters `fmts` paired
with their `fmtsCaches`, for the keys that contain `%`, or the first
compilation error.  (The map `exactTable` the loop also fills is never
read.) -/
def buildFilters {ε : Type} (CompileFilter : List Char → List Char → Except ε (Filter ε)) :
    List (List Char × DBCacheConfig) → Except ε (List (Filter ε × DBCacheConfig))
  | [] => .ok []
  | (name, cache) :: rest =>
    if name.contains '%' = false then buildFilters CompileFilter rest
    else
      match CompileFilter name name with
      | .error err => .error err
      | .ok fn =>
        match buildFilters CompileFilter rest with
        | .error err => .error err
        | .ok fmts => .ok ((fn, cache) :: fmts)

/-- The loop "try regexp" of the returned function: the cache of the first
filter that accepts `name`. -/
def firstMatch {ε : Type} (name : List Char) :
    List (Filter ε × DBCacheConfig) → Option DBCacheConfig
  | [] => none
  | (fn, cache) :: rest =>
    match fn name with
    | .ok _ => some cache
    | .error _ => firstMatch name rest

/-- The function that `DbCacheFdlimit` returns, over the filters built. -/
def cacher {ε : Type} (cfg : DBsCacheConfig) (fmts : List (Filter ε × DBCacheConfig))
    (name : List Char) : Int × Int :=
  match cfg.Table.lookup name with
  | some cache => (toInt cache.Cache, toInt cache.Fdlimit)
  | none =>
    match firstMatch name fmts with
    | some cache => (toInt cache.Cache, toInt cache.Fdlimit)
    | none =>
      let cache := (cfg.Table.lookup []).getD { Cache := 0, Fdlimit := 0 }
      (toInt cache.Cache, toInt cache.Fdlimit)

/-- The function `DbCacheFdlimit`.  `CompileFilter` is
`fmtfilter.CompileFilter` of the go-vassalo library. -/
def DbCacheFdlimit {ε : Type} (CompileFilter : List Char → List Char → Except ε (Filter ε))
    (cfg : DBsCacheConfig) : Except ε (List Char → Int × Int) :=
  match buildFilters CompileFilter cfg.Table with
  | .error err => .error err
  | .ok fmts => .ok (cacher cfg fmts)

/-- Pattern `key` matches `name`: the filter compiled from it accepts the
name. -/
def Matches {ε : Type} (CompileFilter : List Char → List Char → Except ε (Filter ε))
    (key name : List Char) : Prop :=
  ∃ fn out, CompileFilter key key = .ok fn ∧ fn name = .ok out

/-- A sample filter compiler: a pattern compiles when it ends in `%d`, and
the filter accepts the names that start with what precedes it. -/
def sampleCompile (pattern _name : List Char) : Except Unit (Filter Unit) :=
  match pattern.reverse with
  | 'd' :: '%' :: rest =>
    .ok (fun req => if List.isPrefixOf rest.reverse req then .ok req else .error ())
  | _ => .error ()

/-- A sample table: an exact entry, a pattern and a default. -/
def sampleTable : DBsCacheConfig :=
  { Table := [ (['l', 'a', 'c', 'h', 'e', 's', 'i', 's'], { Cache := 10, Fdlimit := 1 }),
               (['e', 'p', 'o', 'c', 'h', '-', '%', 'd'], { Cache := 20, Fdlimit := 2 }),
               ([], { Cache := 30, Fdlimit := 3 }) ] }

end integration

/-! ## The EVM store (`gossip/evmstore/store.go`, `store_block_cache.go`) -/

namespace common

/-- A 32-byte hash (`common.Hash`, `hash.Hash`) as a number; the zero value
`common.Hash{}` is 0. -/
abbrev Hash := Nat

end common

namespace machine

/-- A value wrapped into the range of `int64`. -/
def int64 (x : Int) : Int :=
  if x % 2 ^ 64 < 2 ^ 63 then x % 2 ^ 64 else x % 2 ^ 64 - 2 ^ 64

/-- A value wrapped into the range of `uint64` (and of `uint` on a 64-bit
platform). -/
def uint64 (x : Int) : Nat :=
  (x % 2 ^ 64).toNat

end machine

namespace prque

/-- Modelled from the spec: the priority queue `prque.Prque` of package
`common/prque`, which is not in the source tree; the store calls its field a
"priority queue mapping block numbers to tries to gc".  The queue is the list
of its entries, each a value with its `int64` priority. -/
structure Prque (α : Type) where
  items : List (α × Int)
  deriving DecidableEq, Repr

/-- The method `Push(data, priority)`. -/
def Prque.Push {α : Type} (q : Prque α) (data : α) (priority : Int) : Prque α :=
  { items := q.items ++ [(data, priority)] }

/-- The method `Empty()`. -/
def Prque.Empty {α : Type} (q : Prque α) : Bool :=
  q.items.isEmpty

/-- Splits the entries `best :: rest` into an entry of the greatest priority
(the first such) and the other entries. -/
def popMax {α : Type} : (α × Int) → List (α × Int) → (α × Int) × List (α × Int)
  | best, [] => (best, [])
  | best, x :: xs =>
    if best.2 < x.2 then ((popMax x xs).1, best :: (popMax x xs).2)
    else ((popMax best xs).1, x :: (popMax best xs).2)

/-- The method `Pop()`: removes and returns an entry of the greatest priority;
`none` on an empty queue. -/
def Prque.Pop {α : Type} (q : Prque α) : Option ((α × Int) × Prque α) :=
  match q.items with
  | [] => none
  | x :: xs => some ((popMax x xs).1, { items := (popMax x xs).2 })

end prque

namespace wlru

/-- Sum of the weights of the entries. -/
def totalWeight {κ ν : Type} (es : List (κ × ν × Nat)) : Nat :=
  (es.map (fun e => e.2.2)).sum

/-- Modelled from the spec: the eviction of an "eviction-based cache ... sized
by a weight function (not just entry count)": entries are dropped, oldest
first, while the bounds are exceeded.  The input lists the oldest entry
first. -/
def evictOldest {κ ν : Type} (maxWeight : Nat) (maxSize : Int) :
    List (κ × ν × Nat) → List (κ × ν × Nat)
  | [] => []
  | e :: rest =>
    if maxWeight < totalWeight (e :: rest) ∨ maxSize < Int.ofNat (e :: rest).length then
      evictOldest maxWeight maxSize rest
    else e :: rest

/-- Modelled from the spec: the method `Add(key, value, weight)`: the entry
becomes the most recently used one, replacing an entry with the same key, and
the oldest entries are evicted while the bounds are exceeded. -/
def Cache.Add {κ ν : Type} [DecidableEq κ] (c : Cache κ ν) (key : κ) (value : ν)
    (weight : Nat) : Cache κ ν :=
  { c with entries :=
      (evictOldest c.maxWeight c.maxSize
        ((key, value, weight) :: c.entries.filter (fun e => decide (e.1 ≠ key))).reverse).reverse }

end wlru

namespace idx

/-- Number of a block (`idx.Block`, an unsigned 64-bit number). -/
abbrev Block := Nat

end idx

namespace evmstore

/-- The constant `TriesInMemory`. -/
def TriesInMemory : Nat := 16

/-- The fields of `StoreConfig.Cache` that the functions below read (the
struct is declared in a file that is not in the source tree). -/
structure StoreCacheConfig where
  EvmSnap : Int
  TrieDirtyDisabled : Bool
  TrieDirtyLimit : Nat
  deriving DecidableEq, Repr

/-- The struct `StoreConfig`, reduced in the same way. -/
structure StoreConfig where
  Cache : StoreCacheConfig
  deriving DecidableEq, Repr

/-- The trie database `s.EvmState.TrieDB()` (package `trie`, not in the source
tree) as the operations the store calls on it; they act on the state `ω` of
the databases behind the store. -/
structure TrieDB (ω ε : Type) where
  Commit : common.Hash → Bool → ω → Option ε × ω
  Reference : common.Hash → common.Hash → ω → ω
  Dereference : common.Hash → ω → ω
  Size : ω → Nat × Nat
  Cap : Nat → ω → ω

/-- The anonymous struct `cache` of `Store`, reduced to the cache of EVM
blocks. -/
structure Caches (B : Type) where
  EvmBlocks : wlru.Cache idx.Block B

/-- The struct `Store`: the configuration, the snapshot tree `Snaps` (`none`
is nil), the caches, the queue `triegc`, and the state `world` of the
databases `EvmDb` and `EvmState`.  `B` is the type `evmcore.EvmBlock` and `τ`
the type `snapshot.Tree`.  The tables, the other two caches, the log index and
the logger are not touched by the functions below. -/
structure Store (B τ ω : Type) where
  cfg : StoreConfig
  Snaps : Option τ
  cache : Caches B
  triegc : prque.Prque common.Hash
  world : ω

/-- The panic of `SetCachedEvmBlock`, "You have to cache only completed blocks
(with txs)". -/
inductive Panic where
  | incompleteBlock
  deriving DecidableEq, Repr

/-- The method `GetCachedEvmBlock`. -/
def Store.GetCachedEvmBlock {B τ ω : Type} (s : Store B τ ω) (n : idx.Block) : Option B :=
  s.cache.EvmBlocks.Get n

/-- The method `SetCachedEvmBlock`.  `txHash b` is `b.EvmHeader.TxHash` and
`estimateSize b` is `b.EstimateSize()` (type `evmcore.EvmBlock` is not in the
source tree).  A panic is returned together with the store it leaves
behind. -/
def Store.SetCachedEvmBlock {B τ ω : Type} (txHash : B → common.Hash) (estimateSize : B → Int)
    (s : Store B τ ω) (n : idx.Block) (b : B) : Except (Panic × Store B τ ω) (Store B τ ω) :=
  let empty : common.Hash := 0
  if txHash b = empty then .error (Panic.incompleteBlock, s)
  else
    .ok { s with
      cache := { EvmBlocks := s.cache.EvmBlocks.Add n b (machine.uint64 (estimateSize b)) } }

/-- The errors `GenerateEvmSnapshot` returns: the one it creates itself with
`errors.New("EVM snapshot is already opened")`, or an error of
`snapshot.New`. -/
inductive SnapshotError (ε : Type) where
  | alreadyOpened
  | fromNew (err : ε)
  deriving DecidableEq, Repr

/-- The method `GenerateEvmSnapshot`.  `snapshotNew` is `snapshot.New` applied
to the databases of the store (it receives their state, the cache size, the
root and the flags `async`, `rebuild` and `recovery`), and `MiB` is
`opt.MiB`. -/
def Store.GenerateEvmSnapshot {B τ ω ε : Type}
    (snapshotNew : ω → Int → common.Hash → Bool → Bool → Bool → (Option τ × Option ε) × ω)
    (MiB : Int) (s : Store B τ ω) (root : common.Hash) (rebuild async : Bool) :
    Option (SnapshotError ε) × Store B τ ω :=
  match s.Snaps with
  | some _ => (some SnapshotError.alreadyOpened, s)
  | none =>
    let r := snapshotNew s.world (Int.tdiv s.cfg.Cache.EvmSnap MiB) root async rebuild false
    (r.1.2.map SnapshotError.fromNew, { s with Snaps := r.1.1, world := r.2 })

/-- The method `Cap`: flush matured nodes when the dirty cache exceeds its
limit.  Sizes (`common.StorageSize`) are taken as whole numbers of bytes;
`idealBatchSize` is `ethdb.IdealBatchSize`. -/
def Store.Cap {B τ ω ε : Type} (triedb : TrieDB ω ε) (idealBatchSize : Nat)
    (s : Store B τ ω) : Store B τ ω :=
  let size := triedb.Size s.world
  let limit := s.cfg.Cache.TrieDirtyLimit
  if size.1 > limit + idealBatchSize ∨ size.2 > 4 * 1024 * 1024 then
    { s with world := triedb.Cap limit s.world }
  else s

/-- The block number `uint64(-number)` that the loop of `Commit` reads off a
priority. -/
def blockOf (number : Int) : Nat :=
  machine.uint64 (machine.int64 (-number))

/-- The loop "garbage collect all below the chosen block" of `Commit`, run for
at most `fuel` iterations (`none` when they do not suffice): while the queue
is not empty, pop; an entry above `chosen` is pushed back and ends the loop,
any other entry is dereferenced. -/
def gcLoop {ω ε : Type} (triedb : TrieDB ω ε) (chosen : Nat) :
    Nat → prque.Prque common.Hash → ω → Option (prque.Prque common.Hash × ω)
  | fuel, q, w =>
    match q.Pop with
    | none => some (q, w)
    | some ((root, number), q') =>
      if blockOf number > chosen then some (q'.Push root number, w)
      else
        match fuel with
        | 0 => none
        | fuel' + 1 => gcLoop triedb chosen fuel' q' (triedb.Dereference root w)

/-- The method `Commit`, with `fuel` iterations for its loop; the result is
the error returned and the store afterwards. -/
def Store.Commit {B τ ω ε : Type} (triedb : TrieDB ω ε) (idealBatchSize : Nat) (fuel : Nat)
    (s : Store B τ ω) (block : idx.Block) (root : common.Hash) (flush : Bool) :
    Option (Option ε × Store B τ ω) :=
  let stateRoot : common.Hash := root
  if flush || s.cfg.Cache.TrieDirtyDisabled then
    let r := triedb.Commit stateRoot false s.world
    some (r.1, { s with world := r.2 })
  else
    let s := { s with world := triedb.Reference stateRoot 0 s.world }
    let priority := machine.int64 (-(machine.int64 (Int.ofNat block)))
    let s := { s with triegc := s.triegc.Push stateRoot priority }
    let current := machine.uint64 (Int.ofNat block)
    if current > TriesInMemory then
      let s := s.Cap triedb idealBatchSize
      let chosen := current - TriesInMemory
      match gcLoop triedb chosen fuel s.triegc s.world with
      | none => none
      | some (q, w) => some (none, { s with triegc := q, world := w })
    else some (none, s)

/-- A trie database that only records the calls it receives. -/
inductive TrieCall where
  | commit (root : common.Hash)
  | reference (root : common.Hash)
  | dereference (root : common.Hash)
  | cap (limit : Nat)
  deriving DecidableEq, Repr

/-- The recording trie database: every call is appended to the log. -/
def recorder : TrieDB (List TrieCall) Unit :=
  { Commit := fun root _ log => (none, log ++ [TrieCall.commit root])
    Reference := fun root _ log => log ++ [TrieCall.reference root]
    Dereference := fun root log => log ++ [TrieCall.dereference root]
    Size := fun _ => (0, 0)
    Cap := fun limit log => log ++ [TrieCall.cap limit] }

/-- A store with an empty block cache of the given bounds, no snapshot tree
and the given queue. -/
def sampleStore (maxWeight : Nat) (maxSize : Int) (queue : List (common.Hash × Int)) :
    Store (common.Hash × Int) Unit (List TrieCall) :=
  { cfg := { Cache := { EvmSnap := 0, TrieDirtyDisabled := false, TrieDirtyLimit := 0 } }
    Snaps := none
    cache := { EvmBlocks := wlru.New maxWeight maxSize }
    triegc := { items := queue }
    world := [] }

end evmstore

/-! ## Persistence of the vectors through the staging wrapper

The operations of the backing store and of the staging wrapper (go-vassalo
`sesadb` and `vecflushable`) and the functions of package `vecmt` that write
the vectors are not in the source tree; they are modelled from sections 2, 4.2
and 6 of the specification. -/

namespace sesadb

/-- Modelled from the spec: the operation "`Get(key) -> bytes|NotFound`" of
the backing store (go-vassalo `sesadb.Store`, absent from the source tree). -/
def Store.Get (s : Store) (key : List Nat) : Option (List Nat) :=
  s.entries.lookup key

/-- Modelled from the spec: the operation "`Put(key, bytes)`" of the backing
store (go-vassalo `sesadb.Store`, absent from the source tree). -/
def Store.Put (s : Store) (key value : List Nat) : Store :=
  { entries := (key, value) :: s.entries }

end sesadb

namespace vecflushable

/-- Modelled from the spec: `Put` on the staging wrapper (go-vassalo
`vecflushable`, absent from the source tree): the write is accumulated as an
"uncommitted write" in the buffer. -/
def VecFlushable.Put (w : VecFlushable) (key value : List Nat) : VecFlushable :=
  { w with modified := (key, value) :: w.modified }

/-- Modelled from the spec: `Get` on the staging wrapper: the buffered write
for the key, else the value of the backing store. -/
def VecFlushable.Get (w : VecFlushable) (key : List Nat) : Option (List Nat) :=
  match w.modified.lookup key with
  | some value => some value
  | none => w.underlying.Get key

/-- Modelled from the spec: "`Flush() -> error`" on the staging wrapper: the
buffered writes are put into the backing store, oldest first, and the buffer
is emptied. -/
def VecFlushable.Flush (w : VecFlushable) : VecFlushable :=
  { w with
    underlying := w.modified.foldr (fun kv s => s.Put kv.1 kv.2) w.underlying
    modified := [] }

/-- Modelled from the spec: the wrapper can "discard them atomically": the
buffered writes are dropped. -/
def VecFlushable.DropNotFlushed (w : VecFlushable) : VecFlushable :=
  { w with modified := [] }

end vecflushable

namespace table

/-- Modelled from the spec: the key of a table entry, "`(tableTag, EventID)`
pairs": the tag followed by the key inside the table. -/
def Table.key (t : Table) (key : List Nat) : List Nat :=
  t.tag.map Char.toNat ++ key

/-- Modelled from the spec: `Put` through a table: a `Put` on its store under
the tagged key. -/
def Table.Put (t : Table) (key value : List Nat) : Table :=
  { t with db := t.db.Put (t.key key) value }

end table

namespace vecmt

/-- The key of an event inside a table: its identifier. -/
def eventKey (id : hash.Event) : List Nat := [id]

/-- The key under which table `T` stores the vector of an event. -/
def timeKey (id : hash.Event) : List Nat :=
  ['T'].map Char.toNat ++ eventKey id

/-- Modelled from the spec: the method `SetHighestBeforeTime` of `Index` (file
`vecmt/store_vectors.go`, absent from the source tree): "persist the vector
keyed by event identifier", through table `T` over the staging wrapper; "cache
entries are not populated eagerly".  The table and the field `vecDb` refer to
the same wrapper, so both are updated. -/
def Index.SetHighestBeforeTime {β φ : Type} (vi : Index β φ) (id : hash.Event)
    (vec : List native.Timestamp) : Index β φ :=
  match vi.table.HighestBeforeTime with
  | none => vi
  | some t =>
    { vi with
      table := { HighestBeforeTime := some (t.Put (eventKey id) vec) }
      vecDb := some (t.Put (eventKey id) vec).db }

/-- Modelled from the spec: the flush of the staging wrapper of the index. -/
def Index.Flush {β φ : Type} (vi : Index β φ) : Index β φ :=
  match vi.vecDb with
  | none => vi
  | some db =>
    { vi with
      vecDb := some db.Flush
      table := { HighestBeforeTime :=
        vi.table.HighestBeforeTime.map (fun t => { t with db := db.Flush }) } }

/-- The backing store under the staging wrapper of the index. -/
def Index.backingStore {β φ : Type} (vi : Index β φ) : Option sesadb.Store :=
  vi.vecDb.map (fun db => db.underlying)

end vecmt

namespace vecengine

/-- The interface `vecengine.HighestBeforeI` as the dynamic type of the value
behind it: a `*vecmt.HighestBefore`, or anything else. -/
inductive HighestBeforeI where
  | own (v : HighestBefore)
  | other
  deriving DecidableEq, Repr

/-- The panic of a failed type assertion. -/
inductive AssertionPanic where
  | interfaceConversion
  deriving DecidableEq, Repr

/-- Modelled from the spec: the "single no-safe-answer representation" into
which `GetMergedHighestBefore` collapses the fork-affected slots. -/
def collapse (hb : HighestBefore) : HighestBefore :=
  hb.map (fun s => if s.ForkDetected then { Seq := 0, ForkDetected := true, Time := 0 } else s)

end vecengine

namespace vecfc

open vecengine

/-- Modelled from the spec: the method `GetMergedHighestBefore` of the engine
(go-vassalo `vecengine`, absent from the source tree), section 4.1: "returns
the Highest-Before vector with fork-affected slots collapsed/merged into a
single no-safe-answer representation". -/
def Index.GetMergedHighestBefore (vi : Index) (id : hash.Event) : HighestBeforeI :=
  match vi.HighestBefore.lookup id with
  | some hb => HighestBeforeI.own (collapse hb)
  | none => HighestBeforeI.other

end vecfc

namespace vecmt

open vecengine

/-- The method `GetMergedHighestBefore` of `index.go`: the result of the
engine's `GetMergedHighestBefore`, asserted to be a `*HighestBefore`.
`engineMerged` is the method of the engine, acting on the base. -/
def Index.GetMergedHighestBefore {β φ : Type}
    (engineMerged : β → hash.Event → HighestBeforeI) (vi : Index β φ) (id : hash.Event) :
    Except AssertionPanic vecengine.HighestBefore :=
  match engineMerged vi.Base id with
  | HighestBeforeI.own v => .ok v
  | HighestBeforeI.other => .error AssertionPanic.interfaceConversion

end vecmt

/-! ## The engine callbacks of `vecmt.Index` -/

namespace vecengine

/-- The struct `vecengine.Callbacks` (go-vassalo; `index.go` fills it field by
field): the table of closures through which the engine reads and writes the
vectors.  A closure acts on the state `σ` it has captured; `L` is the
interface `LowestAfterI`.  A closure that sets a Highest-Before vector asserts
the dynamic type of its argument, so it can panic. -/
structure Callbacks (σ L : Type) where
  GetHighestBefore : hash.Event → σ → HighestBeforeI × σ
  GetLowestAfter : hash.Event → σ → L × σ
  SetHighestBefore : hash.Event → HighestBeforeI → σ → Except AssertionPanic σ
  SetLowestAfter : hash.Event → L → σ → σ
  NewHighestBefore : idx.Validator → HighestBeforeI
  NewLowestAfter : idx.Validator → L
  OnDropNotFlushed : σ → σ

end vecengine

namespace vecmt

open vecengine

/-- The methods of `Index` and the constructor of package `vecmt` that the
closures of `GetEngineCallbacks` call and that are declared outside
`index.go`, in files absent from the source tree: `vi.GetHighestBefore` (its
result converted to the interface), `vi.SetHighestBefore` and
`NewHighestBefore`. -/
structure VectorMethods (β φ : Type) where
  GetHighestBefore : hash.Event → Index β φ → HighestBeforeI × Index β φ
  SetHighestBefore : hash.Event → HighestBefore → Index β φ → Index β φ
  NewHighestBefore : idx.Validator → HighestBeforeI

/-- The method `GetEngineCallbacks`.  The closures capture the pointer `vi`,
so each of them acts on the state of the index at the time it is invoked;
`baseCallbacks` is the value of the field `vi.baseCallbacks` at that time, a
table of closures acting on the same state. -/
def Index.GetEngineCallbacks {β φ L : Type} (methods : VectorMethods β φ)
    (baseCallbacks : Callbacks (Index β φ) L) : Callbacks (Index β φ) L :=
  { GetHighestBefore := fun event vi => methods.GetHighestBefore event vi
    GetLowestAfter := fun event vi => baseCallbacks.GetLowestAfter event vi
    SetHighestBefore := fun event b vi =>
      match b with
      | HighestBeforeI.own v => .ok (methods.SetHighestBefore event v vi)
      | HighestBeforeI.other => .error AssertionPanic.interfaceConversion
    SetLowestAfter := fun event i vi => baseCallbacks.SetLowestAfter event i vi
    NewHighestBefore := fun size => methods.NewHighestBefore size
    NewLowestAfter := fun size => baseCallbacks.NewLowestAfter size
    OnDropNotFlushed := fun vi =>
      let vi := baseCallbacks.OnDropNotFlushed vi
      vi.onDropNotFlushed }

end vecmt

/-! ## Package `dagstream`: locators and payloads -/

namespace machine

/-- The type `byte`. -/
abbrev byte := Fin 256

end machine

namespace big

/-- The call `new(big.Int).SetBytes(buf)` of the Go library `math/big`: it
"interprets buf as the bytes of a big-endian unsigned integer". -/
def SetBytes (buf : List machine.byte) : Nat :=
  buf.foldl (fun x b => x * 256 + b.val) 0

/-- The bytes of `x`, most significant first and without leading zero bytes,
produced in at most `fuel` steps of one byte each. -/
def bytesAux : Nat → Nat → List machine.byte
  | 0, _ => []
  | fuel + 1, x =>
    if x = 0 then []
    else bytesAux fuel (x / 256) ++ [⟨x % 256, Nat.mod_lt x (by decide)⟩]

/-- The method `Bytes` of `big.Int` on a value that is not negative: "the
absolute value of x as a big-endian byte slice", without leading zero bytes
(no byte at all for zero).  A value `x` has at most `x` bytes. -/
def Bytes (x : Nat) : List machine.byte :=
  bytesAux x x

end big

namespace bytes

/-- The function `bytes.Compare` of the Go library: "an integer comparing two
byte slices lexicographically.  The result will be 0 if a == b, -1 if a < b,
and +1 if a > b." -/
def Compare : List machine.byte → List machine.byte → Int
  | [], [] => 0
  | [], _ :: _ => -1
  | _ :: _, [] => 1
  | x :: a, y :: b => if x < y then -1 else if y < x then 1 else Compare a b

end bytes

namespace common

/-- The constant `common.Big1`. -/
def Big1 : Nat := 1

/-- Modelled from the spec: the helper `common.LeftPadBytes` (package
`common`, absent from the source tree; the specification does not describe
it).  The definition follows its name and its use in `Inc`: the slice padded
on the left with zero bytes up to `l` bytes, and the slice as it is when it
has `l` bytes or more. -/
def LeftPadBytes (slice : List machine.byte) (l : Nat) : List machine.byte :=
  if l ≤ slice.length then slice
  else List.replicate (l - slice.length) 0 ++ slice

end common

namespace basestream

/-- The interface `basestream.Locator` (go-vassalo) as the dynamic type of
the value behind it: a `dagstream.Locator`, or anything else. -/
inductive Locator where
  | dagstream (l : List machine.byte)
  | other
  deriving DecidableEq, Repr

end basestream

namespace dagstream

/-- The type `Locator`, a byte slice. -/
abbrev Locator := List machine.byte

/-- The panic of a failed type assertion. -/
inductive Panic where
  | interfaceConversion
  deriving DecidableEq, Repr

/-- The method `Locator.Compare`: `bytes.Compare` against the argument,
asserted to be a `Locator`. -/
def Locator.Compare (l : Locator) (b : basestream.Locator) : Except Panic Int :=
  match b with
  | basestream.Locator.dagstream b => .ok (bytes.Compare l b)
  | basestream.Locator.other => .error Panic.interfaceConversion

/-- The method `Locator.Inc`; the result is the `Locator` that the method
returns behind the interface `basestream.Locator`. -/
def Locator.Inc (l : Locator) : Locator :=
  let nextBn := big.SetBytes l
  let nextBn := nextBn + common.Big1
  common.LeftPadBytes (big.Bytes nextBn) l.length

/-- The struct `Payload`; `Size` is a `uint64`. -/
structure Payload where
  IDs : List hash.Event
  Events : List (List machine.byte)
  Size : Nat
  deriving DecidableEq, Repr

/-- The method `AddEvent`. -/
def Payload.AddEvent (p : Payload) (id : hash.Event) (eventB : List machine.byte) : Payload :=
  { IDs := p.IDs ++ [id]
    Events := p.Events ++ [eventB]
    Size := machine.uint64 (Int.ofNat p.Size + Int.ofNat (machine.uint64 (Int.ofNat eventB.length))) }

/-- The method `AddID`; `size` is an `int`. -/
def Payload.AddID (p : Payload) (id : hash.Event) (size : Int) : Payload :=
  { IDs := p.IDs ++ [id]
    Events := p.Events
    Size := machine.uint64 (Int.ofNat p.Size + Int.ofNat (machine.uint64 size)) }

/-- The method `Len`. -/
def Payload.Len (p : Payload) : Int := Int.ofNat p.IDs.length

/-- The method `TotalSize`. -/
def Payload.TotalSize (p : Payload) : Nat := p.Size

/-- The method `TotalMemSize`; the result is an `int`. -/
def Payload.TotalMemSize (p : Payload) : Int :=
  if p.Events.length ≠ 0 then
    machine.int64 (machine.int64 (Int.ofNat p.Size) + Int.ofNat p.IDs.length * 128)
  else machine.int64 (Int.ofNat p.IDs.length * 128)

/-- A call of one of the two methods that extend a payload. -/
inductive Call where
  | AddEvent (id : hash.Event) (eventB : List machine.byte)
  | AddID (id : hash.Event) (size : Int)
  deriving DecidableEq, Repr

/-- The payload after one more call. -/
def Call.run (p : Payload) : Call → Payload
  | Call.AddEvent id eventB => p.AddEvent id eventB
  | Call.AddID id size => p.AddID id size

/-- The empty payload, the zero value `Payload{}`. -/
def Payload.empty : Payload := { IDs := [], Events := [], Size := 0 }

/-- The payload built from the empty payload by a sequence of calls. -/
def Payload.build (calls : List Call) : Payload :=
  calls.foldl Call.run Payload.empty

/-- What a call adds to the size: the byte length of the event passed to
`AddEvent`, the size passed to `AddID`. -/
def Call.size : Call → Int
  | Call.AddEvent _ eventB => Int.ofNat eventB.length
  | Call.AddID _ size => size

/-- Whether a call is an `AddEvent`. -/
def Call.isAddEvent : Call → Bool
  | Call.AddEvent _ _ => true
  | Call.AddID _ _ => false

end dagstream

/-! ## Properties -/

namespace eventcheck

theorem invocations_append {α ε : Type} (l₁ l₂ : List (Action α ε)) :
    invocations (l₁ ++ l₂) = invocations l₁ + invocations l₂ := by
  induction l₁ with
  | nil => simp [invocations]
  | cons a rest ih =>
    cases a <;> simp [invocations, ih]; omega

theorem heavyCalls_append {α ε : Type} (l₁ l₂ : List (Action α ε)) :
    heavyCalls (l₁ ++ l₂) = heavyCalls l₁ + heavyCalls l₂ := by
  induction l₁ with
  | nil => simp [heavyCalls]
  | cons a rest ih =>
    cases a <;> simp [heavyCalls, ih]; omega

end eventcheck


/-! ### Lemmas about the tables and the validator index map -/

namespace vecengine

theorem lookup_cons_self {β : Type} (k : Nat) (v : β) (tbl : List (Nat × β)) :
    ((k, v) :: tbl).lookup k = some v := by
  simp [List.lookup]

theorem lookup_cons_ne {β : Type} (k a : Nat) (v : β) (tbl : List (Nat × β)) (h : a ≠ k) :
    ((k, v) :: tbl).lookup a = tbl.lookup a := by
  have : (a == k) = false := by simpa using h
  simp [List.lookup, this]

theorem lookup_idxsFrom (ids : List idx.ValidatorID) (id : idx.ValidatorID) (h : id ∈ ids) :
    ∀ i : Nat, ∃ k : Nat, (pos.idxsFrom i ids).lookup id = some k ∧ i ≤ k ∧ k < i + ids.length := by
  induction ids with
  | nil => cases h
  | cons a rest ih =>
    intro i
    by_cases ha : id = a
    · subst ha
      exact ⟨i, by simp [pos.idxsFrom, List.lookup], le_refl _, by simp⟩
    · have hmem : id ∈ rest := by
        cases h with
        | head => exact absurd rfl ha
        | tail _ h' => exact h'
      obtain ⟨k, hk, hle, hlt⟩ := ih hmem (i + 1)
      have hlen : (a :: rest).length = rest.length + 1 := rfl
      refine ⟨k, ?_, by omega, by omega⟩
      rw [pos.idxsFrom, lookup_cons_ne _ _ _ _ ha]
      exact hk

theorem parentVectors_ok_of_known (tbl : List (hash.Event × HighestBefore)) :
    ∀ ps : List hash.Event, (∀ p ∈ ps, (tbl.lookup p).isSome = true) →
      ∃ pvs, parentVectors tbl ps = .ok pvs := by
  intro ps
  induction ps with
  | nil => intro _; exact ⟨[], rfl⟩
  | cons p ps ih =>
    intro h
    have hp := h p (List.mem_cons_self _ _)
    obtain ⟨pvs, hpvs⟩ := ih (fun q hq => h q (List.mem_cons_of_mem _ hq))
    cases hl : tbl.lookup p with
    | none => simp [hl] at hp
    | some v => exact ⟨v :: pvs, by simp [parentVectors, hl, hpvs]⟩

end vecengine

namespace vecmt

open vecengine

theorem add_ok_of_known {φ : Type} (rule : ForkRule) (vals : pos.Validators)
    (vi : Index vecfc.Index φ) (e : dag.Event)
    (hv : vi.Base.validators = some vals) (hi : vi.Base.validatorIdxs = vals.Idxs)
    (hc : e.Creator ∈ vals.entries.map Prod.fst)
    (hp : ∀ p ∈ e.Parents, (vi.Base.HighestBefore.lookup p).isSome = true) :
    ∃ hb, vi.Add rule e = .ok { vi with Base := { vi.Base with
        HighestBefore := (e.ID, hb) :: vi.Base.HighestBefore
        LowestAfter := (e.ID, NewLowestAfter vi.Base.size) ::
          visitParents (vi.Base.creatorIdx e) e.Seq e.Parents vi.Base.LowestAfter } } := by
  obtain ⟨k, hk, _, _⟩ := lookup_idxsFrom _ _ hc 0
  obtain ⟨pvs, hpvs⟩ := parentVectors_ok_of_known vi.Base.HighestBefore e.Parents hp
  have hlen : vals.Len ≠ 0 := by
    intro h0
    have : vals.entries = [] := List.length_eq_zero.mp h0
    simp [this] at hc
  refine ⟨computeHighestBefore rule vals.Len k e pvs, ?_⟩
  have hk' : List.lookup e.Creator vals.Idxs = some k := hk
  simp [Index.Add, vecfc.Index.Add, vecfc.Index.highestBeforeFor, hv, hi, hlen, hk', hpvs]

theorem addAll_ok_of_topological {φ : Type} (rule : ForkRule) (vals : pos.Validators) :
    ∀ (events : List dag.Event) (seen : List hash.Event) (vi : Index vecfc.Index φ),
      vi.Base.validators = some vals → vi.Base.validatorIdxs = vals.Idxs →
      (∀ e ∈ events, e.Creator ∈ vals.entries.map Prod.fst) →
      (∀ id ∈ seen, (vi.Base.HighestBefore.lookup id).isSome = true) →
      TopologicalOrder seen events →
      ∃ vi', vi.AddAll rule events = .ok vi' := by
  intro events
  induction events with
  | nil => intro seen vi _ _ _ _ _; exact ⟨vi, rfl⟩
  | cons e es ih =>
    intro seen vi hv hi hc hs ht
    obtain ⟨hpar, htail⟩ := ht
    obtain ⟨hb, hadd⟩ := add_ok_of_known rule vals vi e hv hi
      (hc e (List.mem_cons_self _ _)) (fun p hp => hs p (hpar p hp))
    simp only [Index.AddAll, hadd]
    apply ih (e.ID :: seen)
    · exact hv
    · exact hi
    · exact fun e' he' => hc e' (List.mem_cons_of_mem _ he')
    · intro id hid
      by_cases h : id = e.ID
      · subst h
        simp [lookup_cons_self]
      · have hmem : id ∈ seen := by
          cases hid with
          | head => exact absurd rfl h
          | tail _ h' => exact h'
        simpa [lookup_cons_ne _ _ _ _ h] using hs id hmem
    · exact htail

end vecmt


/-! ### What one `Add` changes, and what a run of `Add`s establishes -/

namespace vecengine

theorem parentVectors_mono (tbl tbl' : List (hash.Event × HighestBefore))
    (hsub : ∀ id v, tbl.lookup id = some v → tbl'.lookup id = some v) :
    ∀ (ps : List hash.Event) (pvs : List HighestBefore),
      parentVectors tbl ps = .ok pvs → parentVectors tbl' ps = .ok pvs := by
  intro ps
  induction ps with
  | nil => intro pvs h; simpa [parentVectors] using h
  | cons p ps ih =>
    intro pvs h
    cases hl : tbl.lookup p with
    | none => simp [parentVectors, hl] at h
    | some v =>
      cases hr : parentVectors tbl ps with
      | error err => simp [parentVectors, hl, hr] at h
      | ok vs =>
        simp only [parentVectors, hl, hr] at h
        simp only [parentVectors, hsub p v hl, ih vs hr]
        exact h

theorem parentVectors_mem (tbl : List (hash.Event × HighestBefore)) :
    ∀ (ps : List hash.Event) (pvs : List HighestBefore),
      parentVectors tbl ps = .ok pvs →
      ∀ p ∈ ps, ∃ v ∈ pvs, tbl.lookup p = some v := by
  intro ps
  induction ps with
  | nil => intro pvs _ p hp; cases hp
  | cons q ps ih =>
    intro pvs h p hp
    cases hl : tbl.lookup q with
    | none => simp [parentVectors, hl] at h
    | some v =>
      cases hr : parentVectors tbl ps with
      | error err => simp [parentVectors, hl, hr] at h
      | ok vs =>
        simp only [parentVectors, hl, hr] at h
        have hpvs : pvs = v :: vs := by cases h; rfl
        subst hpvs
        cases hp with
        | head => exact ⟨v, List.mem_cons_self _ _, hl⟩
        | tail _ hp' =>
          obtain ⟨w, hw, hlw⟩ := ih vs hr p hp'
          exact ⟨w, List.mem_cons_of_mem _ hw, hlw⟩

end vecengine

namespace vecfc

open vecengine

theorem highestBeforeFor_mono (rule : ForkRule) (b b' : Index) (e : dag.Event)
    (hv : b'.validators = b.validators) (hi : b'.validatorIdxs = b.validatorIdxs)
    (hsub : ∀ id v, b.HighestBefore.lookup id = some v → b'.HighestBefore.lookup id = some v)
    (hb : vecengine.HighestBefore) (h : b.highestBeforeFor rule e = .ok hb) :
    b'.highestBeforeFor rule e = .ok hb := by
  unfold Index.highestBeforeFor at h ⊢
  rw [hv, hi]
  cases hvals : b.validators with
  | none => simp [hvals] at h
  | some vals =>
    simp only [hvals] at h ⊢
    by_cases hlen : vals.Len = 0
    · simp [hlen] at h
    · simp only [hlen, if_false] at h ⊢
      cases hme : b.validatorIdxs.lookup e.Creator with
      | none => simp [hme] at h
      | some me =>
        simp only [hme] at h ⊢
        cases hp : parentVectors b.HighestBefore e.Parents with
        | error err => simp [hp] at h
        | ok pvs =>
          simp only [hp] at h
          simp only [parentVectors_mono _ _ hsub _ _ hp]
          exact h

theorem highestBeforeFor_inv (rule : ForkRule) (b : Index) (e : dag.Event)
    (hb : vecengine.HighestBefore) (h : b.highestBeforeFor rule e = .ok hb) :
    ∃ vals me pvs, b.validators = some vals ∧ b.validatorIdxs.lookup e.Creator = some me ∧
      parentVectors b.HighestBefore e.Parents = .ok pvs ∧
      hb = computeHighestBefore rule vals.Len me e pvs := by
  unfold Index.highestBeforeFor at h
  cases hvals : b.validators with
  | none => simp [hvals] at h
  | some vals =>
    simp only [hvals] at h
    by_cases hlen : vals.Len = 0
    · simp [hlen] at h
    · simp only [hlen, if_false] at h
      cases hme : b.validatorIdxs.lookup e.Creator with
      | none => simp [hme] at h
      | some me =>
        simp only [hme] at h
        cases hp : parentVectors b.HighestBefore e.Parents with
        | error err => simp [hp] at h
        | ok pvs =>
          simp only [hp] at h
          refine ⟨vals, me, pvs, rfl, rfl, rfl, ?_⟩
          cases h; rfl

end vecfc

namespace vecmt

open vecengine

theorem add_inv {φ : Type} (rule : ForkRule) (vi vi' : Index vecfc.Index φ) (e : dag.Event)
    (h : vi.Add rule e = .ok vi') :
    ∃ hb, vi.Base.highestBeforeFor rule e = .ok hb ∧
      vi' = { vi with Base := { vi.Base with
        HighestBefore := (e.ID, hb) :: vi.Base.HighestBefore
        LowestAfter := (e.ID, NewLowestAfter vi.Base.size) ::
          visitParents (vi.Base.creatorIdx e) e.Seq e.Parents vi.Base.LowestAfter } } := by
  unfold Index.Add vecfc.Index.Add at h
  cases hh : vi.Base.highestBeforeFor rule e with
  | error err => simp [hh] at h
  | ok hb =>
    simp only [hh] at h
    refine ⟨hb, rfl, ?_⟩
    cases h; rfl

theorem addAll_cons_inv {φ : Type} (rule : ForkRule) (vi vi' : Index vecfc.Index φ)
    (e : dag.Event) (es : List dag.Event) (h : vi.AddAll rule (e :: es) = .ok vi') :
    ∃ vi₁, vi.Add rule e = .ok vi₁ ∧ vi₁.AddAll rule es = .ok vi' := by
  unfold Index.AddAll at h
  cases ha : vi.Add rule e with
  | error err => simp [ha] at h
  | ok vi₁ => exact ⟨vi₁, rfl, by simpa [ha] using h⟩

/-- A run of `Add`s leaves the bindings of the facade and of the base
untouched. -/
theorem addAll_frame {φ : Type} (rule : ForkRule) :
    ∀ (es : List dag.Event) (vi vi' : Index vecfc.Index φ), vi.AddAll rule es = .ok vi' →
      vi'.validators = vi.validators ∧ vi'.Base.validators = vi.Base.validators ∧
      vi'.Base.validatorIdxs = vi.Base.validatorIdxs := by
  intro es
  induction es with
  | nil =>
    intro vi vi' h
    simp only [Index.AddAll] at h
    cases h; exact ⟨rfl, rfl, rfl⟩
  | cons e es ih =>
    intro vi vi' h
    obtain ⟨vi₁, ha, hrest⟩ := addAll_cons_inv rule vi vi' e es h
    obtain ⟨hb, _, hvi₁⟩ := add_inv rule vi vi₁ e ha
    obtain ⟨h1, h2, h3⟩ := ih vi₁ vi' hrest
    subst hvi₁
    exact ⟨h1, h2, h3⟩

/-- Entries of the Highest-Before table survive a run of `Add`s of events
with fresh, pairwise different identifiers; every added event ends with the
vector `Add` computes for it in the final state; and the table holds nothing
else. -/
theorem addAll_table {φ : Type} (rule : ForkRule) :
    ∀ (es : List dag.Event) (vi vi' : Index vecfc.Index φ), vi.AddAll rule es = .ok vi' →
      (es.map dag.Event.ID).Nodup →
      (∀ e ∈ es, vi.Base.HighestBefore.lookup e.ID = none) →
      (∀ id v, vi.Base.HighestBefore.lookup id = some v →
        vi'.Base.HighestBefore.lookup id = some v) ∧
      (∀ e ∈ es, ∃ hb, vi'.Base.highestBeforeFor rule e = .ok hb ∧
        vi'.Base.HighestBefore.lookup e.ID = some hb) ∧
      (∀ id v, vi'.Base.HighestBefore.lookup id = some v →
        vi.Base.HighestBefore.lookup id = some v ∨ ∃ e ∈ es, e.ID = id) := by
  intro es
  induction es with
  | nil =>
    intro vi vi' h _ _
    simp only [Index.AddAll] at h
    cases h
    exact ⟨fun _ _ h => h, fun e he => (by cases he), fun _ _ h => Or.inl h⟩
  | cons e es ih =>
    intro vi vi' h hnd hfresh
    obtain ⟨vi₁, ha, hrest⟩ := addAll_cons_inv rule vi vi' e es h
    obtain ⟨hb, hfor, hvi₁⟩ := add_inv rule vi vi₁ e ha
    have hnd' : (es.map dag.Event.ID).Nodup := (List.nodup_cons.mp hnd).2
    have hnotin : e.ID ∉ es.map dag.Event.ID := (List.nodup_cons.mp hnd).1
    have htbl₁ : vi₁.Base.HighestBefore = (e.ID, hb) :: vi.Base.HighestBefore := by
      subst hvi₁; rfl
    have hfresh₁ : ∀ e' ∈ es, vi₁.Base.HighestBefore.lookup e'.ID = none := by
      intro e' he'
      have hne : e'.ID ≠ e.ID := by
        intro heq
        exact hnotin (heq ▸ List.mem_map_of_mem dag.Event.ID he')
      rw [htbl₁, lookup_cons_ne _ _ _ _ hne]
      exact hfresh e' (List.mem_cons_of_mem _ he')
    obtain ⟨hkeep, hchar, hkeys⟩ := ih vi₁ vi' hrest hnd' hfresh₁
    have hstep : ∀ id v, vi.Base.HighestBefore.lookup id = some v →
        vi₁.Base.HighestBefore.lookup id = some v := by
      intro id v hl
      have hne : id ≠ e.ID := by
        intro heq
        rw [heq, hfresh e (List.mem_cons_self _ _)] at hl
        cases hl
      rw [htbl₁, lookup_cons_ne _ _ _ _ hne]
      exact hl
    have hkeep₀ : ∀ id v, vi.Base.HighestBefore.lookup id = some v →
        vi'.Base.HighestBefore.lookup id = some v :=
      fun id v hl => hkeep id v (hstep id v hl)
    obtain ⟨_, hv', hi'⟩ := addAll_frame rule (e :: es) vi vi' h
    refine ⟨hkeep₀, ?_, ?_⟩
    · intro e' he'
      cases he' with
      | head =>
        refine ⟨hb, ?_, ?_⟩
        · exact vecfc.highestBeforeFor_mono rule vi.Base vi'.Base e hv' hi' hkeep₀ hb hfor
        · apply hkeep
          rw [htbl₁, lookup_cons_self]
      | tail _ he'' => exact hchar e' he''
    · intro id v hl
      rcases hkeys id v hl with h₁ | ⟨e', he', hid⟩
      · by_cases hne : id = e.ID
        · exact Or.inr ⟨e, List.mem_cons_self _ _, hne.symm⟩
        · rw [htbl₁, lookup_cons_ne _ _ _ _ hne] at h₁
          exact Or.inl h₁
      · exact Or.inr ⟨e', List.mem_cons_of_mem _ he', hid⟩

/-- The table of one run is contained in any table that holds, for each of the
run's events, the vector `Add` computes for it there. -/
theorem addAll_table_le {φ : Type} (rule : ForkRule) (final : vecfc.Index) :
    ∀ (es : List dag.Event) (vi vi' : Index vecfc.Index φ), vi.AddAll rule es = .ok vi' →
      final.validators = vi.Base.validators →
      final.validatorIdxs = vi.Base.validatorIdxs →
      (∀ id v, vi.Base.HighestBefore.lookup id = some v →
        final.HighestBefore.lookup id = some v) →
      (∀ e ∈ es, ∃ hb, final.highestBeforeFor rule e = .ok hb ∧
        final.HighestBefore.lookup e.ID = some hb) →
      ∀ id v, vi'.Base.HighestBefore.lookup id = some v →
        final.HighestBefore.lookup id = some v := by
  intro es
  induction es with
  | nil =>
    intro vi vi' h _ _ hsub _
    simp only [Index.AddAll] at h
    cases h
    exact hsub
  | cons e es ih =>
    intro vi vi' h hv hi hsub hchar
    obtain ⟨vi₁, ha, hrest⟩ := addAll_cons_inv rule vi vi' e es h
    obtain ⟨hb, hfor, hvi₁⟩ := add_inv rule vi vi₁ e ha
    have htbl₁ : vi₁.Base.HighestBefore = (e.ID, hb) :: vi.Base.HighestBefore := by
      subst hvi₁; rfl
    have hv₁ : vi₁.Base.validators = vi.Base.validators := by subst hvi₁; rfl
    have hi₁ : vi₁.Base.validatorIdxs = vi.Base.validatorIdxs := by subst hvi₁; rfl
    obtain ⟨hb', hfor', hl'⟩ := hchar e (List.mem_cons_self _ _)
    have hsame : final.highestBeforeFor rule e = .ok hb :=
      vecfc.highestBeforeFor_mono rule vi.Base final e hv hi hsub hb hfor
    have hbeq : hb' = hb := by
      rw [hfor'] at hsame
      cases hsame; rfl
    apply ih vi₁ vi' hrest (hv.trans hv₁.symm) (hi.trans hi₁.symm)
    · intro id v hl
      by_cases hne : id = e.ID
      · rw [htbl₁, hne, lookup_cons_self] at hl
        cases hl
        rw [hne, hl', hbeq]
      · rw [htbl₁, lookup_cons_ne _ _ _ _ hne] at hl
        exact hsub id v hl
    · exact fun e' he' => hchar e' (List.mem_cons_of_mem _ he')

end vecmt

/-! ### Lemmas about the merge of Highest-Before vectors -/

namespace vecengine

theorem seqAt_nil (v : Nat) : seqAt [] v = 0 := by
  simp [seqAt]

theorem seqAt_cons_zero (a : HighestBeforeSlot) (rest : HighestBefore) :
    seqAt (a :: rest) 0 = a.Seq := by
  simp [seqAt]

theorem seqAt_cons_succ (a : HighestBeforeSlot) (rest : HighestBefore) (v : Nat) :
    seqAt (a :: rest) (v + 1) = seqAt rest v := by
  simp [seqAt]

theorem length_collectFrom (rule : ForkRule) :
    ∀ (acc p : HighestBefore) (i : Nat), (collectFrom rule i acc p).length = acc.length := by
  intro acc
  induction acc with
  | nil => intro p i; simp [collectFrom]
  | cons a acc ih =>
    intro p i
    cases p with
    | nil => simp [collectFrom]
    | cons q ps => simp [collectFrom, ih]

theorem seqAt_collectFrom_acc (rule : ForkRule) :
    ∀ (acc p : HighestBefore) (i v : Nat),
      seqAt acc v ≤ seqAt (collectFrom rule i acc p) v := by
  intro acc
  induction acc with
  | nil => intro p i v; simp [collectFrom]
  | cons a acc ih =>
    intro p i v
    cases p with
    | nil => simp [collectFrom]
    | cons q ps =>
      cases v with
      | zero =>
        simp only [collectFrom, seqAt_cons_zero, mergeSlot]
        exact le_max_left _ _
      | succ v =>
        simp only [collectFrom, seqAt_cons_succ]
        exact ih ps (i + 1) v

theorem seqAt_collectFrom_parent (rule : ForkRule) :
    ∀ (acc p : HighestBefore) (i v : Nat), p.length ≤ acc.length →
      seqAt p v ≤ seqAt (collectFrom rule i acc p) v := by
  intro acc
  induction acc with
  | nil =>
    intro p i v hlen
    have : p = [] := List.length_eq_zero.mp (Nat.le_zero.mp hlen)
    subst this
    simp [collectFrom]
  | cons a acc ih =>
    intro p i v hlen
    cases p with
    | nil => simp [seqAt_nil]
    | cons q ps =>
      cases v with
      | zero =>
        simp only [collectFrom, seqAt_cons_zero, mergeSlot]
        exact le_max_right _ _
      | succ v =>
        simp only [collectFrom, seqAt_cons_succ]
        exact ih ps (i + 1) v (Nat.le_of_succ_le_succ hlen)

theorem length_foldl_collectFrom (rule : ForkRule) :
    ∀ (pvs : List HighestBefore) (acc : HighestBefore),
      (pvs.foldl (collectFrom rule 0) acc).length = acc.length := by
  intro pvs
  induction pvs with
  | nil => intro acc; rfl
  | cons p pvs ih =>
    intro acc
    simp only [List.foldl_cons]
    rw [ih, length_collectFrom]

theorem seqAt_foldl_acc (rule : ForkRule) :
    ∀ (pvs : List HighestBefore) (acc : HighestBefore) (v : Nat),
      seqAt acc v ≤ seqAt (pvs.foldl (collectFrom rule 0) acc) v := by
  intro pvs
  induction pvs with
  | nil => intro acc v; exact le_refl _
  | cons p pvs ih =>
    intro acc v
    simp only [List.foldl_cons]
    exact le_trans (seqAt_collectFrom_acc rule acc p 0 v) (ih _ v)

theorem seqAt_foldl_parent (rule : ForkRule) :
    ∀ (pvs : List HighestBefore) (acc : HighestBefore) (v : Nat) (hy : HighestBefore),
      hy ∈ pvs → hy.length ≤ acc.length →
      seqAt hy v ≤ seqAt (pvs.foldl (collectFrom rule 0) acc) v := by
  intro pvs
  induction pvs with
  | nil => intro acc v hy h; cases h
  | cons p pvs ih =>
    intro acc v hy h hlen
    simp only [List.foldl_cons]
    rcases List.mem_cons.mp h with heq | h'
    · subst heq
      exact le_trans (seqAt_collectFrom_parent rule acc hy 0 v hlen) (seqAt_foldl_acc rule pvs _ v)
    · exact ih _ v hy h' (by rw [length_collectFrom]; exact hlen)

theorem length_setOwn (e : dag.Event) :
    ∀ (hb : HighestBefore) (me : Nat), (setOwn me e hb).length = hb.length := by
  intro hb
  induction hb with
  | nil => intro me; simp [setOwn]
  | cons a rest ih =>
    intro me
    cases me with
    | zero => simp [setOwn]
    | succ k => simp [setOwn, ih]

theorem seqAt_setOwn_ne (e : dag.Event) :
    ∀ (hb : HighestBefore) (me v : Nat), v ≠ me → seqAt (setOwn me e hb) v = seqAt hb v := by
  intro hb
  induction hb with
  | nil => intro me v _; simp [setOwn]
  | cons a rest ih =>
    intro me v hne
    cases me with
    | zero =>
      cases v with
      | zero => exact absurd rfl hne
      | succ v => simp [setOwn, seqAt_cons_succ]
    | succ k =>
      cases v with
      | zero => simp [setOwn, seqAt_cons_zero]
      | succ v =>
        simp only [setOwn, seqAt_cons_succ]
        exact ih k v (fun h => hne (by rw [h]))

theorem seqAt_setOwn_self (e : dag.Event) :
    ∀ (hb : HighestBefore) (me : Nat), me < hb.length → seqAt (setOwn me e hb) me = e.Seq := by
  intro hb
  induction hb with
  | nil => intro me h; simp at h
  | cons a rest ih =>
    intro me h
    cases me with
    | zero => simp [setOwn, seqAt_cons_zero]
    | succ k =>
      simp only [setOwn, seqAt_cons_succ]
      exact ih k (by simpa using h)

theorem length_computeHighestBefore (rule : ForkRule) (size me : Nat) (e : dag.Event)
    (pvs : List HighestBefore) :
    (computeHighestBefore rule size me e pvs).length = size := by
  simp [computeHighestBefore, length_setOwn, length_foldl_collectFrom, NewHighestBefore]

end vecengine

/-! ### Lemmas about the queries -/

namespace vecengine

theorem lookup_idxsFrom_lt (ids : List idx.ValidatorID) (id : idx.ValidatorID) :
    ∀ (i k : Nat), (pos.idxsFrom i ids).lookup id = some k → i ≤ k ∧ k < i + ids.length := by
  induction ids with
  | nil => intro i k h; simp [pos.idxsFrom] at h
  | cons a rest ih =>
    intro i k h
    have hlen : (a :: rest).length = rest.length + 1 := rfl
    by_cases ha : id = a
    · subst ha
      rw [pos.idxsFrom, lookup_cons_self] at h
      have hk : i = k := by cases h; rfl
      omega
    · rw [pos.idxsFrom, lookup_cons_ne _ _ _ _ ha] at h
      have := ih (i + 1) k h
      omega

theorem lookup_visitParents_isSome (me : idx.Validator) (seq : idx.Event)
    (parents : List hash.Event) (id : hash.Event) :
    ∀ tbl : List (hash.Event × LowestAfter),
      ((visitParents me seq parents tbl).lookup id).isSome = (tbl.lookup id).isSome := by
  intro tbl
  induction tbl with
  | nil => simp [visitParents]
  | cons entry rest ih =>
    obtain ⟨k, la⟩ := entry
    by_cases h : id = k
    · subst h
      simp [visitParents, lookup_cons_self]
    · simp only [visitParents]
      rw [lookup_cons_ne _ _ _ _ h, lookup_cons_ne _ _ _ _ h]
      exact ih

end vecengine

namespace vecfc

open vecengine

theorem linkWeight_eq_sum :
    ∀ (ws : List pos.Weight) (hbx : vecengine.HighestBefore) (lay : vecengine.LowestAfter),
      linkWeight ws hbx lay =
        (Finset.range ws.length).sum
          (fun v => if vecmt.links hbx lay v then (ws.get? v).getD 0 else 0) := by
  intro ws
  induction ws with
  | nil => intro hbx lay; simp [linkWeight]
  | cons w ws ih =>
    intro hbx lay
    cases hbx with
    | nil => simp [linkWeight, vecmt.links]
    | cons h hs =>
      cases lay with
      | nil => simp [linkWeight, vecmt.links]
      | cons l ls =>
        rw [List.length_cons, Finset.sum_range_succ']
        simp only [linkWeight]
        rw [ih hs ls]
        have htail : ∀ v, vecmt.links (h :: hs) (l :: ls) (v + 1) = vecmt.links hs ls v := by
          intro v; simp [vecmt.links]
        simp only [htail, List.get?_cons_succ]
        rw [add_comm]
        congr 1
        cases l with
        | none => simp [vecmt.links]
        | some s => simp [vecmt.links]

theorem forklessCause_eq (vi : Index) (vals : pos.Validators) (x y : hash.Event)
    (hbx : vecengine.HighestBefore) (lay : vecengine.LowestAfter)
    (hv : vi.validators = some vals) (hx : vi.HighestBefore.lookup x = some hbx)
    (hy : vi.LowestAfter.lookup y = some lay) :
    vi.ForklessCause x y =
      .ok (if x = y then true else decide (vals.Quorum ≤ vecmt.quorumSum vals hbx lay)) := by
  have hsum : linkWeight (vals.entries.map Prod.snd) hbx lay = vecmt.quorumSum vals hbx lay := by
    rw [linkWeight_eq_sum]
    simp [vecmt.quorumSum, pos.Validators.Len, pos.Validators.GetWeightByIdx]
  unfold Index.ForklessCause
  simp only [hv, hx, hy, hsum]
  by_cases h : x = y <;> simp [h]

end vecfc

namespace vecmt

open vecengine

/-- Every event of a run of `Add`s ends with a Highest-Before and a
Lowest-After vector, and no vector is lost on the way. -/
theorem addAll_known {φ : Type} (rule : ForkRule) :
    ∀ (es : List dag.Event) (vi vi' : Index vecfc.Index φ), vi.AddAll rule es = .ok vi' →
      (∀ id, (vi.Base.HighestBefore.lookup id).isSome = true →
        (vi'.Base.HighestBefore.lookup id).isSome = true) ∧
      (∀ id, (vi.Base.LowestAfter.lookup id).isSome = true →
        (vi'.Base.LowestAfter.lookup id).isSome = true) ∧
      (∀ e ∈ es, (vi'.Base.HighestBefore.lookup e.ID).isSome = true ∧
        (vi'.Base.LowestAfter.lookup e.ID).isSome = true) := by
  intro es
  induction es with
  | nil =>
    intro vi vi' h
    simp only [Index.AddAll] at h
    cases h
    exact ⟨fun _ h => h, fun _ h => h, fun e he => (by cases he)⟩
  | cons e es ih =>
    intro vi vi' h
    obtain ⟨vi₁, ha, hrest⟩ := addAll_cons_inv rule vi vi' e es h
    obtain ⟨hb, _, hvi₁⟩ := add_inv rule vi vi₁ e ha
    obtain ⟨hkeepH, hkeepL, hall⟩ := ih vi₁ vi' hrest
    have htblH : vi₁.Base.HighestBefore = (e.ID, hb) :: vi.Base.HighestBefore := by
      subst hvi₁; rfl
    have htblL : vi₁.Base.LowestAfter = (e.ID, NewLowestAfter vi.Base.size) ::
        visitParents (vi.Base.creatorIdx e) e.Seq e.Parents vi.Base.LowestAfter := by
      subst hvi₁; rfl
    have hstepH : ∀ id, (vi.Base.HighestBefore.lookup id).isSome = true →
        (vi₁.Base.HighestBefore.lookup id).isSome = true := by
      intro id hid
      rw [htblH]
      by_cases hne : id = e.ID
      · rw [hne, lookup_cons_self]; rfl
      · rw [lookup_cons_ne _ _ _ _ hne]; exact hid
    have hstepL : ∀ id, (vi.Base.LowestAfter.lookup id).isSome = true →
        (vi₁.Base.LowestAfter.lookup id).isSome = true := by
      intro id hid
      rw [htblL]
      by_cases hne : id = e.ID
      · rw [hne, lookup_cons_self]; rfl
      · rw [lookup_cons_ne _ _ _ _ hne, lookup_visitParents_isSome]; exact hid
    refine ⟨fun id hid => hkeepH id (hstepH id hid), fun id hid => hkeepL id (hstepL id hid), ?_⟩
    intro e' he'
    rcases List.mem_cons.mp he' with heq | he''
    · subst heq
      constructor
      · apply hkeepH; rw [htblH, lookup_cons_self]; rfl
      · apply hkeepL; rw [htblL, lookup_cons_self]; rfl
    · exact hall e' he''

theorem reset_base {φ : Type} (vi : Index vecfc.Index φ) (validators : pos.Validators)
    (db : sesadb.Store) (getEvent : hash.Event → Option dag.Event) :
    (Index.Reset vecfc.Index.Reset vi validators db getEvent).Base.validators = some validators ∧
    (Index.Reset vecfc.Index.Reset vi validators db getEvent).Base.validatorIdxs
      = validators.Idxs ∧
    (Index.Reset vecfc.Index.Reset vi validators db getEvent).Base.HighestBefore = [] ∧
    (Index.Reset vecfc.Index.Reset vi validators db getEvent).Base.LowestAfter = [] ∧
    (Index.Reset vecfc.Index.Reset vi validators db getEvent).validators = some validators := by
  simp [Index.Reset, Index.onDropNotFlushed, vecfc.Index.Reset]

end vecmt

/-! ### Lemmas about the filters of `DbCacheFdlimit` -/

namespace integration

theorem buildFilters_sound {ε : Type}
    (CompileFilter : List Char → List Char → Except ε (Filter ε)) :
    ∀ (tbl : List (List Char × DBCacheConfig)) (fmts : List (Filter ε × DBCacheConfig)),
      buildFilters CompileFilter tbl = .ok fmts →
      ∀ p ∈ fmts, ∃ entry ∈ tbl, entry.1.contains '%' = true ∧
        CompileFilter entry.1 entry.1 = .ok p.1 ∧ entry.2 = p.2 := by
  intro tbl
  induction tbl with
  | nil =>
    intro fmts h p hp
    simp only [buildFilters] at h
    cases h
    cases hp
  | cons entry rest ih =>
    obtain ⟨name, cache⟩ := entry
    intro fmts h p hp
    by_cases hc : name.contains '%' = true
    · have hstep : buildFilters CompileFilter ((name, cache) :: rest) =
          (match CompileFilter name name with
            | .error err => .error err
            | .ok fn =>
              match buildFilters CompileFilter rest with
              | .error err => .error err
              | .ok fmts => .ok ((fn, cache) :: fmts)) := by
        have hne : ¬ name.contains '%' = false := by rw [hc]; decide
        rw [buildFilters, if_neg hne]
      rw [hstep] at h
      cases hcomp : CompileFilter name name with
      | error err => rw [hcomp] at h; cases h
      | ok fn =>
        cases hrest : buildFilters CompileFilter rest with
        | error err => rw [hcomp, hrest] at h; cases h
        | ok fmts' =>
          have hf : fmts = (fn, cache) :: fmts' := by
            rw [hcomp, hrest] at h
            cases h; rfl
          subst hf
          rcases List.mem_cons.mp hp with heq | hp'
          · subst heq
            exact ⟨(name, cache), List.mem_cons_self _ _, hc, hcomp, rfl⟩
          · obtain ⟨entry, he, h1, h2, h3⟩ := ih fmts' hrest p hp'
            exact ⟨entry, List.mem_cons_of_mem _ he, h1, h2, h3⟩
    · have hc' : name.contains '%' = false := by
        cases hb : name.contains '%' with
        | false => rfl
        | true => exact absurd hb hc
      rw [buildFilters, if_pos hc'] at h
      obtain ⟨entry, he, h1, h2, h3⟩ := ih fmts h p hp
      exact ⟨entry, List.mem_cons_of_mem _ he, h1, h2, h3⟩

theorem buildFilters_complete {ε : Type}
    (CompileFilter : List Char → List Char → Except ε (Filter ε)) :
    ∀ (tbl : List (List Char × DBCacheConfig)) (fmts : List (Filter ε × DBCacheConfig)),
      buildFilters CompileFilter tbl = .ok fmts →
      ∀ entry ∈ tbl, entry.1.contains '%' = true →
        ∃ fn, CompileFilter entry.1 entry.1 = .ok fn ∧ (fn, entry.2) ∈ fmts := by
  intro tbl
  induction tbl with
  | nil => intro fmts _ entry he; cases he
  | cons first rest ih =>
    obtain ⟨name, cache⟩ := first
    intro fmts h entry he hpat
    by_cases hc : name.contains '%' = true
    · have hstep : buildFilters CompileFilter ((name, cache) :: rest) =
          (match CompileFilter name name with
            | .error err => .error err
            | .ok fn =>
              match buildFilters CompileFilter rest with
              | .error err => .error err
              | .ok fmts => .ok ((fn, cache) :: fmts)) := by
        have hne : ¬ name.contains '%' = false := by rw [hc]; decide
        rw [buildFilters, if_neg hne]
      rw [hstep] at h
      cases hcomp : CompileFilter name name with
      | error err => rw [hcomp] at h; cases h
      | ok fn =>
        cases hrest : buildFilters CompileFilter rest with
        | error err => rw [hcomp, hrest] at h; cases h
        | ok fmts' =>
          have hf : fmts = (fn, cache) :: fmts' := by
            rw [hcomp, hrest] at h
            cases h; rfl
          subst hf
          rcases List.mem_cons.mp he with heq | he'
          · subst heq
            exact ⟨fn, hcomp, List.mem_cons_self _ _⟩
          · obtain ⟨fn', h1, h2⟩ := ih fmts' hrest entry he' hpat
            exact ⟨fn', h1, List.mem_cons_of_mem _ h2⟩
    · have hc' : name.contains '%' = false := by
        cases hb : name.contains '%' with
        | false => rfl
        | true => exact absurd hb hc
      rw [buildFilters, if_pos hc'] at h
      rcases List.mem_cons.mp he with heq | he'
      · subst heq
        exact absurd hpat hc
      · exact ih fmts h entry he' hpat

theorem firstMatch_some {ε : Type} (name : List Char) :
    ∀ (fmts : List (Filter ε × DBCacheConfig)) (cache : DBCacheConfig),
      firstMatch name fmts = some cache →
      ∃ p ∈ fmts, p.2 = cache ∧ ∃ out, p.1 name = .ok out := by
  intro fmts
  induction fmts with
  | nil => intro cache h; simp [firstMatch] at h
  | cons p rest ih =>
    obtain ⟨fn, c⟩ := p
    intro cache h
    cases hfn : fn name with
    | ok out =>
      simp only [firstMatch, hfn] at h
      exact ⟨(fn, c), List.mem_cons_self _ _, by simpa using h, out, hfn⟩
    | error err =>
      simp only [firstMatch, hfn] at h
      obtain ⟨p, hp, h1, h2⟩ := ih cache h
      exact ⟨p, List.mem_cons_of_mem _ hp, h1, h2⟩

theorem firstMatch_none {ε : Type} (name : List Char) :
    ∀ (fmts : List (Filter ε × DBCacheConfig)),
      firstMatch name fmts = none → ∀ p ∈ fmts, ∀ out, p.1 name ≠ .ok out := by
  intro fmts
  induction fmts with
  | nil => intro _ p hp; cases hp
  | cons q rest ih =>
    obtain ⟨fn, c⟩ := q
    intro h p hp out
    cases hfn : fn name with
    | ok out' => simp [firstMatch, hfn] at h
    | error err =>
      simp only [firstMatch, hfn] at h
      rcases List.mem_cons.mp hp with heq | hp'
      · subst heq
        simp [hfn]
      · exact ih h p hp' out

end integration

/-! ### Lemmas about the queue, the cache and the loop of `Commit` -/

namespace prque

theorem popMax_perm {α : Type} :
    ∀ (xs : List (α × Int)) (best : α × Int),
      ((popMax best xs).1 :: (popMax best xs).2).Perm (best :: xs) := by
  intro xs
  induction xs with
  | nil => intro best; simp [popMax]
  | cons x xs ih =>
    intro best
    by_cases h : best.2 < x.2
    · simp only [popMax, h, if_true]
      exact (List.Perm.swap _ _ _).trans ((ih x).cons best)
    · simp only [popMax, h, if_false]
      exact (List.Perm.swap _ _ _).trans ((ih best).cons x) |>.trans (List.Perm.swap _ _ _)

theorem popMax_ge {α : Type} :
    ∀ (xs : List (α × Int)) (best : α × Int),
      best.2 ≤ (popMax best xs).1.2 ∧ ∀ e ∈ (popMax best xs).2, e.2 ≤ (popMax best xs).1.2 := by
  intro xs
  induction xs with
  | nil => intro best; simp [popMax]
  | cons x xs ih =>
    intro best
    by_cases h : best.2 < x.2
    · simp only [popMax, h, if_true]
      obtain ⟨h1, h2⟩ := ih x
      refine ⟨by omega, ?_⟩
      intro e he
      rcases List.mem_cons.mp he with heq | he'
      · subst heq; omega
      · exact h2 e he'
    · simp only [popMax, h, if_false]
      obtain ⟨h1, h2⟩ := ih best
      refine ⟨h1, ?_⟩
      intro e he
      rcases List.mem_cons.mp he with heq | he'
      · subst heq; omega
      · exact h2 e he'

theorem popMax_length {α : Type} :
    ∀ (xs : List (α × Int)) (best : α × Int), (popMax best xs).2.length = xs.length := by
  intro xs
  induction xs with
  | nil => intro best; simp [popMax]
  | cons x xs ih =>
    intro best
    by_cases h : best.2 < x.2
    · simp [popMax, h, ih]
    · simp [popMax, h, ih]

end prque

namespace wlru

theorem evictOldest_keeps_newest {κ ν : Type} (maxWeight : Nat) (maxSize : Int)
    (x : κ × ν × Nat) (hw : x.2.2 ≤ maxWeight) (hs : 1 ≤ maxSize) :
    ∀ l : List (κ × ν × Nat), ∃ l', evictOldest maxWeight maxSize (l ++ [x]) = l' ++ [x] := by
  intro l
  induction l with
  | nil =>
    refine ⟨[], ?_⟩
    have h1 : ¬ maxWeight < totalWeight [x] := by
      simp [totalWeight]; exact hw
    have h2 : ¬ maxSize < Int.ofNat [x].length := by
      simp; exact hs
    rw [List.nil_append, evictOldest, if_neg (fun h => h.elim h1 h2)]
  | cons e rest ih =>
    obtain ⟨l', hl'⟩ := ih
    by_cases h : maxWeight < totalWeight (e :: (rest ++ [x])) ∨
        maxSize < Int.ofNat (e :: (rest ++ [x])).length
    · refine ⟨l', ?_⟩
      rw [List.cons_append, evictOldest, if_pos h]
      exact hl'
    · refine ⟨e :: rest, ?_⟩
      rw [List.cons_append, evictOldest, if_neg h]

theorem get_add_of_fits {κ ν : Type} [DecidableEq κ] (c : Cache κ ν) (key : κ) (value : ν)
    (weight : Nat) (hw : weight ≤ c.maxWeight) (hs : 1 ≤ c.maxSize) :
    (c.Add key value weight).Get key = some value := by
  obtain ⟨l', hl'⟩ := evictOldest_keeps_newest c.maxWeight c.maxSize (key, value, weight) hw hs
    ((c.entries.filter (fun e => decide (e.1 ≠ key))).reverse)
  have hrev : ((key, value, weight) :: c.entries.filter (fun e => decide (e.1 ≠ key))).reverse
      = (c.entries.filter (fun e => decide (e.1 ≠ key))).reverse ++ [(key, value, weight)] := by
    simp
  simp only [Cache.Add, Cache.Get, hrev, hl']
  simp [List.lookup]

end wlru

namespace evmstore

theorem int64_ofNat (b : Nat) (h : b < 2 ^ 63) : machine.int64 (Int.ofNat b) = Int.ofNat b := by
  unfold machine.int64
  simp only [Int.ofNat_eq_coe]
  split <;> omega

theorem int64_neg_ofNat (b : Nat) (h : b < 2 ^ 63) :
    machine.int64 (-(Int.ofNat b)) = -(Int.ofNat b) := by
  unfold machine.int64
  simp only [Int.ofNat_eq_coe]
  split <;> omega

theorem uint64_ofNat (b : Nat) (h : b < 2 ^ 64) : machine.uint64 (Int.ofNat b) = b := by
  unfold machine.uint64
  simp only [Int.ofNat_eq_coe]
  omega

theorem blockOf_of_range (p : Int) (h1 : -2 ^ 63 < p) (h2 : p ≤ 0) :
    (blockOf p : Int) = -p := by
  unfold blockOf machine.uint64 machine.int64
  have hmod : (-p) % 2 ^ 64 = -p := Int.emod_eq_of_lt (by omega) (by omega)
  rw [hmod]
  have hlt : -p < 2 ^ 63 := by omega
  rw [if_pos hlt, hmod]
  exact Int.toNat_of_nonneg (by omega)

theorem blockOf_antitone (p q : Int) (hp1 : -2 ^ 63 < p) (hp2 : p ≤ 0)
    (hq1 : -2 ^ 63 < q) (hq2 : q ≤ 0) (h : p ≤ q) : blockOf q ≤ blockOf p := by
  have h1 := blockOf_of_range p hp1 hp2
  have h2 := blockOf_of_range q hq1 hq2
  omega

theorem cap_frame {B τ ω ε : Type} (triedb : TrieDB ω ε) (idealBatchSize : Nat)
    (t : Store B τ ω) :
    (Store.Cap triedb idealBatchSize t).cfg = t.cfg ∧
    (Store.Cap triedb idealBatchSize t).Snaps = t.Snaps ∧
    (Store.Cap triedb idealBatchSize t).cache = t.cache ∧
    (Store.Cap triedb idealBatchSize t).triegc = t.triegc := by
  unfold Store.Cap
  by_cases hc : (triedb.Size t.world).1 > t.cfg.Cache.TrieDirtyLimit + idealBatchSize ∨
      (triedb.Size t.world).2 > 4 * 1024 * 1024
  · simp only [hc, if_true, and_self]
  · simp only [hc, if_false, and_self]

theorem cap_world_congr {B τ ω ε : Type} (triedb : TrieDB ω ε) (idealBatchSize : Nat)
    (t t' : Store B τ ω) (hcfg : t.cfg = t'.cfg) (hw : t.world = t'.world) :
    (Store.Cap triedb idealBatchSize t).world = (Store.Cap triedb idealBatchSize t').world := by
  unfold Store.Cap
  rw [hcfg, hw]
  by_cases hc : (triedb.Size t'.world).1 > t'.cfg.Cache.TrieDirtyLimit + idealBatchSize ∨
      (triedb.Size t'.world).2 > 4 * 1024 * 1024
  · simp only [hc, if_true]
  · simp only [hc, if_false, hw]

/-- The loop of `Commit` ends when given as many iterations as the queue has
entries: it dereferences, once each, the entries whose block number is at most
`chosen` and keeps the others. -/
theorem gcLoop_spec {ω ε : Type} (triedb : TrieDB ω ε) (chosen : Nat) :
    ∀ (fuel : Nat) (q : prque.Prque common.Hash) (w : ω),
      q.items.length ≤ fuel →
      (∀ e ∈ q.items, -2 ^ 63 < e.2 ∧ e.2 ≤ 0) →
      ∃ (popped : List (common.Hash × Int)) (q' : prque.Prque common.Hash),
        gcLoop triedb chosen fuel q w
          = some (q', (popped.map Prod.fst).foldl (fun w r => triedb.Dereference r w) w) ∧
        popped.Perm (q.items.filter (fun e => decide (blockOf e.2 ≤ chosen))) ∧
        q'.items.Perm (q.items.filter (fun e => decide (chosen < blockOf e.2))) := by
  intro fuel
  induction fuel with
  | zero =>
    intro q w hlen _
    have hnil : q.items = [] := List.length_eq_zero.mp (Nat.le_zero.mp hlen)
    refine ⟨[], q, ?_, ?_, ?_⟩
    · unfold gcLoop
      simp [prque.Prque.Pop, hnil]
    · simp [hnil]
    · simp [hnil]
  | succ fuel ih =>
    intro q w hlen hrange
    cases hq : q.items with
    | nil =>
      refine ⟨[], q, ?_, ?_, ?_⟩
      · unfold gcLoop
        simp [prque.Prque.Pop, hq]
      · simp
      · simp [hq]
    | cons x xs =>
      have hperm := prque.popMax_perm xs x
      obtain ⟨_, hmax⟩ := prque.popMax_ge xs x
      have hmem : ∀ e, e ∈ (prque.popMax x xs).1 :: (prque.popMax x xs).2 ↔ e ∈ x :: xs :=
        fun e => hperm.mem_iff
      have hrange' : ∀ e ∈ (prque.popMax x xs).1 :: (prque.popMax x xs).2,
          -2 ^ 63 < e.2 ∧ e.2 ≤ 0 := by
        intro e he
        exact hrange e (by rw [hq]; exact (hmem e).mp he)
      have hm := hrange' _ (List.mem_cons_self _ _)
      by_cases hgt : blockOf (prque.popMax x xs).1.2 > chosen
      · refine ⟨[], prque.Prque.Push { items := (prque.popMax x xs).2 }
          (prque.popMax x xs).1.1 (prque.popMax x xs).1.2, ?_, ?_, ?_⟩
        · unfold gcLoop
          simp [prque.Prque.Pop, hq, hgt]
        · have hall : ∀ e ∈ x :: xs, ¬ blockOf e.2 ≤ chosen := by
            intro e he
            rcases List.mem_cons.mp ((hmem e).mpr he) with heq | her
            · rw [heq]; omega
            · have hr := hrange' e (List.mem_cons_of_mem _ her)
              have := blockOf_antitone e.2 (prque.popMax x xs).1.2 hr.1 hr.2 hm.1 hm.2
                (hmax e her)
              omega
          have : (x :: xs).filter (fun e => decide (blockOf e.2 ≤ chosen)) = [] := by
            apply List.filter_eq_nil_iff.mpr
            intro e he
            simpa using hall e he
          rw [this]
        · have hall : ∀ e ∈ x :: xs, chosen < blockOf e.2 := by
            intro e he
            rcases List.mem_cons.mp ((hmem e).mpr he) with heq | her
            · rw [heq]; exact hgt
            · have hr := hrange' e (List.mem_cons_of_mem _ her)
              have := blockOf_antitone e.2 (prque.popMax x xs).1.2 hr.1 hr.2 hm.1 hm.2
                (hmax e her)
              omega
          have : (x :: xs).filter (fun e => decide (chosen < blockOf e.2)) = x :: xs := by
            apply List.filter_eq_self.mpr
            intro e he
            simpa using hall e he
          rw [this]
          simp only [prque.Prque.Push]
          exact (List.perm_append_singleton _ _).trans hperm
      · have hle : blockOf (prque.popMax x xs).1.2 ≤ chosen := by omega
        have hlen' : (prque.popMax x xs).2.length ≤ fuel := by
          rw [prque.popMax_length]
          rw [hq] at hlen
          simpa using hlen
        obtain ⟨popped, q', hrun, hp1, hp2⟩ := ih { items := (prque.popMax x xs).2 }
          (triedb.Dereference (prque.popMax x xs).1.1 w) hlen'
          (fun e he => hrange' e (List.mem_cons_of_mem _ he))
        refine ⟨(prque.popMax x xs).1 :: popped, q', ?_, ?_, ?_⟩
        · unfold gcLoop
          simp only [prque.Prque.Pop, hq]
          rw [if_neg hgt]
          simpa using hrun
        · have hf := hperm.filter (fun e => decide (blockOf e.2 ≤ chosen))
          rw [List.filter_cons_of_pos (by simpa using hle)] at hf
          exact (hp1.cons _).trans hf
        · have hf := hperm.filter (fun e => decide (chosen < blockOf e.2))
          rw [List.filter_cons_of_neg (by simpa using hle)] at hf
          exact hp2.trans hf

end evmstore

/-! ### Lemmas about the staging wrapper and the stored vectors -/

namespace vecflushable

theorem flush_entries (w : VecFlushable) :
    w.Flush.underlying.entries = w.modified ++ w.underlying.entries := by
  unfold VecFlushable.Flush
  simp only
  induction w.modified with
  | nil => rfl
  | cons kv rest ih =>
    obtain ⟨k, v⟩ := kv
    simp only [List.foldr_cons, sesadb.Store.Put, List.cons_append]
    exact congrArg _ ih

theorem lookup_cons_key {β : Type} (k : List Nat) (v : β) (tbl : List (List Nat × β)) :
    ((k, v) :: tbl).lookup k = some v := by
  simp [List.lookup]

end vecflushable

namespace vecmt

open vecengine

/-- Every stored Highest-Before vector has one slot per validator. -/
theorem addAll_lengths {φ : Type} (rule : ForkRule) (vals : pos.Validators) :
    ∀ (es : List dag.Event) (vi vi' : Index vecfc.Index φ), vi.AddAll rule es = .ok vi' →
      vi.Base.validators = some vals →
      (∀ id hb, vi.Base.HighestBefore.lookup id = some hb → hb.length = vals.Len) →
      ∀ id hb, vi'.Base.HighestBefore.lookup id = some hb → hb.length = vals.Len := by
  intro es
  induction es with
  | nil =>
    intro vi vi' h _ hlen
    simp only [Index.AddAll] at h
    cases h
    exact hlen
  | cons e es ih =>
    intro vi vi' h hv hlen
    obtain ⟨vi₁, ha, hrest⟩ := addAll_cons_inv rule vi vi' e es h
    obtain ⟨hb, hfor, hvi₁⟩ := add_inv rule vi vi₁ e ha
    obtain ⟨vals', me, pvs, hvals', _, _, hbeq⟩ :=
      vecfc.highestBeforeFor_inv rule vi.Base e hb hfor
    have hsame : vals' = vals := by
      rw [hv] at hvals'
      cases hvals'; rfl
    subst hsame
    have htbl₁ : vi₁.Base.HighestBefore = (e.ID, hb) :: vi.Base.HighestBefore := by
      subst hvi₁; rfl
    have hv₁ : vi₁.Base.validators = some vals' := by
      subst hvi₁; exact hv
    apply ih vi₁ vi' hrest hv₁
    intro id v hl
    by_cases hne : id = e.ID
    · rw [htbl₁, hne, lookup_cons_self] at hl
      cases hl
      rw [hbeq, length_computeHighestBefore]
    · rw [htbl₁, lookup_cons_ne _ _ _ _ hne] at hl
      exact hlen id v hl

end vecmt

/-! ### Lemmas about big-endian byte strings -/

namespace machine

theorem uint64_cast (x : Int) : ((uint64 x : Nat) : Int) = x % 2 ^ 64 := by
  unfold uint64
  exact Int.toNat_of_nonneg (Int.emod_nonneg x (by decide))

end machine

namespace big

theorem foldl_shift (buf : List machine.byte) (acc : Nat) :
    buf.foldl (fun x b => x * 256 + b.val) acc
      = acc * 256 ^ buf.length + buf.foldl (fun x b => x * 256 + b.val) 0 := by
  induction buf generalizing acc with
  | nil => simp
  | cons b rest ih =>
    simp only [List.foldl_cons, List.length_cons]
    rw [ih (acc * 256 + b.val), ih (0 * 256 + b.val)]
    ring

theorem setBytes_nil : SetBytes [] = 0 := rfl

theorem setBytes_cons (b : machine.byte) (l : List machine.byte) :
    SetBytes (b :: l) = b.val * 256 ^ l.length + SetBytes l := by
  unfold SetBytes
  rw [List.foldl_cons, foldl_shift]
  simp

theorem setBytes_append (a b : List machine.byte) :
    SetBytes (a ++ b) = SetBytes a * 256 ^ b.length + SetBytes b := by
  unfold SetBytes
  rw [List.foldl_append, foldl_shift]

theorem setBytes_singleton (b : machine.byte) : SetBytes [b] = b.val := by
  simp [SetBytes]

/-- A byte string of `n` bytes is a number below `256 ^ n`. -/
theorem setBytes_lt (l : List machine.byte) : SetBytes l < 256 ^ l.length := by
  induction l with
  | nil => simp [SetBytes]
  | cons b rest ih =>
    rw [setBytes_cons, List.length_cons, pow_succ]
    have hb : b.val * 256 ^ rest.length ≤ 255 * 256 ^ rest.length :=
      Nat.mul_le_mul_right _ (by omega)
    omega

theorem setBytes_replicate_zero (m : Nat) : SetBytes (List.replicate m (0 : machine.byte)) = 0 := by
  induction m with
  | zero => rfl
  | succ m ih =>
    rw [List.replicate_succ, setBytes_cons, ih]
    simp

/-- With a byte that is not `0xFF` the successor still fits the length. -/
theorem setBytes_succ_lt (l : List machine.byte) (h : ∃ b ∈ l, b ≠ 255) :
    SetBytes l + 1 < 256 ^ l.length := by
  induction l with
  | nil =>
    obtain ⟨b, hb, _⟩ := h
    cases hb
  | cons x rest ih =>
    rw [setBytes_cons, List.length_cons, pow_succ]
    have hx : x.val * 256 ^ rest.length ≤ 255 * 256 ^ rest.length :=
      Nat.mul_le_mul_right _ (by omega)
    have hrest := setBytes_lt rest
    by_cases hx255 : x = 255
    · have hex : ∃ b ∈ rest, b ≠ 255 := by
        obtain ⟨b, hb, hne⟩ := h
        rcases List.mem_cons.mp hb with hbx | hbr
        · exact absurd (hbx.trans hx255) hne
        · exact ⟨b, hbr, hne⟩
      have := ih hex
      omega
    · have hlt : x.val ≤ 254 := by
        have hne : x.val ≠ 255 := fun hv => hx255 (Fin.ext hv)
        omega
      have hx2 : x.val * 256 ^ rest.length ≤ 254 * 256 ^ rest.length :=
        Nat.mul_le_mul_right _ hlt
      omega

/-- With enough fuel the bytes produced denote the number. -/
theorem setBytes_bytesAux (fuel : Nat) : ∀ x : Nat, x ≤ fuel → SetBytes (bytesAux fuel x) = x := by
  induction fuel with
  | zero =>
    intro x hx
    have : x = 0 := by omega
    subst this
    rfl
  | succ fuel ih =>
    intro x hx
    unfold bytesAux
    by_cases h0 : x = 0
    · rw [if_pos h0, h0]; rfl
    · rw [if_neg h0, setBytes_append, ih (x / 256) (by omega), setBytes_singleton]
      simp only [List.length_singleton, pow_one]
      omega

theorem setBytes_bytes (x : Nat) : SetBytes (Bytes x) = x :=
  setBytes_bytesAux x x (Nat.le_refl x)

/-- A number below `256 ^ k` has at most `k` bytes. -/
theorem length_bytesAux_le (fuel : Nat) :
    ∀ (x k : Nat), x < 256 ^ k → (bytesAux fuel x).length ≤ k := by
  induction fuel with
  | zero =>
    intro x k _
    simp [bytesAux]
  | succ fuel ih =>
    intro x k hx
    unfold bytesAux
    by_cases h0 : x = 0
    · rw [if_pos h0]; simp
    · rw [if_neg h0, List.length_append, List.length_singleton]
      cases k with
      | zero =>
        simp at hx
        exact absurd hx h0
      | succ k =>
        have hdiv : x / 256 < 256 ^ k := by
          rw [pow_succ] at hx
          exact Nat.div_lt_of_lt_mul (by omega)
        have := ih (x / 256) k hdiv
        omega

theorem length_bytes_le (x k : Nat) (h : x < 256 ^ k) : (Bytes x).length ≤ k :=
  length_bytesAux_le x x k h

/-- A byte string of `0xFF` bytes only is the largest number of its length. -/
theorem setBytes_all_ff (l : List machine.byte) (h : ∀ b ∈ l, b = 255) :
    SetBytes l + 1 = 256 ^ l.length := by
  induction l with
  | nil => rfl
  | cons x rest ih =>
    have hx : x = 255 := h x (List.mem_cons_self x rest)
    have hrest := ih (fun b hb => h b (List.mem_cons_of_mem x hb))
    rw [setBytes_cons, List.length_cons, pow_succ, hx]
    have h255 : ((255 : machine.byte) : Nat) = 255 := rfl
    rw [h255]
    omega

theorem bytesAux_zero (fuel : Nat) : bytesAux fuel 0 = [] := by
  cases fuel <;> simp [bytesAux]

/-- The bytes of `256 ^ n`: the byte 1 followed by `n` zero bytes. -/
theorem bytesAux_pow (n : Nat) :
    ∀ fuel : Nat, n + 1 ≤ fuel → bytesAux fuel (256 ^ n) = 1 :: List.replicate n 0 := by
  induction n with
  | zero =>
    intro fuel hf
    obtain ⟨f, rfl⟩ : ∃ f, fuel = f + 1 := ⟨fuel - 1, by omega⟩
    simp [bytesAux, bytesAux_zero]
  | succ n ih =>
    intro fuel hf
    obtain ⟨f, rfl⟩ : ∃ f, fuel = f + 1 := ⟨fuel - 1, by omega⟩
    have hpos : 0 < 256 ^ n := Nat.pow_pos (by decide)
    have hne : 256 ^ (n + 1) ≠ 0 := by
      rw [pow_succ]; omega
    have hdiv : 256 ^ (n + 1) / 256 = 256 ^ n := by
      rw [pow_succ]; omega
    have hmod : 256 ^ (n + 1) % 256 = 0 := by
      rw [pow_succ]; omega
    unfold bytesAux
    rw [if_neg hne, hdiv, ih f (by omega)]
    have hlast : (⟨256 ^ (n + 1) % 256, Nat.mod_lt _ (by decide)⟩ : machine.byte) = 0 :=
      Fin.ext hmod
    rw [hlast, List.replicate_succ', List.cons_append]

theorem bytes_pow (n : Nat) : Bytes (256 ^ n) = 1 :: List.replicate n 0 :=
  bytesAux_pow n _ (Nat.lt_pow_self (by decide) n)

end big

namespace common

theorem length_leftPadBytes (slice : List machine.byte) (l : Nat) (h : slice.length ≤ l) :
    (LeftPadBytes slice l).length = l := by
  unfold LeftPadBytes
  split
  · omega
  · simp only [List.length_append, List.length_replicate]
    omega

theorem setBytes_leftPadBytes (slice : List machine.byte) (l : Nat) :
    big.SetBytes (LeftPadBytes slice l) = big.SetBytes slice := by
  unfold LeftPadBytes
  split
  · rfl
  · rw [big.setBytes_append, big.setBytes_replicate_zero]
    simp

end common

namespace bytes

/-- On byte strings of one length the lexicographic order is the order of
the numbers they denote. -/
theorem compare_of_setBytes_lt :
    ∀ a b : List machine.byte, a.length = b.length → big.SetBytes b < big.SetBytes a →
      Compare a b = 1 := by
  intro a
  induction a with
  | nil =>
    intro b hlen hlt
    cases b with
    | nil => simp [big.SetBytes] at hlt
    | cons y b => simp at hlen
  | cons x a ih =>
    intro b hlen hlt
    cases b with
    | nil => simp at hlen
    | cons y b =>
      have hlen2 : a.length = b.length := by simpa using hlen
      rw [big.setBytes_cons, big.setBytes_cons, hlen2] at hlt
      have ha := big.setBytes_lt a
      have hb := big.setBytes_lt b
      rw [hlen2] at ha
      unfold Compare
      by_cases hxy : x < y
      · exfalso
        have hv : x.val < y.val := Fin.lt_def.mp hxy
        have h1 : (x.val + 1) * 256 ^ b.length ≤ y.val * 256 ^ b.length :=
          Nat.mul_le_mul_right _ hv
        rw [Nat.add_mul] at h1
        omega
      · rw [if_neg hxy]
        by_cases hyx : y < x
        · rw [if_pos hyx]
        · rw [if_neg hyx]
          have hv1 : ¬ x.val < y.val := fun h => hxy (Fin.lt_def.mpr h)
          have hv2 : ¬ y.val < x.val := fun h => hyx (Fin.lt_def.mpr h)
          have hval : x.val = y.val := by omega
          rw [hval] at hlt
          exact ih b hlen2 (by omega)

end bytes

namespace dagstream

/-- On a locator of `0xFF` bytes only the increment is one byte longer and
compares less than the locator. -/
theorem inc_all_ff (l : Locator) (hne : l ≠ []) (h : ∀ b ∈ l, b = 255) :
    Locator.Inc l = 1 :: List.replicate l.length 0 ∧ bytes.Compare (Locator.Inc l) l = -1 := by
  have hinc : Locator.Inc l = 1 :: List.replicate l.length 0 := by
    unfold Locator.Inc
    simp only [common.Big1]
    rw [big.setBytes_all_ff l h, big.bytes_pow]
    unfold common.LeftPadBytes
    rw [if_pos (by simp)]
  refine ⟨hinc, ?_⟩
  rw [hinc]
  cases l with
  | nil => exact absurd rfl hne
  | cons x rest =>
    have hx : x = 255 := h x (List.mem_cons_self x rest)
    subst hx
    unfold bytes.Compare
    rw [if_pos (by decide)]

theorem build_snoc (calls : List Call) (c : Call) :
    Payload.build (calls ++ [c]) = Call.run (Payload.build calls) c := by
  simp [Payload.build, List.foldl_append]

end dagstream

/-! ### The claims -/

/-- C1: after `Reset` the highest-before time cache holds no entry, whatever
the index state was and whatever the base index does in its own `Reset`:
no key is retrievable and the cache length is 0. -/
theorem C1_reset_purges_cache {β φ : Type}
    (baseReset : β → pos.Validators → vecflushable.VecFlushable →
      (hash.Event → Option dag.Event) → β)
    (vi : vecmt.Index β φ) (validators : pos.Validators) (db : sesadb.Store)
    (getEvent : hash.Event → Option dag.Event) :
    (∀ id : hash.Event,
      (vecmt.Index.Reset baseReset vi validators db getEvent).cache.HighestBeforeTime.Get id
        = none) ∧
    (vecmt.Index.Reset baseReset vi validators db getEvent).cache.HighestBeforeTime.Len = 0 := by
  constructor
  · intro id
    simp [vecmt.Index.Reset, vecmt.Index.onDropNotFlushed, wlru.Cache.Purge, wlru.Cache.Get]
  · simp [vecmt.Index.Reset, vecmt.Index.onDropNotFlushed, wlru.Cache.Purge, wlru.Cache.Len]

/-- C2: on return from `Reset` the index holds the given validators, their
index map, the given event lookup and a wrapper around `db` with nothing
buffered; the base index was reset with the same validators, the same
lookup and that same wrapper. -/
theorem C2_reset_rebinds {β φ : Type}
    (baseReset : β → pos.Validators → vecflushable.VecFlushable →
      (hash.Event → Option dag.Event) → β)
    (vi : vecmt.Index β φ) (validators : pos.Validators) (db : sesadb.Store)
    (getEvent : hash.Event → Option dag.Event) :
    (vecmt.Index.Reset baseReset vi validators db getEvent).validators = some validators ∧
    (vecmt.Index.Reset baseReset vi validators db getEvent).validatorIdxs = validators.Idxs ∧
    (vecmt.Index.Reset baseReset vi validators db getEvent).getEvent = some getEvent ∧
    (vecmt.Index.Reset baseReset vi validators db getEvent).vecDb
      = some (vecflushable.Wrap db vi.cfg.Caches.DBCache) ∧
    (vecflushable.Wrap db vi.cfg.Caches.DBCache).underlying = db ∧
    (vecflushable.Wrap db vi.cfg.Caches.DBCache).modified = [] ∧
    (vecmt.Index.Reset baseReset vi validators db getEvent).Base
      = baseReset vi.Base validators (vecflushable.Wrap db vi.cfg.Caches.DBCache) getEvent := by
  simp [vecmt.Index.Reset, vecmt.Index.onDropNotFlushed, vecflushable.Wrap]

/-- C3: when `LightCheck` returns a non-nil error, `Enqueue` of either
checker does exactly what one invocation of `checked` with that error does,
whatever the heavy checker is; with the recording callback and a heavy
checker that logs its calls, the log grows by exactly one `checked err`
entry and by no `HeavyCheck.Enqueue` entry. -/
theorem C3_light_error_reported_once {σ α ε : Type}
    (light : α → Option ε) (x : α) (err : ε) (hlight : light x = some err) :
    (∀ (heavy : evallcheck.HeavyCheck σ α ε) (checked : Option ε → σ → σ) (w : σ),
        evallcheck.Checker.Enqueue { HeavyCheck := heavy, LightCheck := light } x checked w
          = checked (some err) w) ∧
    (∀ (heavy : bvallcheck.HeavyCheck σ α ε) (checked : Option ε → σ → σ) (w : σ),
        bvallcheck.Checker.Enqueue { HeavyCheck := heavy, LightCheck := light } x checked w
          = checked (some err) w) ∧
    (∀ inner (log : List (eventcheck.Action α ε)),
        evallcheck.Checker.Enqueue
            { HeavyCheck := { Enqueue := eventcheck.logged inner }, LightCheck := light }
            x eventcheck.record log
          = log ++ [eventcheck.Action.checked (some err)] ∧
        eventcheck.invocations (evallcheck.Checker.Enqueue
            { HeavyCheck := { Enqueue := eventcheck.logged inner }, LightCheck := light }
            x eventcheck.record log) = eventcheck.invocations log + 1 ∧
        eventcheck.heavyCalls (evallcheck.Checker.Enqueue
            { HeavyCheck := { Enqueue := eventcheck.logged inner }, LightCheck := light }
            x eventcheck.record log) = eventcheck.heavyCalls log) ∧
    (∀ inner (log : List (eventcheck.Action α ε)),
        bvallcheck.Checker.Enqueue
            { HeavyCheck := { Enqueue := eventcheck.logged inner }, LightCheck := light }
            x eventcheck.record log
          = log ++ [eventcheck.Action.checked (some err)] ∧
        eventcheck.invocations (bvallcheck.Checker.Enqueue
            { HeavyCheck := { Enqueue := eventcheck.logged inner }, LightCheck := light }
            x eventcheck.record log) = eventcheck.invocations log + 1 ∧
        eventcheck.heavyCalls (bvallcheck.Checker.Enqueue
            { HeavyCheck := { Enqueue := eventcheck.logged inner }, LightCheck := light }
            x eventcheck.record log) = eventcheck.heavyCalls log) := by
  refine ⟨?_, ?_, ?_, ?_⟩
  · intro heavy checked w
    simp [evallcheck.Checker.Enqueue, hlight]
  · intro heavy checked w
    simp [bvallcheck.Checker.Enqueue, hlight]
  · intro inner log
    simp [evallcheck.Checker.Enqueue, hlight, eventcheck.record,
      eventcheck.invocations_append, eventcheck.heavyCalls_append,
      eventcheck.invocations, eventcheck.heavyCalls]
  · intro inner log
    simp [bvallcheck.Checker.Enqueue, hlight, eventcheck.record,
      eventcheck.invocations_append, eventcheck.heavyCalls_append,
      eventcheck.invocations, eventcheck.heavyCalls]

/-- C3 (witness): a light check that rejects input 0 with error 7; the
recording callback sees exactly that error once. -/
theorem C3_light_error_reported_once_witness :
    (fun (_ : Nat) => some 7) 0 = some 7 ∧
    evallcheck.Checker.Enqueue
        { HeavyCheck := { Enqueue := fun _ cb w => (none, cb none w) },
          LightCheck := fun (_ : Nat) => some 7 }
        0 eventcheck.record ([] : List (eventcheck.Action Nat Nat))
      = eventcheck.record (some 7) [] :=
  ⟨rfl, (C3_light_error_reported_once (fun (_ : Nat) => some 7) 0 7 rfl).1
    { Enqueue := fun _ cb w => (none, cb none w) } eventcheck.record []⟩

/-- C4: if the heavy checker invokes the callback it is handed at most once
(with the recording callback, its call adds at most one invocation to any
log), then one `Enqueue` call of either checker adds at most one invocation
of `checked` to the log. -/
theorem C4_checked_at_most_once {α ε : Type}
    (light : α → Option ε)
    (heavy : α → (Option ε → List (eventcheck.Action α ε) → List (eventcheck.Action α ε)) →
      List (eventcheck.Action α ε) → Option ε × List (eventcheck.Action α ε))
    (x : α)
    (hheavy : ∀ log, eventcheck.invocations (heavy x eventcheck.record log).2
      ≤ eventcheck.invocations log + 1)
    (log : List (eventcheck.Action α ε)) :
    eventcheck.invocations (evallcheck.Checker.Enqueue
        { HeavyCheck := { Enqueue := heavy }, LightCheck := light } x eventcheck.record log)
      ≤ eventcheck.invocations log + 1 ∧
    eventcheck.invocations (bvallcheck.Checker.Enqueue
        { HeavyCheck := { Enqueue := heavy }, LightCheck := light } x eventcheck.record log)
      ≤ eventcheck.invocations log + 1 := by
  constructor
  · unfold evallcheck.Checker.Enqueue
    cases hl : light x with
    | none => simpa [hl] using hheavy log
    | some err =>
      simp [hl, eventcheck.record, eventcheck.invocations_append, eventcheck.invocations]
  · unfold bvallcheck.Checker.Enqueue
    cases hl : light x with
    | none => simpa [hl] using hheavy log
    | some err =>
      simp [hl, eventcheck.record, eventcheck.invocations_append, eventcheck.invocations]

/-- C4 (witness): a heavy checker that reports success through the callback
once; the light check passes, and the callback is invoked once. -/
theorem C4_checked_at_most_once_witness :
    eventcheck.invocations (evallcheck.Checker.Enqueue
        { HeavyCheck := { Enqueue := fun _ cb w => (none, cb none w) },
          LightCheck := fun (_ : Nat) => (none : Option Nat) }
        0 eventcheck.record ([] : List (eventcheck.Action Nat Nat)))
      ≤ eventcheck.invocations ([] : List (eventcheck.Action Nat Nat)) + 1 :=
  (C4_checked_at_most_once (fun (_ : Nat) => (none : Option Nat))
    (fun _ cb w => (none, cb none w)) 0
    (by intro log; simp [eventcheck.record, eventcheck.invocations_append,
          eventcheck.invocations]) []).1

/-- C5: after a `Reset` with a validator set that contains the creator of
every event, admitting the events of a DAG in topological order (every
parent before its child) succeeds: no `Add` returns an error, whatever the
state of the index before the `Reset` and whatever the fork rule. -/
theorem C5_add_topological_no_error {φ : Type} (rule : vecengine.ForkRule)
    (vi : vecmt.Index vecfc.Index φ) (validators : pos.Validators) (db : sesadb.Store)
    (getEvent : hash.Event → Option dag.Event) (events : List dag.Event)
    (hcreators : ∀ e ∈ events, e.Creator ∈ validators.entries.map Prod.fst)
    (htopo : vecmt.TopologicalOrder [] events) :
    ∃ vi', vecmt.Index.AddAll rule
      (vecmt.Index.Reset vecfc.Index.Reset vi validators db getEvent) events = .ok vi' := by
  apply vecmt.addAll_ok_of_topological rule validators events []
    (vecmt.Index.Reset vecfc.Index.Reset vi validators db getEvent)
  · simp [vecmt.Index.Reset, vecmt.Index.onDropNotFlushed, vecfc.Index.Reset]
  · simp [vecmt.Index.Reset, vecmt.Index.onDropNotFlushed, vecfc.Index.Reset]
  · exact hcreators
  · intro id hid; cases hid
  · exact htopo

/-- C5 (witness): the validators and the events of `BenchmarkIndex_Add`. -/
theorem C5_add_topological_no_error_witness :
    (∀ e ∈ vecmt.testEvents, e.Creator ∈ vecmt.testValidators.entries.map Prod.fst) ∧
    vecmt.TopologicalOrder [] vecmt.testEvents ∧
    ∃ vi', vecmt.Index.AddAll vecengine.tieRule
      (vecmt.Index.Reset vecfc.Index.Reset (vecmt.NewIndex (vecmt.LiteConfig ()))
        vecmt.testValidators { entries := [] } (fun _ => none)) vecmt.testEvents = .ok vi' :=
  ⟨by decide, by decide,
    C5_add_topological_no_error vecengine.tieRule (vecmt.NewIndex (vecmt.LiteConfig ()))
      vecmt.testValidators { entries := [] } (fun _ => none) vecmt.testEvents
      (by decide) (by decide)⟩

/-- C6 (as stated, refuted): with four validators of weight 1 and a single
admitted event 1, `ForklessCause(1, 1)` is true although no validator links
the event to itself, so the summed weight 0 does not exceed 2/3 of the total
weight 4. -/
theorem C6_counterexample_same_event :
    ¬ (vecmt.after (vecmt.replay vecengine.tieRule vecmt.fourValidators [vecmt.testEvent 1 1 1 []])
          (fun vi => vi.ForklessCause 1 1) = some true ↔
        2 * vecmt.fourValidators.TotalWeight <
          3 * (vecmt.after
            (vecmt.replay vecengine.tieRule vecmt.fourValidators [vecmt.testEvent 1 1 1 []])
            (fun vi => vi.quorumSumOf 1 1)).getD 0) := by
  decide

/-- C6 (amended): for admitted events x and y that are different,
`ForklessCause(x, y)` is true if and only if the summed weight of the
validators that have no fork flag in HighestBefore(x) and whose sequence in
HighestBefore(x) is at least the one in LowestAfter(y) strictly exceeds 2/3 of
the total weight; with weights 1,1,1,1 three linking validators give true and
two give false. -/
theorem C6_forkless_cause_quorum {φ : Type} (vi : vecmt.Index vecfc.Index φ)
    (validators : pos.Validators) (x y : hash.Event)
    (hbx : vecengine.HighestBefore) (lay : vecengine.LowestAfter)
    (hv : vi.Base.validators = some validators)
    (hx : vi.GetHighestBefore x = some hbx) (hy : vi.GetLowestAfter y = some lay)
    (hne : x ≠ y) :
    vi.ForklessCause x y
      = .ok (decide (2 * validators.TotalWeight < 3 * vecmt.quorumSum validators hbx lay)) ∧
    vecmt.after (vecmt.replay vecengine.tieRule vecmt.fourValidators vecmt.threeLinks)
      (fun vi => vi.quorumSumOf 8 1) = some 3 ∧
    vecmt.after (vecmt.replay vecengine.tieRule vecmt.fourValidators vecmt.threeLinks)
      (fun vi => vi.ForklessCause 8 1) = some true ∧
    vecmt.after (vecmt.replay vecengine.tieRule vecmt.fourValidators vecmt.twoLinks)
      (fun vi => vi.quorumSumOf 8 1) = some 2 ∧
    vecmt.after (vecmt.replay vecengine.tieRule vecmt.fourValidators vecmt.twoLinks)
      (fun vi => vi.ForklessCause 8 1) = some false := by
  refine ⟨?_, by decide, by decide, by decide, by decide⟩
  unfold vecmt.Index.ForklessCause
  rw [vecfc.forklessCause_eq vi.Base validators x y hbx lay hv hx hy]
  simp only [hne, if_false]
  congr 1
  apply decide_eq_decide.mpr
  have key : ∀ total sum : Nat, total * 2 / 3 + 1 ≤ sum ↔ 2 * total < 3 * sum := by
    intro total sum; omega
  exact key _ _

/-- C6 (witness): the index that holds the two events 1 (validator 1) and 2
(validator 2, parent 1), queried at x = 2 and y = 1. -/
theorem C6_forkless_cause_quorum_witness :
    (2 : hash.Event) ≠ 1 ∧
    vecmt.Index.ForklessCause vecmt.pairIndex 2 1
      = .ok (decide (2 * vecmt.fourValidators.TotalWeight < 3 * vecmt.quorumSum vecmt.fourValidators
          [⟨1, false, 1⟩, ⟨1, false, 1⟩, ⟨0, false, 0⟩, ⟨0, false, 0⟩]
          [none, some 1, none, none])) :=
  ⟨by decide, (C6_forkless_cause_quorum vecmt.pairIndex vecmt.fourValidators 2 1
    [⟨1, false, 1⟩, ⟨1, false, 1⟩, ⟨0, false, 0⟩, ⟨0, false, 0⟩] [none, some 1, none, none]
    rfl rfl rfl (by decide)).1⟩

/-- C7: after a `Reset` and the admission of events in topological order,
`ForklessCause(x, x)` is true for every admitted event x. -/
theorem C7_forkless_cause_reflexive {φ : Type} (rule : vecengine.ForkRule)
    (vi : vecmt.Index vecfc.Index φ) (validators : pos.Validators) (db : sesadb.Store)
    (getEvent : hash.Event → Option dag.Event) (events : List dag.Event)
    (hcreators : ∀ e ∈ events, e.Creator ∈ validators.entries.map Prod.fst)
    (htopo : vecmt.TopologicalOrder [] events)
    (x : dag.Event) (hx : x ∈ events) :
    ∃ vi', vecmt.Index.AddAll rule
        (vecmt.Index.Reset vecfc.Index.Reset vi validators db getEvent) events = .ok vi' ∧
      vi'.ForklessCause x.ID x.ID = .ok true := by
  obtain ⟨hrv, hri, hrH, _, _⟩ := vecmt.reset_base vi validators db getEvent
  obtain ⟨vi', hadd⟩ := vecmt.addAll_ok_of_topological rule validators events []
    (vecmt.Index.Reset vecfc.Index.Reset vi validators db getEvent) hrv hri hcreators
    (fun id hid => by cases hid) htopo
  refine ⟨vi', hadd, ?_⟩
  obtain ⟨_, _, hall⟩ := vecmt.addAll_known rule events _ vi' hadd
  obtain ⟨_, hv', _⟩ := vecmt.addAll_frame rule events _ vi' hadd
  obtain ⟨hH, hL⟩ := hall x hx
  cases hlH : vi'.Base.HighestBefore.lookup x.ID with
  | none => simp [hlH] at hH
  | some hbx =>
    cases hlL : vi'.Base.LowestAfter.lookup x.ID with
    | none => simp [hlL] at hL
    | some lax =>
      unfold vecmt.Index.ForklessCause
      rw [vecfc.forklessCause_eq vi'.Base validators x.ID x.ID hbx lax (hv'.trans hrv) hlH hlL]
      simp

/-- C7 (witness): event d4 (identifier 12) of the benchmark's DAG. -/
theorem C7_forkless_cause_reflexive_witness :
    (∀ e ∈ vecmt.testEvents, e.Creator ∈ vecmt.testValidators.entries.map Prod.fst) ∧
    vecmt.TopologicalOrder [] vecmt.testEvents ∧
    vecmt.testEvent 12 4 4 [9, 11] ∈ vecmt.testEvents ∧
    ∃ vi', vecmt.Index.AddAll vecengine.tieRule
        (vecmt.Index.Reset vecfc.Index.Reset (vecmt.NewIndex (vecmt.LiteConfig ()))
          vecmt.testValidators { entries := [] } (fun _ => none)) vecmt.testEvents = .ok vi' ∧
      vi'.ForklessCause (vecmt.testEvent 12 4 4 [9, 11]).ID (vecmt.testEvent 12 4 4 [9, 11]).ID
        = .ok true :=
  ⟨by decide, by decide, by decide,
    C7_forkless_cause_reflexive vecengine.tieRule (vecmt.NewIndex (vecmt.LiteConfig ()))
      vecmt.testValidators { entries := [] } (fun _ => none) vecmt.testEvents
      (by decide) (by decide) (vecmt.testEvent 12 4 4 [9, 11]) (by decide)⟩

/-- C8 (as stated, refuted): validator 1 creates events 1 and 2, event 3 of
validator 2 observes event 2, and event 4 of validator 1 carries sequence
number 1 with parent 3.  Event 3 is a parent of event 4, yet the slot of
validator 1 (position 0) holds 1 in HighestBefore(4) and 2 in
HighestBefore(3). -/
theorem C8_counterexample_creator_slot :
    (3 : hash.Event) ∈ (vecmt.testEvent 4 1 1 [3]).Parents ∧
    vecmt.testEvent 4 1 1 [3] ∈ vecmt.lateFork ∧
    vecmt.after (vecmt.replay vecengine.tieRule vecmt.fourValidators vecmt.lateFork)
      (fun vi => vi.seqOf 4 0) = some 1 ∧
    vecmt.after (vecmt.replay vecengine.tieRule vecmt.fourValidators vecmt.lateFork)
      (fun vi => vi.seqOf 3 0) = some 2 := by
  decide

/-- C8 (amended): for every admitted event x, every parent y of x and every
validator v other than the creator of x, HighestBefore(x)[v].seq is at least
HighestBefore(y)[v].seq; the slot of the creator of x holds the sequence
number of x itself. -/
theorem C8_highest_before_monotone {φ : Type} (rule : vecengine.ForkRule)
    (vi : vecmt.Index vecfc.Index φ) (validators : pos.Validators) (db : sesadb.Store)
    (getEvent : hash.Event → Option dag.Event) (events : List dag.Event)
    (hcreators : ∀ e ∈ events, e.Creator ∈ validators.entries.map Prod.fst)
    (htopo : vecmt.TopologicalOrder [] events)
    (hnodup : (events.map dag.Event.ID).Nodup)
    (x : dag.Event) (hx : x ∈ events) (y : hash.Event) (hy : y ∈ x.Parents) :
    ∃ vi' me hbx hby,
      vecmt.Index.AddAll rule
        (vecmt.Index.Reset vecfc.Index.Reset vi validators db getEvent) events = .ok vi' ∧
      validators.Idxs.lookup x.Creator = some me ∧
      vi'.GetHighestBefore x.ID = some hbx ∧
      vi'.GetHighestBefore y = some hby ∧
      (∀ v : idx.Validator, v ≠ me → vecengine.seqAt hby v ≤ vecengine.seqAt hbx v) ∧
      vecengine.seqAt hbx me = x.Seq := by
  obtain ⟨hrv, hri, hrH, _, _⟩ := vecmt.reset_base vi validators db getEvent
  obtain ⟨vi', hadd⟩ := vecmt.addAll_ok_of_topological rule validators events []
    (vecmt.Index.Reset vecfc.Index.Reset vi validators db getEvent) hrv hri hcreators
    (fun id hid => by cases hid) htopo
  obtain ⟨_, hv', hi'⟩ := vecmt.addAll_frame rule events _ vi' hadd
  obtain ⟨_, hchar, hkeys⟩ := vecmt.addAll_table rule events _ vi' hadd hnodup
    (fun e _ => by rw [hrH]; rfl)
  obtain ⟨hbx, hforx, hlx⟩ := hchar x hx
  obtain ⟨vals, me, pvs, hvals, hme, hpvs, hbxeq⟩ :=
    vecfc.highestBeforeFor_inv rule vi'.Base x hbx hforx
  have hvalseq : vals = validators := by
    rw [hv', hrv] at hvals
    cases hvals; rfl
  subst hvalseq
  rw [hi', hri] at hme
  obtain ⟨hby, hbymem, hly⟩ := vecengine.parentVectors_mem _ _ _ hpvs y hy
  have hbylen : hby.length = vals.Len := by
    rcases hkeys y hby hly with h₀ | ⟨e', he', hid⟩
    · rw [hrH] at h₀; cases h₀
    · obtain ⟨hb', hfor', hl'⟩ := hchar e' he'
      rw [hid, hly] at hl'
      obtain ⟨vals', me', pvs', hvals', _, _, hbeq'⟩ :=
        vecfc.highestBeforeFor_inv rule vi'.Base e' hb' hfor'
      have : vals' = vals := by
        rw [hv', hrv] at hvals'
        cases hvals'; rfl
      subst this
      cases hl'
      rw [hbeq', vecengine.length_computeHighestBefore]
  have hmelt : me < vals.Len := by
    have := vecengine.lookup_idxsFrom_lt _ _ 0 me hme
    simpa [pos.Validators.Len] using this.2
  refine ⟨vi', me, hbx, hby, hadd, hme, hlx, hly, ?_, ?_⟩
  · intro v hv
    rw [hbxeq, vecengine.computeHighestBefore, vecengine.seqAt_setOwn_ne _ _ _ _ hv]
    apply vecengine.seqAt_foldl_parent rule pvs _ v hby hbymem
    rw [hbylen]
    simp [vecengine.NewHighestBefore]
  · rw [hbxeq, vecengine.computeHighestBefore]
    apply vecengine.seqAt_setOwn_self
    rw [vecengine.length_foldl_collectFrom]
    simpa [vecengine.NewHighestBefore] using hmelt

/-- C8 (witness): event d4 (identifier 12) of the benchmark's DAG and its
parent b3 (identifier 11). -/
theorem C8_highest_before_monotone_witness :
    (∀ e ∈ vecmt.testEvents, e.Creator ∈ vecmt.testValidators.entries.map Prod.fst) ∧
    vecmt.TopologicalOrder [] vecmt.testEvents ∧
    (vecmt.testEvents.map dag.Event.ID).Nodup ∧
    vecmt.testEvent 12 4 4 [9, 11] ∈ vecmt.testEvents ∧
    (11 : hash.Event) ∈ (vecmt.testEvent 12 4 4 [9, 11]).Parents ∧
    ∃ vi' me hbx hby,
      vecmt.Index.AddAll vecengine.tieRule
        (vecmt.Index.Reset vecfc.Index.Reset (vecmt.NewIndex (vecmt.LiteConfig ()))
          vecmt.testValidators { entries := [] } (fun _ => none)) vecmt.testEvents = .ok vi' ∧
      vecmt.testValidators.Idxs.lookup (vecmt.testEvent 12 4 4 [9, 11]).Creator = some me ∧
      vi'.GetHighestBefore (vecmt.testEvent 12 4 4 [9, 11]).ID = some hbx ∧
      vi'.GetHighestBefore 11 = some hby ∧
      (∀ v : idx.Validator, v ≠ me → vecengine.seqAt hby v ≤ vecengine.seqAt hbx v) ∧
      vecengine.seqAt hbx me = (vecmt.testEvent 12 4 4 [9, 11]).Seq :=
  ⟨by decide, by decide, by decide, by decide, by decide,
    C8_highest_before_monotone vecengine.tieRule (vecmt.NewIndex (vecmt.LiteConfig ()))
      vecmt.testValidators { entries := [] } (fun _ => none) vecmt.testEvents
      (by decide) (by decide) (by decide) (vecmt.testEvent 12 4 4 [9, 11]) (by decide)
      11 (by decide)⟩

/-- C10: for a fixed set of validators and a fixed DAG, `MedianTime` does
not depend on the order in which the events were admitted: two admissions of
the same events in two topological orders end in indexes on which
`MedianTime(id, defaultTime)` agrees for every identifier and default time
(and, being a function of the index, it returns the same value each time it
is computed). -/
theorem C10_median_time_order_independent {φ : Type} (rule : vecengine.ForkRule)
    (vi : vecmt.Index vecfc.Index φ) (validators : pos.Validators) (db : sesadb.Store)
    (getEvent : hash.Event → Option dag.Event) (first second : List dag.Event)
    (hperm : first.Perm second)
    (hcreators : ∀ e ∈ first, e.Creator ∈ validators.entries.map Prod.fst)
    (hnodup : (first.map dag.Event.ID).Nodup)
    (htopo₁ : vecmt.TopologicalOrder [] first)
    (htopo₂ : vecmt.TopologicalOrder [] second) :
    ∃ vi₁ vi₂,
      vecmt.Index.AddAll rule
        (vecmt.Index.Reset vecfc.Index.Reset vi validators db getEvent) first = .ok vi₁ ∧
      vecmt.Index.AddAll rule
        (vecmt.Index.Reset vecfc.Index.Reset vi validators db getEvent) second = .ok vi₂ ∧
      ∀ (id : hash.Event) (defaultTime : native.Timestamp),
        vi₁.MedianTime id defaultTime = vi₂.MedianTime id defaultTime := by
  obtain ⟨hrv, hri, hrH, _, _⟩ := vecmt.reset_base vi validators db getEvent
  have hcreators₂ : ∀ e ∈ second, e.Creator ∈ validators.entries.map Prod.fst :=
    fun e he => hcreators e (hperm.mem_iff.mpr he)
  have hnodup₂ : (second.map dag.Event.ID).Nodup :=
    (hperm.map dag.Event.ID).nodup_iff.mp hnodup
  obtain ⟨vi₁, hadd₁⟩ := vecmt.addAll_ok_of_topological rule validators first []
    (vecmt.Index.Reset vecfc.Index.Reset vi validators db getEvent) hrv hri hcreators
    (fun id hid => by cases hid) htopo₁
  obtain ⟨vi₂, hadd₂⟩ := vecmt.addAll_ok_of_topological rule validators second []
    (vecmt.Index.Reset vecfc.Index.Reset vi validators db getEvent) hrv hri hcreators₂
    (fun id hid => by cases hid) htopo₂
  obtain ⟨hf₁, hv₁, hi₁⟩ := vecmt.addAll_frame rule first _ vi₁ hadd₁
  obtain ⟨hf₂, hv₂, hi₂⟩ := vecmt.addAll_frame rule second _ vi₂ hadd₂
  obtain ⟨_, hchar₁, _⟩ := vecmt.addAll_table rule first _ vi₁ hadd₁ hnodup
    (fun e _ => by rw [hrH]; rfl)
  obtain ⟨_, hchar₂, _⟩ := vecmt.addAll_table rule second _ vi₂ hadd₂ hnodup₂
    (fun e _ => by rw [hrH]; rfl)
  have hle₁ : ∀ id v, vi₁.Base.HighestBefore.lookup id = some v →
      vi₂.Base.HighestBefore.lookup id = some v :=
    vecmt.addAll_table_le rule vi₂.Base first _ vi₁ hadd₁ hv₂ hi₂
      (fun id v h => by rw [hrH] at h; cases h)
      (fun e he => hchar₂ e (hperm.mem_iff.mp he))
  have hle₂ : ∀ id v, vi₂.Base.HighestBefore.lookup id = some v →
      vi₁.Base.HighestBefore.lookup id = some v :=
    vecmt.addAll_table_le rule vi₁.Base second _ vi₂ hadd₂ hv₁ hi₁
      (fun id v h => by rw [hrH] at h; cases h)
      (fun e he => hchar₁ e (hperm.mem_iff.mpr he))
  have hsame : ∀ id, vi₁.GetHighestBefore id = vi₂.GetHighestBefore id := by
    intro id
    unfold vecmt.Index.GetHighestBefore
    cases h₁ : vi₁.Base.HighestBefore.lookup id with
    | some v => exact (hle₁ id v h₁).symm
    | none =>
      cases h₂ : vi₂.Base.HighestBefore.lookup id with
      | none => rfl
      | some w =>
        rw [hle₂ id w h₂] at h₁
        cases h₁
  refine ⟨vi₁, vi₂, hadd₁, hadd₂, ?_⟩
  intro id defaultTime
  unfold vecmt.Index.MedianTime
  rw [hf₁, hf₂, hsame id]

/-- C10 (witness): the benchmark's DAG admitted row by row from left to right
and from right to left. -/
theorem C10_median_time_order_independent_witness :
    vecmt.testEvents.Perm vecmt.testEventsReordered ∧
    (∀ e ∈ vecmt.testEvents, e.Creator ∈ vecmt.testValidators.entries.map Prod.fst) ∧
    (vecmt.testEvents.map dag.Event.ID).Nodup ∧
    vecmt.TopologicalOrder [] vecmt.testEvents ∧
    vecmt.TopologicalOrder [] vecmt.testEventsReordered ∧
    ∃ vi₁ vi₂,
      vecmt.Index.AddAll vecengine.tieRule
        (vecmt.Index.Reset vecfc.Index.Reset (vecmt.NewIndex (vecmt.LiteConfig ()))
          vecmt.testValidators { entries := [] } (fun _ => none)) vecmt.testEvents = .ok vi₁ ∧
      vecmt.Index.AddAll vecengine.tieRule
        (vecmt.Index.Reset vecfc.Index.Reset (vecmt.NewIndex (vecmt.LiteConfig ()))
          vecmt.testValidators { entries := [] } (fun _ => none)) vecmt.testEventsReordered
        = .ok vi₂ ∧
      ∀ (id : hash.Event) (defaultTime : native.Timestamp),
        vi₁.MedianTime id defaultTime = vi₂.MedianTime id defaultTime :=
  ⟨by decide, by decide, by decide, by decide, by decide,
    C10_median_time_order_independent vecengine.tieRule (vecmt.NewIndex (vecmt.LiteConfig ()))
      vecmt.testValidators { entries := [] } (fun _ => none)
      vecmt.testEvents vecmt.testEventsReordered
      (by decide) (by decide) (by decide) (by decide) (by decide)⟩

/-- C11: a vector written through the staging wrapper that `Reset` installs
and then flushed is read back from the backing store, directly and through a
new wrapper, exactly as it was written; written but not flushed, it leaves the
backing store as it was, so a key the store did not hold is not readable from
it, neither directly, nor through a new wrapper, nor after the buffer is
dropped. -/
theorem C11_flushed_reload_unflushed_absent {β φ : Type}
    (baseReset : β → pos.Validators → vecflushable.VecFlushable →
      (hash.Event → Option dag.Event) → β)
    (vi : vecmt.Index β φ) (validators : pos.Validators) (db : sesadb.Store)
    (getEvent : hash.Event → Option dag.Event) (id : hash.Event)
    (vec : List native.Timestamp) (size : Int) :
    (∃ store,
      ((vecmt.Index.Reset baseReset vi validators db getEvent).SetHighestBeforeTime id
        vec).Flush.backingStore = some store ∧
      store.Get (vecmt.timeKey id) = some vec ∧
      (vecflushable.Wrap store size).Get (vecmt.timeKey id) = some vec) ∧
    (∃ w,
      ((vecmt.Index.Reset baseReset vi validators db getEvent).SetHighestBeforeTime id
        vec).vecDb = some w ∧
      w.Get (vecmt.timeKey id) = some vec ∧
      w.underlying = db ∧
      (vecflushable.Wrap w.underlying size).Get (vecmt.timeKey id) = db.Get (vecmt.timeKey id) ∧
      w.DropNotFlushed.Get (vecmt.timeKey id) = db.Get (vecmt.timeKey id)) ∧
    (db.Get (vecmt.timeKey id) = none →
      ∃ store,
        ((vecmt.Index.Reset baseReset vi validators db getEvent).SetHighestBeforeTime id
          vec).backingStore = some store ∧
        store.Get (vecmt.timeKey id) = none ∧
        (vecflushable.Wrap store size).Get (vecmt.timeKey id) = none) := by
  have hstate : ((vecmt.Index.Reset baseReset vi validators db getEvent).SetHighestBeforeTime id
      vec).vecDb
      = some ((vecflushable.Wrap db vi.cfg.Caches.DBCache).Put (vecmt.timeKey id) vec) := by
    simp [vecmt.Index.Reset, vecmt.Index.onDropNotFlushed, vecmt.MigrateTables,
      vecmt.Index.SetHighestBeforeTime, table.Table.Put, table.Table.key, vecmt.timeKey]
  refine ⟨?_, ?_, ?_⟩
  · refine ⟨((vecflushable.Wrap db vi.cfg.Caches.DBCache).Put (vecmt.timeKey id)
      vec).Flush.underlying, ?_, ?_, ?_⟩
    · simp [vecmt.Index.backingStore, vecmt.Index.Flush, hstate]
    · simp [sesadb.Store.Get, vecflushable.flush_entries, vecflushable.VecFlushable.Put,
        vecflushable.Wrap, vecflushable.lookup_cons_key]
    · simp [vecflushable.VecFlushable.Get, sesadb.Store.Get, vecflushable.flush_entries,
        vecflushable.VecFlushable.Put, vecflushable.Wrap, vecflushable.lookup_cons_key]
  · refine ⟨_, hstate, ?_, ?_, ?_, ?_⟩
    · simp [vecflushable.VecFlushable.Get, vecflushable.VecFlushable.Put,
        vecflushable.lookup_cons_key]
    · simp [vecflushable.VecFlushable.Put, vecflushable.Wrap]
    · simp [vecflushable.VecFlushable.Get, vecflushable.VecFlushable.Put, vecflushable.Wrap]
    · simp [vecflushable.VecFlushable.Get, vecflushable.VecFlushable.Put, vecflushable.Wrap,
        vecflushable.VecFlushable.DropNotFlushed]
  · intro hnone
    refine ⟨db, ?_, hnone, ?_⟩
    · simp [vecmt.Index.backingStore, hstate, vecflushable.VecFlushable.Put, vecflushable.Wrap]
    · simp [vecflushable.VecFlushable.Get, vecflushable.Wrap, hnone]

/-- C11 (witness): an empty backing store and the vector 1, 2, 3 of event
9. -/
theorem C11_flushed_reload_unflushed_absent_witness :
    ({ entries := [] } : sesadb.Store).Get (vecmt.timeKey 9) = none ∧
    ∃ store,
      ((vecmt.Index.Reset vecfc.Index.Reset (vecmt.NewIndex (vecmt.LiteConfig ()))
        vecmt.testValidators { entries := [] } (fun _ => none)).SetHighestBeforeTime 9
          [1, 2, 3]).backingStore = some store ∧
      store.Get (vecmt.timeKey 9) = none ∧
      (vecflushable.Wrap store 0).Get (vecmt.timeKey 9) = none :=
  ⟨by decide,
    (C11_flushed_reload_unflushed_absent vecfc.Index.Reset (vecmt.NewIndex (vecmt.LiteConfig ()))
      vecmt.testValidators { entries := [] } (fun _ => none) 9 [1, 2, 3] 0).2.2 (by decide)⟩

/-- C12: `GetMergedHighestBefore(id)` returns exactly the vector that the
engine's `GetMergedHighestBefore` returns for `id`; for every admitted event
that vector has one slot per validator. -/
theorem C12_merged_highest_before {φ : Type} (rule : vecengine.ForkRule)
    (vi : vecmt.Index vecfc.Index φ) (validators : pos.Validators) (db : sesadb.Store)
    (getEvent : hash.Event → Option dag.Event) (events : List dag.Event)
    (hcreators : ∀ e ∈ events, e.Creator ∈ validators.entries.map Prod.fst)
    (htopo : vecmt.TopologicalOrder [] events)
    (x : dag.Event) (hx : x ∈ events) :
    (∀ (β : Type) (engineMerged : β → hash.Event → vecengine.HighestBeforeI)
        (vj : vecmt.Index β φ) (id : hash.Event) (v : vecengine.HighestBefore),
        engineMerged vj.Base id = vecengine.HighestBeforeI.own v →
        vj.GetMergedHighestBefore engineMerged id = .ok v) ∧
    ∃ vi' stored merged,
      vecmt.Index.AddAll rule
        (vecmt.Index.Reset vecfc.Index.Reset vi validators db getEvent) events = .ok vi' ∧
      vi'.GetHighestBefore x.ID = some stored ∧
      vi'.Base.GetMergedHighestBefore x.ID = vecengine.HighestBeforeI.own merged ∧
      vi'.GetMergedHighestBefore vecfc.Index.GetMergedHighestBefore x.ID = .ok merged ∧
      merged = vecengine.collapse stored ∧
      merged.length = validators.Len := by
  constructor
  · intro β engineMerged vj id v h
    simp [vecmt.Index.GetMergedHighestBefore, h]
  · obtain ⟨hrv, hri, hrH, _, _⟩ := vecmt.reset_base vi validators db getEvent
    obtain ⟨vi', hadd⟩ := vecmt.addAll_ok_of_topological rule validators events []
      (vecmt.Index.Reset vecfc.Index.Reset vi validators db getEvent) hrv hri hcreators
      (fun id hid => by cases hid) htopo
    obtain ⟨_, _, hall⟩ := vecmt.addAll_known rule events _ vi' hadd
    have hlens := vecmt.addAll_lengths rule validators events _ vi' hadd hrv
      (fun id hb h => by rw [hrH] at h; cases h)
    obtain ⟨hH, _⟩ := hall x hx
    cases hl : vi'.Base.HighestBefore.lookup x.ID with
    | none => simp [hl] at hH
    | some stored =>
      refine ⟨vi', stored, vecengine.collapse stored, hadd, hl, ?_, ?_, rfl, ?_⟩
      · simp [vecfc.Index.GetMergedHighestBefore, hl]
      · simp [vecmt.Index.GetMergedHighestBefore, vecfc.Index.GetMergedHighestBefore, hl]
      · simp [vecengine.collapse, hlens x.ID stored hl]

/-- C12 (witness): event d4 (identifier 12) of the benchmark's DAG. -/
theorem C12_merged_highest_before_witness :
    (∀ e ∈ vecmt.testEvents, e.Creator ∈ vecmt.testValidators.entries.map Prod.fst) ∧
    vecmt.TopologicalOrder [] vecmt.testEvents ∧
    vecmt.testEvent 12 4 4 [9, 11] ∈ vecmt.testEvents ∧
    ∃ vi' stored merged,
      vecmt.Index.AddAll vecengine.tieRule
        (vecmt.Index.Reset vecfc.Index.Reset (vecmt.NewIndex (vecmt.LiteConfig ()))
          vecmt.testValidators { entries := [] } (fun _ => none)) vecmt.testEvents = .ok vi' ∧
      vi'.GetHighestBefore (vecmt.testEvent 12 4 4 [9, 11]).ID = some stored ∧
      vi'.Base.GetMergedHighestBefore (vecmt.testEvent 12 4 4 [9, 11]).ID
        = vecengine.HighestBeforeI.own merged ∧
      vi'.GetMergedHighestBefore vecfc.Index.GetMergedHighestBefore
        (vecmt.testEvent 12 4 4 [9, 11]).ID = .ok merged ∧
      merged = vecengine.collapse stored ∧
      merged.length = vecmt.testValidators.Len :=
  ⟨by decide, by decide, by decide,
    (C12_merged_highest_before vecengine.tieRule (vecmt.NewIndex (vecmt.LiteConfig ()))
      vecmt.testValidators { entries := [] } (fun _ => none) vecmt.testEvents
      (by decide) (by decide) (vecmt.testEvent 12 4 4 [9, 11]) (by decide)).2⟩

/-- C14: `dialRPC` dials the node's default IPC endpoint when the endpoint is
empty, the endpoint without its first four characters when it starts with
`rpc:` or with `ipc:`, and the endpoint itself in every other case. -/
theorem C14_dialRPC_endpoint {ρ : Type} (DefaultIPCEndpoint : List Char → List Char)
    (Dial : List Char → ρ) (clientIdentifier : List Char) :
    launcher.dialRPC DefaultIPCEndpoint Dial clientIdentifier []
      = Dial (DefaultIPCEndpoint clientIdentifier) ∧
    (∀ rest : List Char,
      launcher.dialRPC DefaultIPCEndpoint Dial clientIdentifier ('r' :: 'p' :: 'c' :: ':' :: rest)
        = Dial rest) ∧
    (∀ rest : List Char,
      launcher.dialRPC DefaultIPCEndpoint Dial clientIdentifier ('i' :: 'p' :: 'c' :: ':' :: rest)
        = Dial rest) ∧
    (∀ endpoint : List Char, endpoint ≠ [] →
      ¬ ['r', 'p', 'c', ':'] <+: endpoint → ¬ ['i', 'p', 'c', ':'] <+: endpoint →
      launcher.dialRPC DefaultIPCEndpoint Dial clientIdentifier endpoint = Dial endpoint) := by
  refine ⟨by simp [launcher.dialRPC], ?_, ?_, ?_⟩
  · intro rest
    simp [launcher.dialRPC, List.isPrefixOf]
  · intro rest
    simp [launcher.dialRPC, List.isPrefixOf]
  · intro endpoint hne hrpc hipc
    have h1 : List.isPrefixOf ['r', 'p', 'c', ':'] endpoint = false := by
      cases h : List.isPrefixOf ['r', 'p', 'c', ':'] endpoint with
      | false => rfl
      | true => exact absurd (List.isPrefixOf_iff_prefix.mp h) hrpc
    have h2 : List.isPrefixOf ['i', 'p', 'c', ':'] endpoint = false := by
      cases h : List.isPrefixOf ['i', 'p', 'c', ':'] endpoint with
      | false => rfl
      | true => exact absurd (List.isPrefixOf_iff_prefix.mp h) hipc
    simp [launcher.dialRPC, hne, h1, h2]

/-- C14 (witness): the endpoint `ws:x` is dialled as it is. -/
theorem C14_dialRPC_endpoint_witness :
    (['w', 's', ':', 'x'] : List Char) ≠ [] ∧
    ¬ ['r', 'p', 'c', ':'] <+: ['w', 's', ':', 'x'] ∧
    ¬ ['i', 'p', 'c', ':'] <+: ['w', 's', ':', 'x'] ∧
    launcher.dialRPC (fun id => id ++ ['.', 'i', 'p', 'c']) (fun e => e) ['s', 'e', 's', 'a']
      ['w', 's', ':', 'x'] = ['w', 's', ':', 'x'] :=
  ⟨by decide, by decide, by decide,
    (C14_dialRPC_endpoint (fun id => id ++ ['.', 'i', 'p', 'c']) (fun e => e)
      ['s', 'e', 's', 'a']).2.2.2 ['w', 's', ':', 'x'] (by decide) (by decide) (by decide)⟩

/-- C15: `SetCachedEvmBlock(n, b)` panics exactly when `b.EvmHeader.TxHash`
is the zero hash, and the store is then left as it was; otherwise it does not
panic and adds `b` to the cache of EVM blocks under key `n` with weight
`uint(b.EstimateSize())`, which is `b.EstimateSize()` itself for a
non-negative size; a block that fits the bounds of the cache is then returned
by `GetCachedEvmBlock(n)`. -/
theorem C15_set_cached_evm_block {B τ ω : Type} (txHash : B → common.Hash)
    (estimateSize : B → Int) (s : evmstore.Store B τ ω) (n : idx.Block) (b : B) :
    (txHash b = 0 →
      evmstore.Store.SetCachedEvmBlock txHash estimateSize s n b
        = .error (evmstore.Panic.incompleteBlock, s)) ∧
    (txHash b ≠ 0 →
      evmstore.Store.SetCachedEvmBlock txHash estimateSize s n b
        = .ok { s with cache :=
            { EvmBlocks := s.cache.EvmBlocks.Add n b (machine.uint64 (estimateSize b)) } }) ∧
    (0 ≤ estimateSize b → estimateSize b < 2 ^ 64 →
      (machine.uint64 (estimateSize b) : Int) = estimateSize b) ∧
    (txHash b ≠ 0 → machine.uint64 (estimateSize b) ≤ s.cache.EvmBlocks.maxWeight →
      1 ≤ s.cache.EvmBlocks.maxSize →
      ∃ s', evmstore.Store.SetCachedEvmBlock txHash estimateSize s n b = .ok s' ∧
        s'.GetCachedEvmBlock n = some b) := by
  refine ⟨?_, ?_, ?_, ?_⟩
  · intro h
    simp [evmstore.Store.SetCachedEvmBlock, h]
  · intro h
    simp [evmstore.Store.SetCachedEvmBlock, h]
  · intro h0 h1
    unfold machine.uint64
    rw [Int.emod_eq_of_lt h0 h1]
    exact Int.toNat_of_nonneg h0
  · intro h hw hs
    refine ⟨{ s with cache :=
      { EvmBlocks := s.cache.EvmBlocks.Add n b (machine.uint64 (estimateSize b)) } },
      by simp [evmstore.Store.SetCachedEvmBlock, h], ?_⟩
    exact wlru.get_add_of_fits s.cache.EvmBlocks n b _ hw hs

/-- C15 (witness): a block with transaction hash 5 and estimated size 100 is
cached under key 7 in an empty cache of weight 1000 and size 10. -/
theorem C15_set_cached_evm_block_witness :
    ((5, 100) : common.Hash × Int).1 ≠ 0 ∧
    machine.uint64 ((5, 100) : common.Hash × Int).2
      ≤ (evmstore.sampleStore 1000 10 []).cache.EvmBlocks.maxWeight ∧
    1 ≤ (evmstore.sampleStore 1000 10 []).cache.EvmBlocks.maxSize ∧
    ∃ s', evmstore.Store.SetCachedEvmBlock Prod.fst Prod.snd (evmstore.sampleStore 1000 10 [])
        7 (5, 100) = .ok s' ∧
      s'.GetCachedEvmBlock 7 = some (5, 100) :=
  ⟨by decide, by decide, by decide,
    (C15_set_cached_evm_block Prod.fst Prod.snd (evmstore.sampleStore 1000 10 []) 7
      (5, 100)).2.2.2 (by decide) (by decide) (by decide)⟩

/-- C16: `GenerateEvmSnapshot` returns the error "EVM snapshot is already
opened" if and only if the snapshot tree of the store is non-nil on entry, and
in that case the store, with its snapshot tree and its databases, is left as
it was: no snapshot is built. -/
theorem C16_generate_snapshot_already_opened {B τ ω ε : Type}
    (snapshotNew : ω → Int → common.Hash → Bool → Bool → Bool → (Option τ × Option ε) × ω)
    (MiB : Int) (s : evmstore.Store B τ ω) (root : common.Hash) (rebuild async : Bool) :
    ((evmstore.Store.GenerateEvmSnapshot snapshotNew MiB s root rebuild async).1
        = some evmstore.SnapshotError.alreadyOpened ↔ s.Snaps ≠ none) ∧
    (s.Snaps ≠ none →
      (evmstore.Store.GenerateEvmSnapshot snapshotNew MiB s root rebuild async).2 = s) := by
  unfold evmstore.Store.GenerateEvmSnapshot
  cases hs : s.Snaps with
  | none =>
    constructor
    · constructor
      · intro h
        cases hr : (snapshotNew s.world (Int.tdiv s.cfg.Cache.EvmSnap MiB) root async rebuild
            false).1.2 with
        | none => simp [hr] at h
        | some err => simp [hr] at h
      · intro h; exact absurd rfl h
    · intro h; exact absurd rfl h
  | some tree => simp

/-- C16 (witness): a store whose snapshot tree is already open. -/
theorem C16_generate_snapshot_already_opened_witness :
    ({ evmstore.sampleStore 1000 10 [] with Snaps := some () }
        : evmstore.Store (common.Hash × Int) Unit (List evmstore.TrieCall)).Snaps ≠ none ∧
    (evmstore.Store.GenerateEvmSnapshot
        (fun w _ _ _ _ _ => ((some (), (none : Option Unit)), w)) 1048576
        { evmstore.sampleStore 1000 10 [] with Snaps := some () } 1 false false).2
      = { evmstore.sampleStore 1000 10 [] with Snaps := some () } :=
  ⟨by simp, (C16_generate_snapshot_already_opened
    (fun w _ _ _ _ _ => ((some (), (none : Option Unit)), w)) 1048576
    { evmstore.sampleStore 1000 10 [] with Snaps := some () } 1 false false).2 (by simp)⟩

/-- C17: when `flush` is true or `TrieDirtyDisabled` is set, `Commit` commits
the state root to the trie database and returns exactly the error of that
commit; the databases are left as that one call leaves them (the root is not
referenced, nothing else is called) and the garbage-collection queue is left
as it was. -/
theorem C17_commit_flush {B τ ω ε : Type} (triedb : evmstore.TrieDB ω ε)
    (idealBatchSize fuel : Nat) (s : evmstore.Store B τ ω) (block : idx.Block)
    (root : common.Hash) (flush : Bool)
    (h : flush = true ∨ s.cfg.Cache.TrieDirtyDisabled = true) :
    evmstore.Store.Commit triedb idealBatchSize fuel s block root flush
      = some ((triedb.Commit root false s.world).1,
          { s with world := (triedb.Commit root false s.world).2 }) ∧
    (∀ r, evmstore.Store.Commit triedb idealBatchSize fuel s block root flush = some r →
      r.2.triegc = s.triegc) := by
  have hcond : (flush || s.cfg.Cache.TrieDirtyDisabled) = true := by
    rcases h with h | h <;> simp [h]
  have hrun : evmstore.Store.Commit triedb idealBatchSize fuel s block root flush
      = some ((triedb.Commit root false s.world).1,
          { s with world := (triedb.Commit root false s.world).2 }) := by
    unfold evmstore.Store.Commit
    simp only [hcond, if_true]
  refine ⟨hrun, ?_⟩
  intro r hr
  rw [hrun] at hr
  cases hr
  rfl

/-- C17 (witness): a flushing commit on the recording trie database logs the
one `Commit` call. -/
theorem C17_commit_flush_witness :
    (true = true ∨ (evmstore.sampleStore 1000 10 [(9, -1)]).cfg.Cache.TrieDirtyDisabled = true) ∧
    evmstore.Store.Commit evmstore.recorder 102400 0 (evmstore.sampleStore 1000 10 [(9, -1)])
        20 3 true
      = some (none, { evmstore.sampleStore 1000 10 [(9, -1)] with
          world := [evmstore.TrieCall.commit 3] }) :=
  ⟨Or.inl rfl, (C17_commit_flush evmstore.recorder 102400 0
    (evmstore.sampleStore 1000 10 [(9, -1)]) 20 3 true (Or.inl rfl)).1⟩

/-- C18: a non-flushing `Commit(block, root)` with `block > TriesInMemory = 16`
ends (given at least as many loop iterations as the queue has entries after
the push); every previously queued root whose block number is at most
`block - 16` is dereferenced exactly once and removed, and on return the queue
holds exactly the previously queued roots with a block number greater than
`block - 16` and the new entry for `(root, block)`.  Block numbers are below
`2^63`, where the priority `-int64(block)` is the negated block number. -/
theorem C18_commit_garbage_collects {B τ ω ε : Type} (triedb : evmstore.TrieDB ω ε)
    (idealBatchSize fuel : Nat) (s : evmstore.Store B τ ω) (block : Nat)
    (root : common.Hash)
    (hdirty : s.cfg.Cache.TrieDirtyDisabled = false)
    (hblock : evmstore.TriesInMemory < block) (hsmall : block < 2 ^ 63)
    (hqueue : ∀ e ∈ s.triegc.items, -2 ^ 63 < e.2 ∧ e.2 ≤ 0)
    (hfuel : s.triegc.items.length + 1 ≤ fuel) :
    ∃ (popped : List (common.Hash × Int)) (queue : prque.Prque common.Hash),
      evmstore.Store.Commit triedb idealBatchSize fuel s block root false
        = some (none, { s with
            triegc := queue
            world := (popped.map Prod.fst).foldl (fun w r => triedb.Dereference r w)
              (evmstore.Store.Cap triedb idealBatchSize
                { s with world := triedb.Reference root 0 s.world }).world }) ∧
      popped.Perm (s.triegc.items.filter (fun e => decide (evmstore.blockOf e.2 ≤ block - 16))) ∧
      queue.items.Perm
        (s.triegc.items.filter (fun e => decide (block - 16 < evmstore.blockOf e.2))
          ++ [(root, -(Int.ofNat block))]) := by
  have hblock' : 16 < block := hblock
  have hint : machine.int64 (Int.ofNat block) = Int.ofNat block :=
    evmstore.int64_ofNat block hsmall
  have hneg : machine.int64 (-(Int.ofNat block)) = -(Int.ofNat block) :=
    evmstore.int64_neg_ofNat block hsmall
  have hcur : machine.uint64 (Int.ofNat block) = block :=
    evmstore.uint64_ofNat block (by omega)
  have hnewrange : -2 ^ 63 < -(Int.ofNat block) ∧ -(Int.ofNat block) ≤ 0 := by
    simp only [Int.ofNat_eq_coe]
    omega
  have hnewblock : evmstore.blockOf (-(Int.ofNat block)) = block := by
    have h := evmstore.blockOf_of_range _ hnewrange.1 hnewrange.2
    rw [neg_neg] at h
    exact Int.ofNat.inj h
  have hrange : ∀ e ∈ (s.triegc.Push root (-(Int.ofNat block))).items,
      -2 ^ 63 < e.2 ∧ e.2 ≤ 0 := by
    intro e he
    simp only [prque.Prque.Push, List.mem_append, List.mem_singleton] at he
    rcases he with he | he
    · exact hqueue e he
    · rw [he]; exact hnewrange
  have hlen : (s.triegc.Push root (-(Int.ofNat block))).items.length ≤ fuel := by
    simp only [prque.Prque.Push, List.length_append, List.length_singleton]
    exact hfuel
  obtain ⟨popped, queue, hrun, hp1, hp2⟩ := evmstore.gcLoop_spec triedb (block - 16) fuel
    (s.triegc.Push root (-(Int.ofNat block)))
    (evmstore.Store.Cap triedb idealBatchSize
      { s with world := triedb.Reference root 0 s.world }).world hlen hrange
  refine ⟨popped, queue, ?_, ?_, ?_⟩
  · obtain ⟨h1, h2, h3, h4⟩ := evmstore.cap_frame triedb idealBatchSize
      { s with world := triedb.Reference root 0 s.world,
               triegc := s.triegc.Push root (-(Int.ofNat block)) }
    have h5 := evmstore.cap_world_congr triedb idealBatchSize
      { s with world := triedb.Reference root 0 s.world,
               triegc := s.triegc.Push root (-(Int.ofNat block)) }
      { s with world := triedb.Reference root 0 s.world } rfl rfl
    unfold evmstore.Store.Commit
    simp only [hdirty, hint, hneg, hcur, Bool.or_self, Bool.false_eq_true, if_false]
    rw [if_pos hblock]
    simp only [evmstore.TriesInMemory, h1, h2, h3, h4, h5, hrun]
  · have hsplit : (s.triegc.Push root (-(Int.ofNat block))).items.filter
        (fun e => decide (evmstore.blockOf e.2 ≤ block - 16))
        = s.triegc.items.filter (fun e => decide (evmstore.blockOf e.2 ≤ block - 16)) := by
      simp only [prque.Prque.Push, List.filter_append]
      rw [List.filter_cons_of_neg (by simp only [hnewblock, decide_eq_true_eq]; omega)]
      simp
    rw [hsplit] at hp1
    exact hp1
  · have hsplit : (s.triegc.Push root (-(Int.ofNat block))).items.filter
        (fun e => decide (block - 16 < evmstore.blockOf e.2))
        = s.triegc.items.filter (fun e => decide (block - 16 < evmstore.blockOf e.2))
          ++ [(root, -(Int.ofNat block))] := by
      simp only [prque.Prque.Push, List.filter_append]
      rw [List.filter_cons_of_pos (by simp only [hnewblock, decide_eq_true_eq]; omega)]
      simp
    rw [hsplit] at hp2
    exact hp2

/-- C18 (witness): roots 7, 8 and 9 are queued for blocks 1, 5 and 30; the
commit of block 20 keeps block 30, and blocks 1 and 5 lie at or below
`20 - 16`. -/
theorem C18_commit_garbage_collects_witness :
    (evmstore.sampleStore 1000 10 [(7, -1), (8, -5), (9, -30)]).cfg.Cache.TrieDirtyDisabled
      = false ∧
    evmstore.TriesInMemory < 20 ∧ 20 < 2 ^ 63 ∧
    (∀ e ∈ (evmstore.sampleStore 1000 10 [(7, -1), (8, -5), (9, -30)]).triegc.items,
      -2 ^ 63 < e.2 ∧ e.2 ≤ 0) ∧
    (evmstore.sampleStore 1000 10 [(7, -1), (8, -5), (9, -30)]).triegc.items.length + 1 ≤ 4 ∧
    ∃ (popped : List (common.Hash × Int)) (queue : prque.Prque common.Hash),
      evmstore.Store.Commit evmstore.recorder 102400 4
          (evmstore.sampleStore 1000 10 [(7, -1), (8, -5), (9, -30)]) 20 3 false
        = some (none, { evmstore.sampleStore 1000 10 [(7, -1), (8, -5), (9, -30)] with
            triegc := queue
            world := (popped.map Prod.fst).foldl
              (fun w r => evmstore.recorder.Dereference r w)
              (evmstore.Store.Cap evmstore.recorder 102400
                { evmstore.sampleStore 1000 10 [(7, -1), (8, -5), (9, -30)] with
                  world := evmstore.recorder.Reference 3 0
                    (evmstore.sampleStore 1000 10 [(7, -1), (8, -5), (9, -30)]).world }).world }) ∧
      popped.Perm ((evmstore.sampleStore 1000 10 [(7, -1), (8, -5), (9, -30)]).triegc.items.filter
        (fun e => decide (evmstore.blockOf e.2 ≤ 20 - 16))) ∧
      queue.items.Perm
        ((evmstore.sampleStore 1000 10 [(7, -1), (8, -5), (9, -30)]).triegc.items.filter
          (fun e => decide (20 - 16 < evmstore.blockOf e.2)) ++ [(3, -(Int.ofNat 20))]) :=
  ⟨by decide, by decide, by decide, by decide, by decide,
    C18_commit_garbage_collects evmstore.recorder 102400 4
      (evmstore.sampleStore 1000 10 [(7, -1), (8, -5), (9, -30)]) 20 3
      (by decide) (by decide) (by decide) (by decide) (by decide)⟩

/-- C19: when `LightCheck` returns nil, `Enqueue` of either checker does
exactly what one call of `HeavyCheck.Enqueue` with the same input and the
same callback does, and the error that call returns has no effect; with a
heavy checker that logs its call and returns `herr` without invoking the
callback, the log grows by exactly one `HeavyCheck.Enqueue` entry for that
input and by no invocation of the callback. -/
theorem C19_light_ok_delegates_to_heavy {σ α ε : Type}
    (light : α → Option ε) (x : α) (hlight : light x = none) :
    (∀ (heavy : evallcheck.HeavyCheck σ α ε) (checked : Option ε → σ → σ) (w : σ),
        evallcheck.Checker.Enqueue { HeavyCheck := heavy, LightCheck := light } x checked w
          = (heavy.Enqueue x checked w).2) ∧
    (∀ (heavy : bvallcheck.HeavyCheck σ α ε) (checked : Option ε → σ → σ) (w : σ),
        bvallcheck.Checker.Enqueue { HeavyCheck := heavy, LightCheck := light } x checked w
          = (heavy.Enqueue x checked w).2) ∧
    (∀ (herr : Option ε) (log : List (eventcheck.Action α ε)),
        evallcheck.Checker.Enqueue
            { HeavyCheck := { Enqueue := eventcheck.logged (fun _ _ l => (herr, l)) },
              LightCheck := light } x eventcheck.record log
          = log ++ [eventcheck.Action.heavyEnqueue x] ∧
        eventcheck.heavyCalls (evallcheck.Checker.Enqueue
            { HeavyCheck := { Enqueue := eventcheck.logged (fun _ _ l => (herr, l)) },
              LightCheck := light } x eventcheck.record log) = eventcheck.heavyCalls log + 1 ∧
        eventcheck.invocations (evallcheck.Checker.Enqueue
            { HeavyCheck := { Enqueue := eventcheck.logged (fun _ _ l => (herr, l)) },
              LightCheck := light } x eventcheck.record log) = eventcheck.invocations log) ∧
    (∀ (herr : Option ε) (log : List (eventcheck.Action α ε)),
        bvallcheck.Checker.Enqueue
            { HeavyCheck := { Enqueue := eventcheck.logged (fun _ _ l => (herr, l)) },
              LightCheck := light } x eventcheck.record log
          = log ++ [eventcheck.Action.heavyEnqueue x] ∧
        eventcheck.heavyCalls (bvallcheck.Checker.Enqueue
            { HeavyCheck := { Enqueue := eventcheck.logged (fun _ _ l => (herr, l)) },
              LightCheck := light } x eventcheck.record log) = eventcheck.heavyCalls log + 1 ∧
        eventcheck.invocations (bvallcheck.Checker.Enqueue
            { HeavyCheck := { Enqueue := eventcheck.logged (fun _ _ l => (herr, l)) },
              LightCheck := light } x eventcheck.record log) = eventcheck.invocations log) := by
  refine ⟨?_, ?_, ?_, ?_⟩
  · intro heavy checked w
    simp [evallcheck.Checker.Enqueue, hlight]
  · intro heavy checked w
    simp [bvallcheck.Checker.Enqueue, hlight]
  · intro herr log
    simp [evallcheck.Checker.Enqueue, hlight, eventcheck.logged,
      eventcheck.invocations_append, eventcheck.heavyCalls_append,
      eventcheck.invocations, eventcheck.heavyCalls]
  · intro herr log
    simp [bvallcheck.Checker.Enqueue, hlight, eventcheck.logged,
      eventcheck.invocations_append, eventcheck.heavyCalls_append,
      eventcheck.invocations, eventcheck.heavyCalls]

/-- C19 (witness): a light check that accepts input 0 and a heavy checker
that returns error 7 without invoking the callback. -/
theorem C19_light_ok_delegates_to_heavy_witness :
    (fun (_ : Nat) => (none : Option Nat)) 0 = none ∧
    evallcheck.Checker.Enqueue
        { HeavyCheck := { Enqueue := eventcheck.logged (fun _ _ l => (some 7, l)) },
          LightCheck := fun (_ : Nat) => (none : Option Nat) }
        0 eventcheck.record ([] : List (eventcheck.Action Nat Nat))
      = [] ++ [eventcheck.Action.heavyEnqueue 0] :=
  ⟨rfl, ((C19_light_ok_delegates_to_heavy (σ := List (eventcheck.Action Nat Nat))
    (fun (_ : Nat) => (none : Option Nat)) 0 rfl).2.2.1 (some 7) []).1⟩

/-- C20: the function returned by `DbCacheFdlimit(cfg)` resolves a name in
this order: a key of `cfg.Table` gives that entry's `(Cache, Fdlimit)`;
otherwise, if some key containing `%` matches the name, the entry of a
matching key; otherwise the entry under the empty key, which is `(0, 0)` when
that key is absent.  The numbers are returned as `int`. -/
theorem C20_cache_resolution_order {ε : Type}
    (CompileFilter : List Char → List Char → Except ε (integration.Filter ε))
    (cfg : integration.DBsCacheConfig) (f : List Char → Int × Int)
    (hf : integration.DbCacheFdlimit CompileFilter cfg = .ok f) (name : List Char) :
    (∀ cache, cfg.Table.lookup name = some cache →
      f name = (integration.toInt cache.Cache, integration.toInt cache.Fdlimit)) ∧
    (cfg.Table.lookup name = none →
      (∃ entry ∈ cfg.Table, entry.1.contains '%' = true ∧
        integration.Matches CompileFilter entry.1 name) →
      ∃ entry ∈ cfg.Table, entry.1.contains '%' = true ∧
        integration.Matches CompileFilter entry.1 name ∧
        f name = (integration.toInt entry.2.Cache, integration.toInt entry.2.Fdlimit)) ∧
    (cfg.Table.lookup name = none →
      (¬ ∃ entry ∈ cfg.Table, entry.1.contains '%' = true ∧
        integration.Matches CompileFilter entry.1 name) →
      (∀ cache, cfg.Table.lookup [] = some cache →
        f name = (integration.toInt cache.Cache, integration.toInt cache.Fdlimit)) ∧
      (cfg.Table.lookup [] = none → f name = (0, 0))) := by
  unfold integration.DbCacheFdlimit at hf
  cases hb : integration.buildFilters CompileFilter cfg.Table with
  | error err => simp [hb] at hf
  | ok fmts =>
    simp only [hb] at hf
    have hfeq : f = integration.cacher cfg fmts := by
      simp at hf; exact hf.symm
    subst hfeq
    refine ⟨?_, ?_, ?_⟩
    · intro cache hl
      simp [integration.cacher, hl]
    · intro hnone ⟨entry, he, hpat, fn, out, hcomp, hacc⟩
      obtain ⟨fn', hcomp', hmem⟩ :=
        integration.buildFilters_complete CompileFilter cfg.Table fmts hb entry he hpat
      have hfn : fn' = fn := by
        rw [hcomp] at hcomp'
        cases hcomp'; rfl
      subst hfn
      cases hm : integration.firstMatch name fmts with
      | none =>
        exact absurd hacc (integration.firstMatch_none name fmts hm _ hmem out)
      | some cache =>
        obtain ⟨p, hp, hpc, out', hacc'⟩ := integration.firstMatch_some name fmts cache hm
        obtain ⟨entry', he', hpat', hcomp'', hc''⟩ :=
          integration.buildFilters_sound CompileFilter cfg.Table fmts hb p hp
        refine ⟨entry', he', hpat', ⟨p.1, out', hcomp'', hacc'⟩, ?_⟩
        simp [integration.cacher, hnone, hm, hc'', hpc]
    · intro hnone hno
      have hm : integration.firstMatch name fmts = none := by
        cases hm : integration.firstMatch name fmts with
        | none => rfl
        | some cache =>
          obtain ⟨p, hp, _, out', hacc'⟩ := integration.firstMatch_some name fmts cache hm
          obtain ⟨entry', he', hpat', hcomp'', _⟩ :=
            integration.buildFilters_sound CompileFilter cfg.Table fmts hb p hp
          exact absurd ⟨entry', he', hpat', p.1, out', hcomp'', hacc'⟩ hno
      constructor
      · intro cache hl
        simp [integration.cacher, hnone, hm, hl]
      · intro hl
        simp [integration.cacher, hnone, hm, hl, integration.toInt]

/-- C20 (witness): the sample table, whose pattern `epoch-%d` compiles, asked
for the exact key `lachesis`. -/
theorem C20_cache_resolution_order_witness :
    integration.DbCacheFdlimit integration.sampleCompile integration.sampleTable
      = .ok (integration.cacher integration.sampleTable
          [((fun req => if List.isPrefixOf ['e', 'p', 'o', 'c', 'h', '-'] req then .ok req
              else .error ()), { Cache := 20, Fdlimit := 2 })]) ∧
    integration.cacher integration.sampleTable
        [((fun req => if List.isPrefixOf ['e', 'p', 'o', 'c', 'h', '-'] req then .ok req
            else .error ()), { Cache := 20, Fdlimit := 2 })]
        ['l', 'a', 'c', 'h', 'e', 's', 'i', 's']
      = (integration.toInt 10, integration.toInt 1) :=
  ⟨rfl, (C20_cache_resolution_order integration.sampleCompile integration.sampleTable _ rfl
    ['l', 'a', 'c', 'h', 'e', 's', 'i', 's']).1 { Cache := 10, Fdlimit := 1 } rfl⟩

/-- C21: the `OnDropNotFlushed` callback supplied by `GetEngineCallbacks`
runs the base index's handler on the state it is invoked in and then purges
the highest-before time cache: whatever the base handler does, afterwards no
key is cached and the cache length is 0, and the rest of the index is as the
base handler left it.  The Lowest-After get, set and construct callbacks
return what the base index's callbacks return. -/
theorem C21_engine_callbacks_delegate {β φ L : Type} (methods : vecmt.VectorMethods β φ)
    (baseCallbacks : vecengine.Callbacks (vecmt.Index β φ) L) (vi : vecmt.Index β φ) :
    (vecmt.Index.GetEngineCallbacks methods baseCallbacks).OnDropNotFlushed vi
        = (baseCallbacks.OnDropNotFlushed vi).onDropNotFlushed ∧
    (∀ id : hash.Event,
      ((vecmt.Index.GetEngineCallbacks methods baseCallbacks).OnDropNotFlushed
        vi).cache.HighestBeforeTime.Get id = none) ∧
    ((vecmt.Index.GetEngineCallbacks methods baseCallbacks).OnDropNotFlushed
        vi).cache.HighestBeforeTime.Len = 0 ∧
    ((vecmt.Index.GetEngineCallbacks methods baseCallbacks).OnDropNotFlushed vi).Base
        = (baseCallbacks.OnDropNotFlushed vi).Base ∧
    ((vecmt.Index.GetEngineCallbacks methods baseCallbacks).OnDropNotFlushed vi).vecDb
        = (baseCallbacks.OnDropNotFlushed vi).vecDb ∧
    ((vecmt.Index.GetEngineCallbacks methods baseCallbacks).OnDropNotFlushed vi).table
        = (baseCallbacks.OnDropNotFlushed vi).table ∧
    ((vecmt.Index.GetEngineCallbacks methods baseCallbacks).OnDropNotFlushed vi).validators
        = (baseCallbacks.OnDropNotFlushed vi).validators ∧
    (∀ (event : hash.Event) (s : vecmt.Index β φ),
      (vecmt.Index.GetEngineCallbacks methods baseCallbacks).GetLowestAfter event s
        = baseCallbacks.GetLowestAfter event s) ∧
    (∀ (event : hash.Event) (i : L) (s : vecmt.Index β φ),
      (vecmt.Index.GetEngineCallbacks methods baseCallbacks).SetLowestAfter event i s
        = baseCallbacks.SetLowestAfter event i s) ∧
    (∀ size : idx.Validator,
      (vecmt.Index.GetEngineCallbacks methods baseCallbacks).NewLowestAfter size
        = baseCallbacks.NewLowestAfter size) := by
  refine ⟨rfl, ?_, ?_, rfl, rfl, rfl, rfl, ?_, ?_, ?_⟩
  · intro id
    simp [vecmt.Index.GetEngineCallbacks, vecmt.Index.onDropNotFlushed, wlru.Cache.Purge,
      wlru.Cache.Get]
  · simp [vecmt.Index.GetEngineCallbacks, vecmt.Index.onDropNotFlushed, wlru.Cache.Purge,
      wlru.Cache.Len]
  · intro event s
    rfl
  · intro event i s
    rfl
  · intro size
    rfl

/-- C22 (counterexample): the locator of the single byte `0xFF` denotes 255;
its increment, 256, is the two bytes `0x01 0x00`, which `LeftPadBytes` leaves
as they are, and they compare less than `0xFF`: the result of `Compare` is
-1, not above 0. -/
theorem C22_counterexample_all_ff :
    dagstream.Locator.Inc [255] = [1, 0] ∧
    dagstream.Locator.Compare (dagstream.Locator.Inc [255]) (basestream.Locator.dagstream [255])
      = Except.ok (-1) ∧
    ¬ ∃ c : Int,
      dagstream.Locator.Compare (dagstream.Locator.Inc [255])
        (basestream.Locator.dagstream [255]) = Except.ok c ∧ 0 < c := by
  refine ⟨by decide, rfl, ?_⟩
  rintro ⟨c, hc, hpos⟩
  have h : dagstream.Locator.Compare (dagstream.Locator.Inc [255])
      (basestream.Locator.dagstream [255]) = Except.ok (-1) := rfl
  rw [h] at hc
  cases hc
  exact absurd hpos (by decide)

/-- C22 (amended): for every locator that is empty or has a byte different
from `0xFF`, `l.Inc().Compare(l)` returns a result above 0. -/
theorem C22_inc_compares_greater (l : dagstream.Locator)
    (h : l = [] ∨ ∃ b ∈ l, b ≠ 255) :
    ∃ c : Int,
      dagstream.Locator.Compare (dagstream.Locator.Inc l) (basestream.Locator.dagstream l)
        = Except.ok c ∧ 0 < c := by
  refine ⟨1, ?_, by decide⟩
  unfold dagstream.Locator.Compare
  simp only
  rcases h with hnil | hne
  · subst hnil
    rfl
  · have hlt := big.setBytes_succ_lt l hne
    have hlen : (big.Bytes (big.SetBytes l + 1)).length ≤ l.length :=
      big.length_bytes_le _ _ hlt
    have h1 : (dagstream.Locator.Inc l).length = l.length :=
      common.length_leftPadBytes _ _ hlen
    have h2 : big.SetBytes (dagstream.Locator.Inc l) = big.SetBytes l + 1 := by
      unfold dagstream.Locator.Inc
      simp only [common.Big1]
      rw [common.setBytes_leftPadBytes, big.setBytes_bytes]
    rw [bytes.compare_of_setBytes_lt (dagstream.Locator.Inc l) l h1 (by omega)]

/-- C22 (witness): the locator `0x00 0xFF`, whose increment is `0x01 0x00`. -/
theorem C22_inc_compares_greater_witness :
    (([0, 255] : dagstream.Locator) = [] ∨ ∃ b ∈ ([0, 255] : dagstream.Locator), b ≠ 255) ∧
    ∃ c : Int,
      dagstream.Locator.Compare (dagstream.Locator.Inc [0, 255])
        (basestream.Locator.dagstream [0, 255]) = Except.ok c ∧ 0 < c :=
  ⟨Or.inr ⟨0, by decide, by decide⟩,
    C22_inc_compares_greater [0, 255] (Or.inr ⟨0, by decide, by decide⟩)⟩

/-- C23: for every locator with a byte different from `0xFF`, `l.Inc()` has
the length of `l` and denotes, as a big-endian unsigned integer, the value of
`l` plus one. -/
theorem C23_inc_adds_one (l : dagstream.Locator) (h : ∃ b ∈ l, b ≠ 255) :
    (dagstream.Locator.Inc l).length = l.length ∧
    big.SetBytes (dagstream.Locator.Inc l) = big.SetBytes l + 1 := by
  have hlt := big.setBytes_succ_lt l h
  have hlen : (big.Bytes (big.SetBytes l + 1)).length ≤ l.length :=
    big.length_bytes_le _ _ hlt
  constructor
  · exact common.length_leftPadBytes _ _ hlen
  · unfold dagstream.Locator.Inc
    simp only [common.Big1]
    rw [common.setBytes_leftPadBytes, big.setBytes_bytes]

/-- C23 (witness): the locator `0x01 0xFF 0xFF` (131071) becomes the three
bytes of 131072. -/
theorem C23_inc_adds_one_witness :
    (∃ b ∈ ([1, 255, 255] : dagstream.Locator), b ≠ 255) ∧
    (dagstream.Locator.Inc [1, 255, 255]).length = 3 ∧
    big.SetBytes (dagstream.Locator.Inc [1, 255, 255]) = 131071 + 1 :=
  ⟨⟨1, by decide, by decide⟩, C23_inc_adds_one [1, 255, 255] ⟨1, by decide, by decide⟩⟩

/-- C24 (counterexample): three calls of `AddID` with the size `2^63 - 1`,
the largest `int`: the sizes add up to `3 * 2^63 - 3`, the field `Size`, a
`uint64`, wraps and `TotalSize()` is `2^63 - 3`. -/
theorem C24_counterexample_size_wraps :
    (∀ c ∈ [dagstream.Call.AddID 0 (2 ^ 63 - 1), dagstream.Call.AddID 1 (2 ^ 63 - 1),
        dagstream.Call.AddID 2 (2 ^ 63 - 1)], 0 ≤ dagstream.Call.size c) ∧
    (dagstream.Payload.build [dagstream.Call.AddID 0 (2 ^ 63 - 1),
        dagstream.Call.AddID 1 (2 ^ 63 - 1), dagstream.Call.AddID 2 (2 ^ 63 - 1)]).TotalSize
      = 2 ^ 63 - 3 ∧
    (([dagstream.Call.AddID 0 (2 ^ 63 - 1), dagstream.Call.AddID 1 (2 ^ 63 - 1),
        dagstream.Call.AddID 2 (2 ^ 63 - 1)].map dagstream.Call.size).sum : Int)
      = 3 * 2 ^ 63 - 3 ∧
    ((dagstream.Payload.build [dagstream.Call.AddID 0 (2 ^ 63 - 1),
        dagstream.Call.AddID 1 (2 ^ 63 - 1), dagstream.Call.AddID 2 (2 ^ 63 - 1)]).TotalSize : Int)
      ≠ ([dagstream.Call.AddID 0 (2 ^ 63 - 1), dagstream.Call.AddID 1 (2 ^ 63 - 1),
        dagstream.Call.AddID 2 (2 ^ 63 - 1)].map dagstream.Call.size).sum := by
  refine ⟨by decide, by decide, by decide, by decide⟩

/-- C24 (amended): for every payload built from the empty payload by calls of
`AddEvent` and `AddID` with non-negative sizes, `Len()` is the number of
calls, the number of stored events is the number of `AddEvent` calls, and
`TotalSize()` is the sum of the byte lengths of the events and of the sizes
modulo `2^64`: the sum itself whenever it is below `2^64`. -/
theorem C24_payload_accounting (calls : List dagstream.Call)
    (hsizes : ∀ c ∈ calls, 0 ≤ dagstream.Call.size c) :
    (dagstream.Payload.build calls).Len = Int.ofNat calls.length ∧
    ((dagstream.Payload.build calls).TotalSize : Int)
      = (calls.map dagstream.Call.size).sum % 2 ^ 64 ∧
    ((calls.map dagstream.Call.size).sum < 2 ^ 64 →
      ((dagstream.Payload.build calls).TotalSize : Int) = (calls.map dagstream.Call.size).sum) ∧
    (dagstream.Payload.build calls).Events.length
      = (calls.filter dagstream.Call.isAddEvent).length := by
  have hlen : ∀ cs : List dagstream.Call,
      (dagstream.Payload.build cs).IDs.length = cs.length := by
    intro cs
    induction cs using List.reverseRecOn with
    | nil => rfl
    | append_singleton cs c ih =>
      rw [dagstream.build_snoc]
      cases c <;>
        simp [dagstream.Call.run, dagstream.Payload.AddEvent, dagstream.Payload.AddID, ih]
  have hev : ∀ cs : List dagstream.Call,
      (dagstream.Payload.build cs).Events.length
        = (cs.filter dagstream.Call.isAddEvent).length := by
    intro cs
    induction cs using List.reverseRecOn with
    | nil => rfl
    | append_singleton cs c ih =>
      rw [dagstream.build_snoc]
      cases c <;>
        simp [dagstream.Call.run, dagstream.Payload.AddEvent, dagstream.Payload.AddID, ih,
          dagstream.Call.isAddEvent, List.filter_append]
  have hsize : ∀ cs : List dagstream.Call,
      ((dagstream.Payload.build cs).Size : Int)
        = (cs.map dagstream.Call.size).sum % 2 ^ 64 := by
    intro cs
    induction cs using List.reverseRecOn with
    | nil => rfl
    | append_singleton cs c ih =>
      rw [dagstream.build_snoc]
      have hstep : ((dagstream.Call.run (dagstream.Payload.build cs) c).Size : Int)
          = (((dagstream.Payload.build cs).Size : Int) + dagstream.Call.size c % 2 ^ 64)
              % 2 ^ 64 := by
        cases c <;>
          simp only [dagstream.Call.run, dagstream.Payload.AddEvent, dagstream.Payload.AddID,
            dagstream.Call.size, machine.uint64_cast, Int.ofNat_eq_coe]
      rw [hstep, ih, List.map_append, List.sum_append]
      simp only [List.map_cons, List.map_nil, List.sum_cons, List.sum_nil, add_zero]
      rw [← Int.add_emod]
  have hnonneg : 0 ≤ (calls.map dagstream.Call.size).sum := by
    apply List.sum_nonneg
    intro x hx
    obtain ⟨c, hc, rfl⟩ := List.mem_map.mp hx
    exact hsizes c hc
  refine ⟨?_, hsize calls, ?_, hev calls⟩
  · unfold dagstream.Payload.Len
    rw [hlen calls]
  · intro hsmall
    have := hsize calls
    unfold dagstream.Payload.TotalSize
    rw [this]
    exact Int.emod_eq_of_lt hnonneg hsmall

/-- C24 (witness): one `AddID` of size 5 and one `AddEvent` of three bytes:
two identifiers, one event, total size 8. -/
theorem C24_payload_accounting_witness :
    (∀ c ∈ [dagstream.Call.AddID 0 5, dagstream.Call.AddEvent 1 [1, 2, 3]],
      0 ≤ dagstream.Call.size c) ∧
    (dagstream.Payload.build
      [dagstream.Call.AddID 0 5, dagstream.Call.AddEvent 1 [1, 2, 3]]).Len = Int.ofNat 2 ∧
    ((dagstream.Payload.build
      [dagstream.Call.AddID 0 5, dagstream.Call.AddEvent 1 [1, 2, 3]]).TotalSize : Int)
        = (5 + (3 + 0)) % 2 ^ 64 ∧
    (((5 : Int) + (3 + 0)) < 2 ^ 64 →
      ((dagstream.Payload.build
        [dagstream.Call.AddID 0 5, dagstream.Call.AddEvent 1 [1, 2, 3]]).TotalSize : Int)
          = 5 + (3 + 0)) ∧
    (dagstream.Payload.build
      [dagstream.Call.AddID 0 5, dagstream.Call.AddEvent 1 [1, 2, 3]]).Events.length = 1 :=
  ⟨by decide,
    C24_payload_accounting [dagstream.Call.AddID 0 5, dagstream.Call.AddEvent 1 [1, 2, 3]]
      (by decide)⟩
